import Mathlib

/-!
Verification of `src/bluesky_nexus/convert_nexus.py` (NeXus nxdl.yml → simplified
yaml converter).

The Python module transforms nested dictionaries loaded from yaml files.  We
embed the Python value universe as the inductive type `Val` (None, bool, int,
str, list, dict -- dicts are insertion-ordered association lists with string
keys, exactly as produced by `yaml.safe_load` on the schema files handled by
the module).  Fallible Python code (exceptions) is embedded with
`Except PyErr`.  The regular expressions `RE_GROUP`, `RE_FIELD`,
`RE_ATTRIBUTE`, `RE_LINK`, `RE_CHOICE` are embedded as deterministic string
matchers over character lists; each one is an exact translation of the
corresponding pattern (the patterns have no genuine backtracking: every
quantified class excludes the character that must follow it, and the optional
backslash repetition in `RE_ATTRIBUTE` must be followed by `@`).  Python's
`\w` is modelled as `[A-Za-z0-9_]`; the schema keys handled by the module are
ASCII.  File loading (`open` + `yaml.safe_load`) is embedded as a lookup in an
explicit file-system association list `VFs`, and the mutual recursion between
`convert_nxyaml` and `resolve_nxdlrefs` (which is unbounded in Python when
reference cycles occur) is made total with an explicit fuel parameter; fuel
exhaustion is a distinguished error that no Python execution exhibits on
acyclic inputs.
-/

set_option linter.unusedVariables false

/-- Embedded Python value: None, bool, int, str, list, dict (insertion order). -/
inductive Val where
  | vnull
  | vbool (b : Bool)
  | vint (n : Int)
  | vstr (s : String)
  | vlist (l : List Val)
  | vdict (entries : List (String × Val))

open Val

/-- Embedded Python exceptions raised by the module, plus two modelling
artifacts: `fuelExhausted` (the fuel parameter ran out; no terminating Python
run reaches it) and `nonStringKey` (the model's dicts are string-keyed; the
parser only ever produces string names, so Python never builds a dict with a
non-string key on the paths modelled here). -/
inductive PyErr where
  | attributeError
  | typeError
  | keyError
  | classificationError (key : String)
  | cardinalityError
  | classMismatchError
  | structuralError
  | fileNotFoundError
  | fuelExhausted
  | nonStringKey
  deriving DecidableEq, Repr

/- Structural equality of embedded values, modelling Python `==` / `!=`
between yaml-derived values. -/
mutual
def vbeq : Val → Val → Bool
  | vnull, vnull => true
  | vbool a, vbool b => a == b
  | vint a, vint b => a == b
  | vstr a, vstr b => a == b
  | vlist a, vlist b => vbeqList a b
  | vdict a, vdict b => vbeqEntries a b
  | _, _ => false

def vbeqList : List Val → List Val → Bool
  | [], [] => true
  | a :: as, b :: bs => vbeq a b && vbeqList as bs
  | _, _ => false

def vbeqEntries : List (String × Val) → List (String × Val) → Bool
  | [], [] => true
  | (k, v) :: as, (k2, v2) :: bs => k == k2 && vbeq v v2 && vbeqEntries as bs
  | _, _ => false
end

/-- Python truthiness of an embedded value. -/
def truthy : Val → Bool
  | vnull => false
  | vbool b => b
  | vint n => n != 0
  | vstr s => !s.isEmpty
  | vlist l => !l.isEmpty
  | vdict e => !e.isEmpty

/-- Whether a value is a Python `dict` (`isinstance(v, dict)`). -/
def Val.isDict : Val → Bool
  | vdict _ => true
  | _ => false

/-- First-occurrence lookup in a dict, i.e. Python `d.get(k)` / `k in d`. -/
def dlookup : List (String × Val) → String → Option Val
  | [], _ => none
  | (k0, v0) :: r, k => if k0 = k then some v0 else dlookup r k

/-- Python `d[k] = v`: replace in place if the key exists, else append. -/
def dset : List (String × Val) → String → Val → List (String × Val)
  | [], k, v => [(k, v)]
  | (k0, v0) :: r, k, v => if k0 = k then (k0, v) :: r else (k0, v0) :: dset r k v

/-- Python `d.pop(k, default)`, key-removal part (keys are unique in Python
dicts; removing every occurrence agrees on all states reachable from Python). -/
def dremove : List (String × Val) → String → List (String × Val)
  | [], _ => []
  | (k0, v0) :: r, k => if k0 = k then dremove r k else (k0, v0) :: dremove r k

/-- Python `d.update(u)`: left-to-right `d[k] = v` for the items of `u`. -/
def dictUpdate (d u : List (String × Val)) : List (String × Val) :=
  u.foldl (fun acc kv => dset acc kv.1 kv.2) d

/-- Membership test on a string list (Python `k in [...]`). -/
def strMem : List String → String → Bool
  | [], _ => false
  | s :: r, k => if s = k then true else strMem r k

/-- Python `v.get(k, d)` where `v` is known to be a dict at every use site
(the default is returned for non-dicts; such calls are guarded in the code). -/
def vgetD (v : Val) (k : String) (d : Val) : Val :=
  match v with
  | vdict e => (dlookup e k).getD d
  | _ => d

/-- Python iteration `for x in v` (lists; dict iterates keys; str iterates
characters; other values raise TypeError). -/
def pyIter : Val → Except PyErr (List Val)
  | vlist l => .ok l
  | vdict e => .ok (e.map (fun kv => vstr kv.1))
  | vstr s => .ok (s.toList.map (fun c => vstr (String.singleton c)))
  | _ => .error .typeError

/-- Python `len(v)` (TypeError on None/bool/int). -/
def pyLen : Val → Except PyErr Nat
  | vstr s => .ok s.length
  | vlist l => .ok l.length
  | vdict e => .ok e.length
  | _ => .error .typeError

/-- Characters matched by the regex class `[\w]` (ASCII reading of `\w`). -/
def isWordChar (c : Char) : Bool := c.isAlphanum || c = '_'

/-- Characters matched by `[A-Z_]` (the body of an `NX_...` field type token). -/
def isTypeChar (c : Char) : Bool := ('A' ≤ c && c ≤ 'Z') || c = '_'

/-- Characters matched by `[a-z_]` (the body of an `NX...` group class token). -/
def isLowerChar (c : Char) : Bool := ('a' ≤ c && c ≤ 'z') || c = '_'

/-- Greedy span: longest prefix satisfying `p`, plus the remainder. -/
def spanW (p : Char → Bool) : List Char → List Char × List Char
  | [] => ([], [])
  | c :: cs =>
    if p c then
      let (t, r) := spanW p cs
      (c :: t, r)
    else ([], c :: cs)

/-- Matcher for `RE_FIELD = ^([\w]+)(?:\((NX_[A-Z_]+)\))?$`: a name of word
characters, optionally followed by a parenthesized `NX_` type token.  Returns
the two capture groups. -/
def matchField (key : String) : Option (String × Option String) :=
  let (name, rest) := spanW isWordChar key.toList
  if name.isEmpty then none
  else
    match rest with
    | [] => some (name.asString, none)
    | '(' :: 'N' :: 'X' :: '_' :: r =>
      let (t, r2) := spanW isTypeChar r
      if t.isEmpty then none
      else
        match r2 with
        | [')'] => some (name.asString, some (('N' :: 'X' :: '_' :: t).asString))
        | _ => none
    | _ => none

/-- Matcher for `RE_GROUP = ^([\w]*)\((NX[^_][a-z_]+)\)([\w]*)$`: optional
leading name, parenthesized class token `NX` + one non-underscore character +
one or more `[a-z_]`, optional trailing name.  Returns the three capture
groups (leading name, class token, trailing name). -/
def matchGroup (key : String) : Option (String × String × String) :=
  let (beg, rest) := spanW isWordChar key.toList
  match rest with
  | '(' :: 'N' :: 'X' :: c :: r =>
    if c = '_' then none
    else
      let (body, r2) := spanW isLowerChar r
      if body.isEmpty then none
      else
        match r2 with
        | ')' :: tail =>
          if tail.all isWordChar then
            some (beg.asString, ('N' :: 'X' :: c :: body).asString, tail.asString)
          else none
        | _ => none
  | _ => none

/-- Matcher for `RE_ATTRIBUTE = ^\\{0,2}\@([\w]+)(?:\((NX_[A-Z_]+)\))?$`: up
to two literal backslashes, an `@`, then a name with optional `NX_` type. -/
def matchAttribute (key : String) : Option (String × Option String) :=
  let (slashes, rest) := spanW (· = '\\') key.toList
  if slashes.length > 2 then none
  else
    match rest with
    | '@' :: r =>
      let (name, r2) := spanW isWordChar r
      if name.isEmpty then none
      else
        match r2 with
        | [] => some (name.asString, none)
        | '(' :: 'N' :: 'X' :: '_' :: r3 =>
          let (t, r4) := spanW isTypeChar r3
          if t.isEmpty then none
          else
            match r4 with
            | [')'] => some (name.asString, some (('N' :: 'X' :: '_' :: t).asString))
            | _ => none
        | _ => none
    | _ => none

/-- Matcher for `RE_LINK = ^([\w]+)\(link\)$`. -/
def matchLink (key : String) : Option String :=
  let (name, rest) := spanW isWordChar key.toList
  if name.isEmpty then none
  else if rest = ['(', 'l', 'i', 'n', 'k', ')'] then some (name.asString)
  else none

/-- Matcher for `RE_CHOICE = ^([\w]+)\(choice\)$`. -/
def matchChoice (key : String) : Option String :=
  let (name, rest) := spanW isWordChar key.toList
  if name.isEmpty then none
  else if rest = ['(', 'c', 'h', 'o', 'i', 'c', 'e', ')'] then some (name.asString)
  else none

/-- Python `key.startswith("$")`. -/
def startsDollar (key : String) : Bool :=
  match key.toList with
  | '$' :: _ => true
  | _ => false

example : matchGroup "source(NXsource)" = some ("source", "NXsource", "") := by decide
example : matchGroup "(NXdata)eff" = some ("", "NXdata", "eff") := by decide
example : matchGroup "(NX)a)x" = some ("", "NX)a", "x") := by decide
example : matchGroup "(NXa)" = none := by decide
example : matchField "start_time(NX_DATE_TIME)" = some ("start_time", some "NX_DATE_TIME") := by decide
example : matchField "a(NX_x)" = none := by decide
example : matchAttribute "\\@default(NX_CHAR)" = some ("default", some "NX_CHAR") := by decide
example : matchAttribute "@default" = some ("default", none) := by decide
example : matchLink "mylink(link)" = some "mylink" := by decide
example : matchChoice "pump(choice)" = some "pump" := by decide
example : matchGroup "$value" = none ∧ matchField "$value" = none ∧
    matchAttribute "$value" = none ∧ matchLink "$value" = none ∧
    matchChoice "$value" = none := by decide

/-- The fixed `NX_DTYPES` lookup table of the module. -/
def NX_DTYPES (s : String) : Option String :=
  if s = "NX_FLOAT" then some "float32"
  else if s = "NX_INT" then some "int16"
  else if s = "NX_BOOLEAN" then some "bool"
  else if s = "NX_CHAR" then some "str"
  else if s = "NX_NUMBER" then some "float32"
  else if s = "NX_DATE_TIME" then some "datetime64"
  else none

/-- Python `NX_DTYPES.get(v, None)`: string keys are looked up, other hashable
scalars are absent from the table, and unhashable values (list/dict) raise
TypeError. -/
def nxDtypeGet : Val → Except PyErr (Option String)
  | vstr s => .ok (NX_DTYPES s)
  | vlist _ => .error .typeError
  | vdict _ => .error .typeError
  | _ => .ok none

/-- Whether a dtype-name string starts with "str" (`dtype.name.startswith("str")`). -/
def startsStr (s : String) : Bool :=
  match s.toList with
  | 's' :: 't' :: 'r' :: _ => true
  | _ => false

/-- Modelled behaviour of `np.array(v).dtype.name` for the value shapes the
module can pass it: enumerations produced by the parser are lists of strings
(dict keys), for which numpy reports a `str*` dtype name; homogeneous int and
bool lists map to numpy default dtype names; remaining shapes are approximated
by `object`, which no claim exercises. -/
def npDtypeName (v : Val) : String :=
  match v with
  | vlist l =>
    if l.all (fun x => match x with | vstr _ => true | _ => false) then "str32"
    else if l.all (fun x => match x with | vint _ => true | _ => false) then "int64"
    else if l.all (fun x => match x with | vbool _ => true | _ => false) then "bool"
    else "object"
  | vstr _ => "str32"
  | vint _ => "int64"
  | vbool _ => "bool"
  | _ => "object"

/-- The quote character used by Python `repr` on strings. -/
def chQuote : Char := Char.ofNat 39

/-- Opening brace character (Python `repr` of dicts). -/
def chLB : Char := Char.ofNat 123

/-- Closing brace character (Python `repr` of dicts). -/
def chRB : Char := Char.ofNat 125

/- Python `repr` of an embedded value (used by `str.format` on containers);
string escaping inside `repr` is not modelled (no claim exercises it). -/
mutual
def pyRepr : Val → String
  | vnull => "None"
  | vbool b => if b then "True" else "False"
  | vint n => toString n
  | vstr s => String.singleton chQuote ++ s ++ String.singleton chQuote
  | vlist l => "[" ++ pyReprList l ++ "]"
  | vdict e => String.singleton chLB ++ pyReprEntries e ++ String.singleton chRB

def pyReprList : List Val → String
  | [] => ""
  | [v] => pyRepr v
  | v :: rest => pyRepr v ++ ", " ++ pyReprList rest

def pyReprEntries : List (String × Val) → String
  | [] => ""
  | [(k, v)] => pyRepr (vstr k) ++ ": " ++ pyRepr v
  | (k, v) :: rest => pyRepr (vstr k) ++ ": " ++ pyRepr v ++ ", " ++ pyReprEntries rest
end

/-- Python `str(v)` as used by f-string interpolation. -/
def pyStr : Val → String
  | vnull => "None"
  | vbool b => if b then "True" else "False"
  | vint n => toString n
  | vstr s => s
  | vlist l => pyRepr (vlist l)
  | vdict e => pyRepr (vdict e)

/-- Concatenation of strings with a separator (the result of Python
`sep.join` on a list of strings). -/
def strJoin (sep : String) : List String → String
  | [] => ""
  | [s] => s
  | s :: rest => s ++ sep ++ strJoin sep rest

/-- Python `sep.join(parts)` where every part must be a string (TypeError
otherwise). -/
def pyJoin (sep : String) : List Val → Except PyErr String
  | [] => .ok ""
  | [vstr s] => .ok s
  | vstr s :: rest =>
    match pyJoin sep rest with
    | .ok t => .ok (s ++ sep ++ t)
    | .error e => .error e
  | _ => .error .typeError

/-- Accumulator of one `parse_nxdlyml_level` pass: the residual property dict
plus the four typed lists collected during the key loop. -/
structure ParseAcc where
  result : List (String × Val)
  groups : List Val
  fields : List Val
  attributes : List Val
  links : List Val

/-- Final assembly of a parsed level: the residual dict with the non-empty
typed lists assigned under `groups`, `fields`, `attributes`, `links`. -/
def finishParse (acc : ParseAcc) : List (String × Val) :=
  let r := acc.result
  let r := if acc.groups.isEmpty then r else dset r "groups" (vlist acc.groups)
  let r := if acc.fields.isEmpty then r else dset r "fields" (vlist acc.fields)
  let r := if acc.attributes.isEmpty then r else dset r "attributes" (vlist acc.attributes)
  let r := if acc.links.isEmpty then r else dset r "links" (vlist acc.links)
  r

/-- Python string `or` for derived names: first operand if non-empty. -/
def pyOrName (a b : String) : String := if a.isEmpty then b else a

/-- Python `s.startswith("NX")`. -/
def startsNX (s : String) : Bool :=
  match s.toList with
  | 'N' :: 'X' :: _ => true
  | _ => false

/- `parse_nxdlyml_level`: classify every key of a raw level and collect
groups, fields, attributes and links plus residual scalar properties.
`parseLevelArg` embeds the recursive call pattern
`parse_nxdlyml_level(val or {})` (a truthy non-dict argument raises
AttributeError at `level.items()`).  `parseItems` is the key loop; each arm
mirrors one branch of the Python `if`/`elif` chain, including the dead
`(nx_name,) = match.groups()` statement of the `key.startswith("$")` branch,
which always raises AttributeError because every previously tried regex
returned None there. -/
mutual
def parseLevelArg : Val → Except PyErr (List (String × Val))
  | vdict items =>
    match parseItems ⟨[], [], [], [], []⟩ items with
    | .ok acc => .ok (finishParse acc)
    | .error e => .error e
  | v => if truthy v then .error .attributeError else .ok []

def parseItems (acc : ParseAcc) : List (String × Val) → Except PyErr ParseAcc
  | [] => .ok acc
  | (key, val) :: rest =>
    match matchGroup key with
    | some (beg, cls, tail) =>
      -- NeXus Group branch
      let nxName := pyOrName beg (pyOrName tail (cls.toList.drop 2).asString)
      let (nxClass, nxName) :=
        if cls = "NXobject" && startsNX nxName then
          (nxName, (nxName.toList.drop 2).asString)
        else (cls, nxName)
      match parseLevelArg val with
      | .error e => .error e
      | .ok sub =>
        let subdict := dictUpdate
          [("nx_term", vstr "group"), ("nx_name", vstr nxName), ("nx_class", vstr nxClass)] sub
        parseItems { acc with groups := acc.groups ++ [vdict subdict] } rest
    | none =>
    match matchField key with
    | some (nxName, nxType) =>
      if nxType.isNone && !val.isDict then
        -- simple descriptive residual property
        parseItems { acc with result := dset acc.result key val } rest
      else if nxName = "enumeration" then
        -- enumeration given as a dict: keep the ordered key list
        match val with
        | vdict e =>
          parseItems
            { acc with result := dset acc.result key (vlist (e.map (fun kv => vstr kv.1))) } rest
        | _ => .error .attributeError
      else
        -- fully specified NeXus Field
        match parseLevelArg val with
        | .error e => .error e
        | .ok sub =>
          let subdict := dictUpdate
            [("nx_term", vstr "field"), ("nx_name", vstr nxName),
             ("nx_type", (nxType.map vstr).getD vnull)] sub
          parseItems { acc with fields := acc.fields ++ [vdict subdict] } rest
    | none =>
    match matchAttribute key with
    | some (nxName, nxType) =>
      match parseLevelArg val with
      | .error e => .error e
      | .ok sub =>
        let subdict := dictUpdate
          [("nx_term", vstr "attribute"), ("nx_name", vstr nxName),
           ("nx_type", (nxType.map vstr).getD vnull)] sub
        parseItems { acc with attributes := acc.attributes ++ [vdict subdict] } rest
    | none =>
    match matchLink key with
    | some nxName =>
      match parseLevelArg val with
      | .error e => .error e
      | .ok sub =>
        let subdict := dictUpdate
          [("nx_term", vstr "link"), ("nx_name", vstr nxName), ("nx_type", vnull)] sub
        parseItems { acc with links := acc.links ++ [vdict subdict] } rest
    | none =>
    match matchChoice key with
    | some nxName =>
      match parseLevelArg val with
      | .error e => .error e
      | .ok sub =>
        match dlookup sub "groups" with
        | none => .error .keyError
        | some gsv =>
          match pyIter gsv with
          | .error e => .error e
          | .ok gs =>
            match choiceClasses gs with
            | .error e => .error e
            | .ok clsVals =>
              match pyJoin " | " clsVals with
              | .error e => .error e
              | .ok joined =>
                match choiceDocs gs with
                | .error e => .error e
                | .ok docLines =>
                  let subdict :=
                    [("nx_term", vstr "field"), ("nx_name", vstr nxName),
                     ("nx_class", vstr joined),
                     ("doc", vstr (strJoin "\n" docLines))]
                  parseItems { acc with groups := acc.groups ++ [vdict subdict] } rest
    | none =>
    if startsDollar key then
      -- the residual store `result[key] = val` is immediately followed by
      -- `(nx_name,) = match.groups()` on a None match: AttributeError
      .error .attributeError
    else
      .error (.classificationError key)

def choiceClasses : List Val → Except PyErr (List Val)
  | [] => .ok []
  | vdict g :: rest =>
    match choiceClasses rest with
    | .ok l => .ok ((dlookup g "nx_class").getD vnull :: l)
    | .error e => .error e
  | _ => .error .attributeError

def choiceDocs : List Val → Except PyErr (List String)
  | [] => .ok []
  | vdict g :: rest =>
    match choiceDocs rest with
    | .ok l => .ok ((pyStr ((dlookup g "nx_class").getD vnull) ++ ": "
        ++ pyStr ((dlookup g "doc").getD vnull)) :: l)
    | .error e => .error e
  | _ => .error .attributeError
end

/-- `parse_nxdlyml_level(level)`: iterating a non-dict raises AttributeError. -/
def parse_nxdlyml_level (level : Val) : Except PyErr (List (String × Val)) :=
  match level with
  | vdict items =>
    match parseItems ⟨[], [], [], [], []⟩ items with
    | .ok acc => .ok (finishParse acc)
    | .error e => .error e
  | _ => .error .attributeError

/- `deep_update(d, u)`: recursive merge, iterating the items of `u` and
mutating `d` (modelled functionally).  A dict-valued item recurses into
`d.get(k, {})`; any item assignment raises when `d` is not a dict
(AttributeError from `.get`, TypeError from item assignment). -/
mutual
def deepUpdEntries : Val → List (String × Val) → Except PyErr Val
  | d, [] => .ok d
  | d, (k, v) :: rest =>
    match v with
    | vdict uv =>
      match d with
      | vdict de =>
        match deepUpdEntries ((dlookup de k).getD (vdict [])) uv with
        | .error e => .error e
        | .ok sub => deepUpdEntries (vdict (dset de k sub)) rest
      | _ => .error .attributeError
    | _ =>
      match d with
      | vdict de => deepUpdEntries (vdict (dset de k v)) rest
      | _ => .error .typeError
  termination_by d u => sizeOf u
end

/-- `deep_update(d, u)`; iterating `u.items()` requires `u` to be a dict. -/
def deep_update (d u : Val) : Except PyErr Val :=
  match u with
  | vdict ue => deepUpdEntries d ue
  | _ => .error .attributeError

/-- Loop body of `convert_attributes`: one output entry per attribute record,
keyed by its `nx_name`, holding value / dtype / enumeration / doc when
populated, or `None` when none of them is. -/
def convAttrLoop (acc : List (String × Val)) : List Val → Except PyErr (List (String × Val))
  | [] => .ok acc
  | vdict a :: rest =>
    let d : List (String × Val) := []
    let vv := (dlookup a "$value").getD vnull
    let d := if truthy vv then dset d "value" vv else d
    match nxDtypeGet (match dlookup a "type" with
        | some t => t
        | none => (dlookup a "nx_type").getD vnull) with
    | .error e => .error e
    | .ok dt =>
      let d := match dt with | some s => dset d "dtype" (vstr s) | none => d
      let en := (dlookup a "enumeration").getD vnull
      let d :=
        if truthy en then
          let d := dset d "enumeration" en
          let chosen := match dlookup d "dtype" with
            | some (vstr s) => if s.isEmpty then npDtypeName en else s
            | _ => npDtypeName en
          dset d "dtype" (vstr (if startsStr chosen then "char" else chosen))
        else d
      let dc := (dlookup a "doc").getD vnull
      let d := if truthy dc then dset d "doc" dc else d
      match dlookup a "nx_name" with
      | some (vstr nm) => convAttrLoop (dset acc nm (if d.isEmpty then vnull else vdict d)) rest
      | some _ => .error .nonStringKey
      | none => .error .keyError
  | _ :: _ => .error .attributeError

/-- `convert_attributes(attributes)`; the returned Python dict is the entry
list (callers test its truthiness and wrap or merge it). -/
def convert_attributes (attributes : Val) : Except PyErr (List (String × Val)) :=
  match pyIter attributes with
  | .error e => .error e
  | .ok elems => convAttrLoop [] elems

/-- Loop body of `convert_fields`: like attributes plus the `NXfield` class
tag, the reduction skip for value-less fields, and the `attrs` sub-mapping
folding converted attribute children and `$units`. -/
def convFieldLoop (reduce : Bool) (acc : List (String × Val)) :
    List Val → Except PyErr (List (String × Val))
  | [] => .ok acc
  | vdict f :: rest =>
    let vv := (dlookup f "$value").getD vnull
    if !truthy vv && reduce then convFieldLoop reduce acc rest
    else
      let d : List (String × Val) := [("nxclass", vstr "NXfield")]
      let d := if truthy vv then dset d "value" vv else d
      match nxDtypeGet (match dlookup f "type" with
          | some t => t
          | none => (dlookup f "nx_type").getD vnull) with
      | .error e => .error e
      | .ok dt =>
        let d := match dt with | some s => dset d "dtype" (vstr s) | none => d
        let en := (dlookup f "enumeration").getD vnull
        let d :=
          if truthy en then
            let d := dset d "enumeration" en
            let chosen := match dlookup d "dtype" with
              | some (vstr s) => if s.isEmpty then npDtypeName en else s
              | _ => npDtypeName en
            dset d "dtype" (vstr (if startsStr chosen then "char" else chosen))
          else d
        let avv := (dlookup f "attributes").getD vnull
        match (if truthy avv then convert_attributes avv else .ok []) with
        | .error e => .error e
        | .ok conv =>
          let atr := dictUpdate [] conv
          let un := (dlookup f "$units").getD vnull
          let atr := if truthy un then dset atr "units" un else atr
          let d := if atr.isEmpty then d else dset d "attrs" (vdict atr)
          let dc := (dlookup f "doc").getD vnull
          let d := if truthy dc then dset d "doc" dc else d
          match dlookup f "nx_name" with
          | some (vstr nm) => convFieldLoop reduce (dset acc nm (vdict d)) rest
          | some _ => .error .nonStringKey
          | none => .error .keyError
  | _ :: _ => .error .attributeError

/-- `convert_fields(fields, reduce)`. -/
def convert_fields (fields : Val) (reduce : Bool) : Except PyErr (List (String × Val)) :=
  match pyIter fields with
  | .error e => .error e
  | .ok elems => convFieldLoop reduce [] elems

/-- Loop body of `convert_links`: target from `$value` (when the key is
present, even with a falsy value) or else from `target`. -/
def convLinkLoop (acc : List (String × Val)) : List Val → Except PyErr (List (String × Val))
  | [] => .ok acc
  | vdict l :: rest =>
    let target := match dlookup l "$value" with
      | some v => v
      | none => (dlookup l "target").getD vnull
    let d : List (String × Val) := [("nxclass", vstr "NXlink"), ("target", target)]
    let dc := (dlookup l "doc").getD vnull
    let d := if truthy dc then dset d "doc" dc else d
    match dlookup l "nx_name" with
    | some (vstr nm) => convLinkLoop (dset acc nm (vdict d)) rest
    | some _ => .error .nonStringKey
    | none => .error .keyError
  | _ :: _ => .error .attributeError

/-- `convert_links(links)`. -/
def convert_links (links : Val) : Except PyErr (List (String × Val)) :=
  match pyIter links with
  | .error e => .error e
  | .ok elems => convLinkLoop [] elems

/- `reduce_converted`: depth-first removal of trivial definitions.  A
dict-valued child is kept only when its own reduction is truthy (non-empty);
a result whose key set is exactly the class tag collapses to the empty dict. -/
mutual
def reduce_converted : Val → Val
  | vdict e =>
    let r := reduceEntries e
    if !r.isEmpty && r.all (fun kv => kv.1 = "nxclass") then vdict []
    else vdict r
  | v => v

def reduceEntries : List (String × Val) → List (String × Val)
  | [] => []
  | (k, v) :: rest =>
    if v.isDict then
      let red := reduce_converted v
      if truthy red then (k, red) :: reduceEntries rest else reduceEntries rest
    else (k, v) :: reduceEntries rest
end

/-- Characters stripped by Python `str.strip()`. -/
def isPySpace (c : Char) : Bool :=
  c = ' ' || c = '\t' || c = '\n' || c = '\r' || c = '\x0b' || c = '\x0c'

/-- Python `s.replace("\n", " ").strip()`. -/
def pyCleanDoc (s : String) : String :=
  let cs := s.toList.map (fun c => if c = '\n' then ' ' else c)
  (((cs.dropWhile isPySpace).reverse.dropWhile isPySpace).reverse).asString

/- `clean_docs`: depth-first; a non-dict value under the `doc` key is either
reformatted (`keep_docs=True`; AttributeError unless it is a string) or
dropped (`keep_docs=False`); dict values always recurse. -/
mutual
def clean_docs (v : Val) (keepDocs : Bool) : Except PyErr Val :=
  match v with
  | vdict e =>
    match cleanEntries e keepDocs with
    | .ok r => .ok (vdict r)
    | .error err => .error err
  | other => .ok other

def cleanEntries : List (String × Val) → Bool → Except PyErr (List (String × Val))
  | [], _ => .ok []
  | (k, v) :: rest, kd =>
    if v.isDict then
      match clean_docs v kd with
      | .error e => .error e
      | .ok v2 =>
        match cleanEntries rest kd with
        | .error e => .error e
        | .ok r => .ok ((k, v2) :: r)
    else if k = "doc" then
      if kd then
        match v with
        | vstr s =>
          match cleanEntries rest kd with
          | .error e => .error e
          | .ok r => .ok ((k, vstr (pyCleanDoc s)) :: r)
        | _ => .error .attributeError
      else cleanEntries rest kd
    else
      match cleanEntries rest kd with
      | .error e => .error e
      | .ok r => .ok ((k, v) :: r)
end

/-- Lexicographic comparison of character lists by code point: Python `<=` on
strings. -/
def lexLe : List Char → List Char → Bool
  | [], _ => true
  | _ :: _, [] => false
  | a :: as, b :: bs => if a < b then true else if b < a then false else lexLe as bs

/-- Python string `<=` (used through `sorted`). -/
def strLeB (a b : String) : Bool := lexLe a.toList b.toList

/-- Python `sorted` on a list of strings.  A stable sort; since string keys
are compared by a total order that is antisymmetric on distinct keys, any
stable sort yields the list `sorted` produces. -/
def strSort (l : List String) : List String :=
  List.insertionSort (fun a b => strLeB a b = true) l

/-- `first_keys`: the class tag, when present. -/
def firstKeysOf (e : List (String × Val)) : List String :=
  if (dlookup e "nxclass").isSome then ["nxclass"] else []

/-- `last_keys`: the attribute container, when present. -/
def lastKeysOf (e : List (String × Val)) : List String :=
  if (dlookup e "attrs").isSome then ["attrs"] else []

/-- `string_keys`: keys with non-dict values, minus first/last keys. -/
def stringKeysOf (e : List (String × Val)) : List String :=
  (e.filter (fun kv =>
    !kv.2.isDict && !strMem (firstKeysOf e ++ lastKeysOf e) kv.1)).map Prod.fst

/-- `group_keys`: remaining keys whose (dict) value is not tagged `NXfield`. -/
def groupKeysOf (e : List (String × Val)) : List String :=
  (e.filter (fun kv =>
    !strMem (firstKeysOf e ++ lastKeysOf e ++ stringKeysOf e) kv.1 &&
    !vbeq (vgetD kv.2 "nxclass" vnull) (vstr "NXfield"))).map Prod.fst

/-- `other_keys`: everything not yet classified. -/
def otherKeysOf (e : List (String × Val)) : List String :=
  (e.map Prod.fst).filter (fun k =>
    !strMem (firstKeysOf e ++ lastKeysOf e ++ stringKeysOf e ++ groupKeysOf e) k)

/-- The sorted key list of `sort_converted` and the rebuilt dict
`{k: dinput[k] for k in sorted_keys}`. -/
def reorderEntries (e : List (String × Val)) : List (String × Val) :=
  (firstKeysOf e ++ strSort (stringKeysOf e) ++ strSort (groupKeysOf e)
    ++ strSort (otherKeysOf e) ++ lastKeysOf e).map
    (fun k => (k, (dlookup e k).getD vnull))

/- `sort_converted`: children first (dict values only), then rebuild the level
in the canonical key order. -/
mutual
def sort_converted : Val → Val
  | vdict e => vdict (reorderEntries (sortChildren e))
  | v => v

def sortChildren : List (String × Val) → List (String × Val)
  | [] => []
  | (k, v) :: rest =>
    (if v.isDict then (k, sort_converted v) else (k, v)) :: sortChildren rest
end

/-- `Path(root_dir) / fname` for the relative paths the module builds. -/
def pathJoin (dir fname : String) : String :=
  if dir = "." then fname else dir ++ "/" ++ fname

/-- `str(Path(fpath).parent)`. -/
def dirname (p : String) : String :=
  match p.toList.reverse.dropWhile (fun c => c ≠ '/') with
  | [] => "."
  | [_] => "/"
  | _ :: restRev => restRev.reverse.asString

/-- The functions of the conversion pipeline at one fuel level.  The Python
module's `convert_nxyaml` / `resolve_nxdlrefs` / `convert_groups` recursion is
bounded here by a fuel index: the level-`(n+1)` functions may call the
level-`n` ones (descending into a referenced or nested conversion) and the
earlier functions of their own level, which makes the whole pipeline a plain
structural recursion on the fuel. -/
structure NxFuncs where
  conv : List (String × Val) → String → Bool → Bool → Bool → Except PyErr Val
  resv : List (String × Val) → String → Val → Except PyErr Val
  entr : List (String × Val) → String → List (String × Val) →
    Except PyErr (List (String × Val))
  grps : List (String × Val) → String → Bool → Val → Except PyErr Val
  glst : List (String × Val) → String → Bool → List Val →
    List (String × Val) → Except PyErr (List (String × Val))

/-- Body of `convert_nxyaml` at fuel `n + 1`, with the fuel-`n` pipeline
passed as `prev`: read the file (a lookup in the file-system association list
`fs`, standing for `yaml.safe_load(open(fpath))`), dispatch on the presence
of a truthy `category` root key, and post-process with reduce / sort /
clean-docs. -/
def convBody (prev : NxFuncs) (fs : List (String × Val)) (fpath : String)
    (reduce sortFlag keepDocs : Bool) : Except PyErr Val :=
  match dlookup fs fpath with
  | none => .error .fileNotFoundError
  | some (vdict fd0) =>
    let category := (dlookup fd0 "category").getD vnull
    let fd := dremove fd0 "category"
    let coreE : Except PyErr Val :=
      if truthy category then
        -- original (unconverted) nxdl.yml branch
        if (dlookup fd "type").isNone then .error .keyError
        else
          let fd := dremove fd "type"
          let fd := dremove fd "symbols"
          let fd := dremove fd "deprecated"
          let fd := dremove fd "ignoreExtraFields"
          let fd := dremove fd "ignoreExtraAttributes"
          let fd := dremove fd "ignoreExtraGroups"
          let fd := dremove fd "doc"
          if fd.length ≠ 1 then .error .structuralError
          else
            match parse_nxdlyml_level (vdict fd) with
            | .error e => .error e
            | .ok parsed =>
              prev.grps fs (dirname fpath) reduce
                ((dlookup parsed "groups").getD (vlist []))
      else
        -- already converted simplified yml branch
        prev.resv fs (dirname fpath) (vdict fd)
    match coreE with
    | .error e => .error e
    | .ok core =>
      let r := if reduce then reduce_converted core else core
      let r := if sortFlag then sort_converted r else r
      clean_docs r keepDocs
  | some _ => .error .attributeError

/-- Body of `resolve_nxdlrefs` at fuel `n + 1`: `convSame` is the same-level
`convert_nxyaml` (the Python call passes the same dynamic depth), `entrPrev`
the fuel-`n` recursion into dict-valued children.  Pops `$nxdlref`, converts
the referenced file (reduce=False and the default sort=True,
keep_docs=False), checks cardinality and class agreement, deep-merges the
node beneath the referenced entity, and recurses into dict children. -/
def resvBody (convSame : List (String × Val) → String → Bool → Bool → Bool →
      Except PyErr Val)
    (entrPrev : List (String × Val) → String → List (String × Val) →
      Except PyErr (List (String × Val)))
    (fs : List (String × Val)) (rootDir : String) (grp : Val) :
    Except PyErr Val :=
  match grp with
  | vdict e =>
    let refv := (dlookup e "$nxdlref").getD vnull
    let e1 := dremove e "$nxdlref"
    if truthy refv then
      match refv with
      | vstr fname =>
        match convSame fs (pathJoin rootDir fname) false true false with
        | .error err => .error err
        | .ok refgrp =>
          match pyLen refgrp with
          | .error err => .error err
          | .ok len =>
            if len ≠ 1 then .error .cardinalityError
            else
              match refgrp with
              | vdict [(_, refDict)] =>
                match refDict with
                | vdict rde =>
                  match dlookup rde "nxclass" with
                  | none => .error .keyError
                  | some refClass =>
                    match dlookup e1 "nxclass" with
                    | none => .error .keyError
                    | some grpClass =>
                      if !vbeq refClass grpClass then .error .classMismatchError
                      else
                        match deep_update refDict (vdict e1) with
                        | .error err => .error err
                        | .ok merged =>
                          match merged with
                          | vdict me =>
                            match entrPrev fs rootDir me with
                            | .error err => .error err
                            | .ok r => .ok (vdict r)
                          | _ => .error .attributeError
                | _ => .error .typeError
              | vdict _ => .error .cardinalityError
              | _ => .error .attributeError
      | _ => .error .typeError
    else
      match entrPrev fs rootDir e1 with
      | .error err => .error err
      | .ok r => .ok (vdict r)
  | _ => .error .attributeError

/-- The per-entry loop of `resolve_nxdlrefs` over the children of a node,
with the same-level resolver passed as `resv`: dict-valued children are
resolved, others are kept as they are. -/
def entrAux (resv : Val → Except PyErr Val) :
    List (String × Val) → Except PyErr (List (String × Val))
  | [] => .ok []
  | (k, v) :: rest =>
    if v.isDict then
      match resv v with
      | .error e => .error e
      | .ok v2 =>
        match entrAux resv rest with
        | .error e => .error e
        | .ok r => .ok ((k, v2) :: r)
    else
      match entrAux resv rest with
      | .error e => .error e
      | .ok r => .ok ((k, v) :: r)

/-- The loop of `convert_groups` over parsed group records: build each group
skeleton, resolve it with the same-level resolver `resv`, and deep-merge
converted sub-groups (through the fuel-`n` groups converter `grpsPrev`),
fields, attributes, links and doc. -/
def glstAux (resv grpsPrev : Val → Except PyErr Val) (reduce : Bool) :
    List Val → List (String × Val) → Except PyErr (List (String × Val))
  | [], acc => .ok acc
  | grp :: rest, acc =>
    match grp with
    | vdict g =>
      match dlookup g "nx_class" with
      | none => .error .keyError
      | some nxClassV =>
        let skel := vdict [("nxclass", nxClassV),
                          ("$nxdlref", (dlookup g "$nxdlref").getD vnull)]
        match resv skel with
        | .error e => .error e
        | .ok gd0 =>
          let subg := (dlookup g "groups").getD vnull
          match (if truthy subg then
                   match grpsPrev subg with
                   | .error e => .error e
                   | .ok sg => deep_update gd0 sg
                 else (.ok gd0 : Except PyErr Val)) with
          | .error e => .error e
          | .ok gd1 =>
            let fl := (dlookup g "fields").getD vnull
            match (if truthy fl then
                     match convert_fields fl reduce with
                     | .error e => .error e
                     | .ok cf => deep_update gd1 (vdict cf)
                   else (.ok gd1 : Except PyErr Val)) with
            | .error e => .error e
            | .ok gd2 =>
              match convert_attributes ((dlookup g "attributes").getD (vlist [])) with
              | .error e => .error e
              | .ok attrsConv =>
                match (if attrsConv.isEmpty then (.ok gd2 : Except PyErr Val)
                       else match gd2 with
                         | vdict ge =>
                           match deep_update ((dlookup ge "attrs").getD (vdict []))
                               (vdict attrsConv) with
                           | .error e => .error e
                           | .ok merged => .ok (vdict (dset ge "attrs" merged))
                         | _ => .error .attributeError) with
                | .error e => .error e
                | .ok gd3 =>
                  let lk := (dlookup g "links").getD vnull
                  match (if truthy lk then
                           match convert_links lk with
                           | .error e => .error e
                           | .ok cl => deep_update gd3 (vdict cl)
                         else (.ok gd3 : Except PyErr Val)) with
                  | .error e => .error e
                  | .ok gd4 =>
                    let dc := (dlookup g "doc").getD vnull
                    match (if truthy dc then
                             match gd4 with
                             | vdict ge => .ok (vdict (dset ge "doc" dc))
                             | _ => .error .typeError
                           else (.ok gd4 : Except PyErr Val)) with
                    | .error e => .error e
                    | .ok gd5 =>
                      match dlookup g "nx_name" with
                      | some (vstr nm) =>
                        glstAux resv grpsPrev reduce rest (dset acc nm gd5)
                      | some _ => .error .nonStringKey
                      | none => .error .keyError
    | _ => .error .attributeError

/-- Body of `convert_groups`: iterate the parsed group records with the
given loop. -/
def grpsBody (glstSame : List Val → List (String × Val) →
      Except PyErr (List (String × Val))) (groups : Val) : Except PyErr Val :=
  match pyIter groups with
  | .error e => .error e
  | .ok elems =>
    match glstSame elems [] with
    | .error e => .error e
    | .ok r => .ok (vdict r)

/-- The pipeline at each fuel level, by structural recursion on the fuel.
At fuel `0` the file-level conversions fail with fuel exhaustion (Python's
recursion is unbounded there); the child loops, which consume no fuel of
their own, still succeed on inputs that trigger no recursive call. -/
def nxFuncs : Nat → NxFuncs
  | 0 =>
    { conv := fun _ _ _ _ _ => .error .fuelExhausted
      resv := fun _ _ _ => .error .fuelExhausted
      entr := fun _ _ l => entrAux (fun _ => .error .fuelExhausted) l
      grps := fun _ _ _ groups =>
        grpsBody (fun l acc =>
          match l with
          | [] => .ok acc
          | _ => .error .fuelExhausted) groups
      glst := fun _ _ _ l acc =>
        match l with
        | [] => .ok acc
        | _ => .error .fuelExhausted }
  | n + 1 =>
    let prev := nxFuncs n
    let conv := convBody prev
    let resv := resvBody conv prev.entr
    { conv := conv
      resv := resv
      entr := fun fs d l => entrAux (resv fs d) l
      grps := fun fs d r groups =>
        grpsBody (fun l acc =>
          glstAux (resv fs d) (fun g => prev.grps fs d r g) r l acc) groups
      glst := fun fs d r l acc =>
        glstAux (resv fs d) (fun g => prev.grps fs d r g) r l acc }

/-- `convert_nxyaml(fpath, reduce=..., sort=..., keep_docs=...)` at the given
fuel. -/
def convert_nxyaml (fuel : Nat) (fs : List (String × Val)) (fpath : String)
    (reduce sortFlag keepDocs : Bool) : Except PyErr Val :=
  (nxFuncs fuel).conv fs fpath reduce sortFlag keepDocs

/-- `resolve_nxdlrefs(grp, root_dir=...)` at the given fuel. -/
def resolve_nxdlrefs (fuel : Nat) (fs : List (String × Val)) (rootDir : String)
    (grp : Val) : Except PyErr Val :=
  (nxFuncs fuel).resv fs rootDir grp

/-- The `for nx_name, nx_grp in grp.items()` recursion of `resolve_nxdlrefs`
into dict-valued children, at the given fuel. -/
def resolveEntries (fuel : Nat) (fs : List (String × Val)) (rootDir : String)
    (l : List (String × Val)) : Except PyErr (List (String × Val)) :=
  (nxFuncs fuel).entr fs rootDir l

/-- `convert_groups(groups, root_dir=..., reduce=...)` at the given fuel. -/
def convert_groups (fuel : Nat) (fs : List (String × Val)) (rootDir : String)
    (reduce : Bool) (groups : Val) : Except PyErr Val :=
  (nxFuncs fuel).grps fs rootDir reduce groups

/-- The `for group in groups` loop of `convert_groups`, at the given fuel. -/
def convGroupList (fuel : Nat) (fs : List (String × Val)) (rootDir : String)
    (reduce : Bool) (acc : List (String × Val)) (l : List Val) :
    Except PyErr (List (String × Val)) :=
  (nxFuncs fuel).glst fs rootDir reduce l acc

/-! Basic association-list (dict) lemmas. -/

/-- The key list of a dict. -/
def dkeys (e : List (String × Val)) : List String := e.map Prod.fst

theorem dlookup_dset_self (e : List (String × Val)) (k : String) (v : Val) :
    dlookup (dset e k v) k = some v := by
  induction e with
  | nil => simp [dset, dlookup]
  | cons hd tl ih =>
    obtain ⟨k0, v0⟩ := hd
    by_cases h : k0 = k
    · simp [dset, dlookup, h]
    · simp [dset, dlookup, h, ih]

theorem dlookup_dset_ne (e : List (String × Val)) (k k' : String) (v : Val)
    (h : k' ≠ k) : dlookup (dset e k v) k' = dlookup e k' := by
  induction e with
  | nil => simp [dset, dlookup, Ne.symm h]
  | cons hd tl ih =>
    obtain ⟨k0, v0⟩ := hd
    by_cases h0 : k0 = k
    · subst h0
      simp [dset, dlookup, Ne.symm h]
    · by_cases h1 : k0 = k'
      · simp [dset, dlookup, h0, h1, h]
      · simp [dset, dlookup, h0, h1, ih]

theorem dlookup_dremove_self (e : List (String × Val)) (k : String) :
    dlookup (dremove e k) k = none := by
  induction e with
  | nil => simp [dremove, dlookup]
  | cons hd tl ih =>
    obtain ⟨k0, v0⟩ := hd
    by_cases h : k0 = k
    · simp [dremove, h, ih]
    · simp [dremove, dlookup, h, ih]

theorem dlookup_dremove_ne (e : List (String × Val)) (k k' : String)
    (h : k' ≠ k) : dlookup (dremove e k) k' = dlookup e k' := by
  induction e with
  | nil => simp [dremove]
  | cons hd tl ih =>
    obtain ⟨k0, v0⟩ := hd
    by_cases h0 : k0 = k
    · subst h0
      simp [dremove, dlookup, Ne.symm h, ih]
    · by_cases h1 : k0 = k'
      · simp [dremove, dlookup, h0, h1, h]
      · simp [dremove, dlookup, h0, h1, ih]

theorem dremove_of_not_mem (e : List (String × Val)) (k : String)
    (h : dlookup e k = none) : dremove e k = e := by
  induction e with
  | nil => simp [dremove]
  | cons hd tl ih =>
    obtain ⟨k0, v0⟩ := hd
    by_cases h0 : k0 = k
    · simp [dlookup, h0] at h
    · simp [dlookup, h0] at h
      simp [dremove, h0, ih h]

theorem dlookup_eq_none_iff (e : List (String × Val)) (k : String) :
    dlookup e k = none ↔ k ∉ dkeys e := by
  induction e with
  | nil => simp [dlookup, dkeys]
  | cons hd tl ih =>
    obtain ⟨k0, v0⟩ := hd
    by_cases h0 : k0 = k
    · simp [dlookup, dkeys, h0]
    · simp [dlookup, dkeys, h0, ih, Ne.symm h0]

theorem dlookup_isSome_iff (e : List (String × Val)) (k : String) :
    (dlookup e k).isSome ↔ k ∈ dkeys e := by
  constructor
  · intro hs
    by_contra h
    rw [(dlookup_eq_none_iff e k).mpr h] at hs
    simp at hs
  · intro hm
    cases hl : dlookup e k with
    | none => exact absurd ((dlookup_eq_none_iff e k).mp hl) (by simp [hm])
    | some v => simp

theorem dlookup_mem (e : List (String × Val)) (k : String) (v : Val)
    (h : dlookup e k = some v) : (k, v) ∈ e := by
  induction e with
  | nil => simp [dlookup] at h
  | cons hd tl ih =>
    obtain ⟨k0, v0⟩ := hd
    by_cases h0 : k0 = k
    · subst h0
      simp [dlookup] at h
      simp [h]
    · simp [dlookup, h0] at h
      simp [ih h]

theorem dlookup_of_mem (e : List (String × Val)) (k : String) (v : Val)
    (hn : (dkeys e).Nodup) (h : (k, v) ∈ e) : dlookup e k = some v := by
  induction e with
  | nil => simp at h
  | cons hd tl ih =>
    obtain ⟨k0, v0⟩ := hd
    rw [dkeys, List.map_cons, List.nodup_cons] at hn
    rcases List.mem_cons.mp h with h1 | h1
    · injection h1 with e1 e2
      subst e1
      subst e2
      simp [dlookup]
    · have hne : k0 ≠ k := by
        rintro rfl
        exact hn.1 (List.mem_map.mpr ⟨_, h1, rfl⟩)
      simp [dlookup, hne, ih hn.2 h1]

theorem dkeys_dset (e : List (String × Val)) (k : String) (v : Val) :
    dkeys (dset e k v) = if k ∈ dkeys e then dkeys e else dkeys e ++ [k] := by
  induction e with
  | nil => simp [dset, dkeys]
  | cons hd tl ih =>
    obtain ⟨k0, v0⟩ := hd
    by_cases h0 : k0 = k
    · simp [dset, dkeys, h0]
    · simp only [dset, if_neg h0, dkeys, List.map_cons]
      rw [show List.map Prod.fst (dset tl k v) = dkeys (dset tl k v) from rfl, ih]
      by_cases h1 : k ∈ List.map Prod.fst tl
      · simp [dkeys, h1, List.mem_cons, Ne.symm h0]
      · simp [dkeys, h1, List.mem_cons, Ne.symm h0]

theorem nodup_dkeys_dset (e : List (String × Val)) (k : String) (v : Val)
    (hn : (dkeys e).Nodup) : (dkeys (dset e k v)).Nodup := by
  rw [dkeys_dset]
  by_cases h : k ∈ dkeys e
  · simpa [h]
  · simp [h, List.nodup_append, hn]

/-! `deep_update` lemmas (claim C3). -/

theorem deepUpdEntries_nil (d : Val) : deepUpdEntries d [] = .ok d := by
  simp only [deepUpdEntries]

theorem deepUpdEntries_cons_ndict (de : List (String × Val)) (k : String) (v : Val)
    (rest : List (String × Val)) (hv : v.isDict = false) :
    deepUpdEntries (vdict de) ((k, v) :: rest) =
      deepUpdEntries (vdict (dset de k v)) rest := by
  cases v <;> simp only [deepUpdEntries] <;> simp [Val.isDict] at hv ⊢

theorem deepUpdEntries_cons_dict (de : List (String × Val)) (k : String)
    (uv rest : List (String × Val)) :
    deepUpdEntries (vdict de) ((k, vdict uv) :: rest) =
      match deepUpdEntries ((dlookup de k).getD (vdict [])) uv with
      | .error e => .error e
      | .ok sub => deepUpdEntries (vdict (dset de k sub)) rest := by
  simp only [deepUpdEntries]

theorem deepUpdEntries_isDict (u : List (String × Val)) :
    ∀ de r, deepUpdEntries (vdict de) u = .ok r → ∃ re, r = vdict re := by
  induction u with
  | nil =>
    intro de r h
    rw [deepUpdEntries_nil] at h
    exact ⟨de, (Except.ok.injEq .. ▸ h).symm⟩
  | cons hd tl ih =>
    intro de r h
    obtain ⟨k, v⟩ := hd
    by_cases hv : v.isDict
    · obtain ⟨uv, rfl⟩ : ∃ uv, v = vdict uv := by
        cases v <;> simp [Val.isDict] at hv ⊢
      rw [deepUpdEntries_cons_dict] at h
      cases hin : deepUpdEntries ((dlookup de k).getD (vdict [])) uv with
      | error e => rw [hin] at h; exact absurd h (by simp)
      | ok sub => rw [hin] at h; exact ih _ _ h
    · rw [deepUpdEntries_cons_ndict de k v tl (by simpa using hv)] at h
      exact ih _ _ h

theorem deepUpdEntries_frame (u : List (String × Val)) :
    ∀ de r k, deepUpdEntries (vdict de) u = .ok r → k ∉ u.map Prod.fst →
      ∃ re, r = vdict re ∧ dlookup re k = dlookup de k := by
  induction u with
  | nil =>
    intro de r k h _
    rw [deepUpdEntries_nil] at h
    exact ⟨de, (Except.ok.injEq .. ▸ h).symm, rfl⟩
  | cons hd tl ih =>
    intro de r k h hk
    obtain ⟨k0, v⟩ := hd
    rw [List.map_cons, List.mem_cons] at hk
    push_neg at hk
    obtain ⟨hk0, hktl⟩ := hk
    have hlook : ∀ sub, dlookup (dset de k0 sub) k = dlookup de k :=
      fun sub => dlookup_dset_ne de k0 k sub hk0
    by_cases hv : v.isDict
    · obtain ⟨uv, rfl⟩ : ∃ uv, v = vdict uv := by
        cases v <;> simp [Val.isDict] at hv ⊢
      rw [deepUpdEntries_cons_dict] at h
      cases hin : deepUpdEntries ((dlookup de k0).getD (vdict [])) uv with
      | error e => rw [hin] at h; exact absurd h (by simp)
      | ok sub =>
        rw [hin] at h
        obtain ⟨re, hre, hl⟩ := ih _ _ k h hktl
        exact ⟨re, hre, hl.trans (hlook sub)⟩
    · rw [deepUpdEntries_cons_ndict de k0 v tl (by simpa using hv)] at h
      obtain ⟨re, hre, hl⟩ := ih _ _ k h hktl
      exact ⟨re, hre, hl.trans (hlook v)⟩

theorem strMem_iff (l : List String) (k : String) : strMem l k = true ↔ k ∈ l := by
  induction l with
  | nil => simp [strMem]
  | cons s r ih =>
    by_cases h : s = k
    · simp [strMem, h]
    · simp [strMem, h, ih, Ne.symm h]

/-- Key uniqueness of one dict level, as a Boolean. -/
def nodupKeysB : List (String × Val) → Bool
  | [] => true
  | (k, _) :: rest => !strMem (dkeys rest) k && nodupKeysB rest

theorem strMem_false_iff (l : List String) (k : String) : strMem l k = false ↔ k ∉ l := by
  rw [← strMem_iff]
  simp

theorem nodupKeysB_iff (e : List (String × Val)) :
    nodupKeysB e = true ↔ (dkeys e).Nodup := by
  induction e with
  | nil => simp [nodupKeysB, dkeys]
  | cons hd tl ih =>
    obtain ⟨k, v⟩ := hd
    rw [nodupKeysB, Bool.and_eq_true, Bool.not_eq_true', strMem_false_iff, ih,
      show dkeys ((k, v) :: tl) = k :: dkeys tl from rfl, List.nodup_cons]

/- Well-formedness of a value as a Python-dict tree: every dict node reachable
through dict values has pairwise-distinct keys (always true of values built by
`yaml.safe_load` and by the module's own dict operations). -/
mutual
def wfV : Val → Bool
  | vdict e => nodupKeysB e && wfEntries e
  | _ => true

def wfEntries : List (String × Val) → Bool
  | [] => true
  | (k, v) :: rest => wfV v && wfEntries rest
end

theorem wfEntries_lookup (e : List (String × Val)) (k : String) (v : Val)
    (hw : wfEntries e = true) (h : dlookup e k = some v) : wfV v = true := by
  induction e with
  | nil => simp [dlookup] at h
  | cons hd tl ih =>
    obtain ⟨k0, v0⟩ := hd
    rw [wfEntries, Bool.and_eq_true] at hw
    by_cases h0 : k0 = k
    · simp [dlookup, h0] at h
      exact h ▸ hw.1
    · simp [dlookup, h0] at h
      exact ih hw.2 h

theorem dlookup_append_none (a b : List (String × Val)) (k : String)
    (h : dlookup a k = none) : dlookup (a ++ b) k = dlookup b k := by
  induction a with
  | nil => simp
  | cons hd tl ih =>
    obtain ⟨k0, v0⟩ := hd
    by_cases h0 : k0 = k
    · simp [dlookup, h0] at h
    · simp [dlookup, h0] at h ⊢
      exact ih h

theorem dset_append_of_none (e : List (String × Val)) (k : String) (v : Val)
    (h : dlookup e k = none) : dset e k v = e ++ [(k, v)] := by
  induction e with
  | nil => simp [dset]
  | cons hd tl ih =>
    obtain ⟨k0, v0⟩ := hd
    by_cases h0 : k0 = k
    · simp [dlookup, h0] at h
    · simp [dlookup, h0] at h
      simp [dset, h0, ih h]

theorem deepUpdEntries_fresh (n : Nat) :
    ∀ u de, sizeOf u ≤ n → nodupKeysB u = true → wfEntries u = true →
      (∀ kk, kk ∈ dkeys u → dlookup de kk = none) →
      deepUpdEntries (vdict de) u = .ok (vdict (de ++ u)) := by
  induction n using Nat.strong_induction_on with
  | _ n ih =>
    intro u de hsz hnd hwf hdisj
    match u with
    | [] => simp [deepUpdEntries_nil]
    | (k, v) :: rest =>
      rw [nodupKeysB, Bool.and_eq_true] at hnd
      rw [wfEntries, Bool.and_eq_true] at hwf
      have hk : dlookup de k = none := hdisj k (by simp [dkeys])
      have hrest : ∀ kk, kk ∈ dkeys rest → dlookup (de ++ [(k, v)]) kk = none := by
        intro kk hkk
        have hnotin : k ∉ dkeys rest := by
          have h1 := hnd.1
          rw [Bool.not_eq_true', strMem_false_iff] at h1
          exact h1
        have hne : kk ≠ k := by
          rintro rfl
          exact hnotin hkk
        have hkmem : kk ∈ dkeys ((k, v) :: rest) := by
          show kk ∈ k :: dkeys rest
          exact List.mem_cons_of_mem _ hkk
        rw [dlookup_append_none _ _ _ (hdisj kk hkmem)]
        simp [dlookup, Ne.symm hne]
      simp only [List.cons.sizeOf_spec, Prod.mk.sizeOf_spec] at hsz
      have hszrest : sizeOf rest < n := by omega
      cases v with
      | vdict vv =>
        rw [deepUpdEntries_cons_dict, hk]
        simp only [Option.getD_none]
        have hwfv := hwf.1
        rw [wfV, Bool.and_eq_true] at hwfv
        have h1 : sizeOf vv < n := by
          simp only [Val.vdict.sizeOf_spec] at hsz
          omega
        have hvv := ih (sizeOf vv) h1 vv [] le_rfl hwfv.1 hwfv.2 (fun kk _ => rfl)
        rw [List.nil_append] at hvv
        rw [hvv]
        show deepUpdEntries (vdict (dset de k (vdict vv))) rest = _
        rw [dset_append_of_none _ _ _ hk,
          ih (sizeOf rest) hszrest rest (de ++ [(k, vdict vv)]) le_rfl hnd.2 hwf.2 hrest,
          List.append_assoc]
        rfl
      | vnull =>
        rw [deepUpdEntries_cons_ndict de k (vnull) rest rfl, dset_append_of_none _ _ _ hk,
          ih (sizeOf rest) hszrest rest (de ++ [(k, vnull)]) le_rfl hnd.2 hwf.2 hrest,
          List.append_assoc]
        rfl
      | vbool b =>
        rw [deepUpdEntries_cons_ndict de k (vbool b) rest rfl, dset_append_of_none _ _ _ hk,
          ih (sizeOf rest) hszrest rest (de ++ [(k, vbool b)]) le_rfl hnd.2 hwf.2 hrest,
          List.append_assoc]
        rfl
      | vint m =>
        rw [deepUpdEntries_cons_ndict de k (vint m) rest rfl, dset_append_of_none _ _ _ hk,
          ih (sizeOf rest) hszrest rest (de ++ [(k, vint m)]) le_rfl hnd.2 hwf.2 hrest,
          List.append_assoc]
        rfl
      | vstr s =>
        rw [deepUpdEntries_cons_ndict de k (vstr s) rest rfl, dset_append_of_none _ _ _ hk,
          ih (sizeOf rest) hszrest rest (de ++ [(k, vstr s)]) le_rfl hnd.2 hwf.2 hrest,
          List.append_assoc]
        rfl
      | vlist l =>
        rw [deepUpdEntries_cons_ndict de k (vlist l) rest rfl, dset_append_of_none _ _ _ hk,
          ih (sizeOf rest) hszrest rest (de ++ [(k, vlist l)]) le_rfl hnd.2 hwf.2 hrest,
          List.append_assoc]
        rfl

theorem isDict_cases (v : Val) : v.isDict = false ∨ ∃ uv, v = vdict uv := by
  cases v <;> simp [Val.isDict]

theorem deepUpdEntries_override (u : List (String × Val)) :
    ∀ de r k v, deepUpdEntries (vdict de) u = .ok r → (dkeys u).Nodup →
      (k, v) ∈ u → v.isDict = false →
      ∃ re, r = vdict re ∧ dlookup re k = some v := by
  induction u with
  | nil => intro de r k v h hnd hm; simp at hm
  | cons hd tl ih =>
    intro de r k v h hnd hm hv
    obtain ⟨k0, v0⟩ := hd
    rw [show dkeys ((k0, v0) :: tl) = k0 :: dkeys tl from rfl, List.nodup_cons] at hnd
    rcases List.mem_cons.mp hm with h1 | h1
    · injection h1 with e1 e2
      subst e1
      subst e2
      have hknotl : k ∉ List.map Prod.fst tl := hnd.1
      rw [deepUpdEntries_cons_ndict de k v tl hv] at h
      obtain ⟨re, hre, hl⟩ := deepUpdEntries_frame tl _ _ k h hknotl
      exact ⟨re, hre, hl.trans (dlookup_dset_self de k v)⟩
    · have hk0ne : True := trivial
      rcases isDict_cases v0 with hv0 | ⟨uv, rfl⟩
      · rw [deepUpdEntries_cons_ndict de k0 v0 tl hv0] at h
        exact ih _ _ k v h hnd.2 h1 hv
      · rw [deepUpdEntries_cons_dict] at h
        cases hin : deepUpdEntries ((dlookup de k0).getD (vdict [])) uv with
        | error e => rw [hin] at h; exact absurd h (by simp)
        | ok sub =>
          rw [hin] at h
          exact ih _ _ k v h hnd.2 h1 hv

theorem deepUpdEntries_recurse (u : List (String × Val)) :
    ∀ de r k uv bv, deepUpdEntries (vdict de) u = .ok r → (dkeys u).Nodup →
      (k, vdict uv) ∈ u → dlookup de k = some (vdict bv) →
      ∃ re m, r = vdict re ∧ deepUpdEntries (vdict bv) uv = .ok m ∧
        dlookup re k = some m := by
  induction u with
  | nil => intro de r k uv bv h hnd hm; simp at hm
  | cons hd tl ih =>
    intro de r k uv bv h hnd hm hbase
    obtain ⟨k0, v0⟩ := hd
    rw [show dkeys ((k0, v0) :: tl) = k0 :: dkeys tl from rfl, List.nodup_cons] at hnd
    rcases List.mem_cons.mp hm with h1 | h1
    · injection h1 with e1 e2
      subst e1
      subst e2
      rw [deepUpdEntries_cons_dict, hbase] at h
      simp only [Option.getD_some] at h
      cases hin : deepUpdEntries (vdict bv) uv with
      | error e => rw [hin] at h; exact absurd h (by simp)
      | ok sub =>
        rw [hin] at h
        obtain ⟨re, hre, hl⟩ := deepUpdEntries_frame tl _ _ k h hnd.1
        exact ⟨re, sub, hre, rfl, hl.trans (dlookup_dset_self de k sub)⟩
    · have hne : k0 ≠ k := by
        rintro rfl
        exact hnd.1 (List.mem_map.mpr ⟨_, h1, rfl⟩)
      rcases isDict_cases v0 with hv0 | ⟨uv0, rfl⟩
      · rw [deepUpdEntries_cons_ndict de k0 v0 tl hv0] at h
        exact ih _ _ k uv bv h hnd.2 h1
          ((dlookup_dset_ne de k0 k v0 (Ne.symm hne)).trans hbase)
      · rw [deepUpdEntries_cons_dict] at h
        cases hin : deepUpdEntries ((dlookup de k0).getD (vdict [])) uv0 with
        | error e => rw [hin] at h; exact absurd h (by simp)
        | ok sub =>
          rw [hin] at h
          exact ih _ _ k uv bv h hnd.2 h1
            ((dlookup_dset_ne de k0 k sub (Ne.symm hne)).trans hbase)

theorem deepUpdEntries_fresh_key (u : List (String × Val)) :
    ∀ de r k v, deepUpdEntries (vdict de) u = .ok r → (dkeys u).Nodup →
      (k, v) ∈ u → wfV v = true → dlookup de k = none →
      ∃ re, r = vdict re ∧ dlookup re k = some v := by
  induction u with
  | nil => intro de r k v h hnd hm; simp at hm
  | cons hd tl ih =>
    intro de r k v h hnd hm hwf hbase
    obtain ⟨k0, v0⟩ := hd
    rw [show dkeys ((k0, v0) :: tl) = k0 :: dkeys tl from rfl, List.nodup_cons] at hnd
    rcases List.mem_cons.mp hm with h1 | h1
    · injection h1 with e1 e2
      subst e1
      subst e2
      rcases isDict_cases v with hv | ⟨vv, rfl⟩
      · rw [deepUpdEntries_cons_ndict de k v tl hv] at h
        obtain ⟨re, hre, hl⟩ := deepUpdEntries_frame tl _ _ k h hnd.1
        exact ⟨re, hre, hl.trans (dlookup_dset_self de k v)⟩
      · rw [deepUpdEntries_cons_dict, hbase] at h
        simp only [Option.getD_none] at h
        rw [wfV, Bool.and_eq_true] at hwf
        rw [deepUpdEntries_fresh (sizeOf vv) vv [] le_rfl hwf.1 hwf.2 (fun kk _ => rfl)] at h
        rw [List.nil_append] at h
        obtain ⟨re, hre, hl⟩ := deepUpdEntries_frame tl _ _ k h hnd.1
        exact ⟨re, hre, hl.trans (dlookup_dset_self de k (vdict vv))⟩
    · have hne : k0 ≠ k := by
        rintro rfl
        exact hnd.1 (List.mem_map.mpr ⟨_, h1, rfl⟩)
      rcases isDict_cases v0 with hv0 | ⟨uv0, rfl⟩
      · rw [deepUpdEntries_cons_ndict de k0 v0 tl hv0] at h
        exact ih _ _ k v h hnd.2 h1 hwf
          ((dlookup_dset_ne de k0 k v0 (Ne.symm hne)).trans hbase)
      · rw [deepUpdEntries_cons_dict] at h
        cases hin : deepUpdEntries ((dlookup de k0).getD (vdict [])) uv0 with
        | error e => rw [hin] at h; exact absurd h (by simp)
        | ok sub =>
          rw [hin] at h
          exact ih _ _ k v h hnd.2 h1 hwf
            ((dlookup_dset_ne de k0 k sub (Ne.symm hne)).trans hbase)

/-- C3: `deep_update` merges the override into the base with override-wins on
scalar/list conflicts, recursion on keys whose values are nested mappings in
both, and preservation of keys present in only one side; in particular the
base `a:1, b:(x:1)` merged with override `b:(y:2), c:3` yields
`a:1, b:(x:1, y:2), c:3`. -/
theorem C3_deep_update_merge_semantics :
    (deep_update (vdict [("a", vint 1), ("b", vdict [("x", vint 1)])])
        (vdict [("b", vdict [("y", vint 2)]), ("c", vint 3)]) =
      .ok (vdict [("a", vint 1), ("b", vdict [("x", vint 1), ("y", vint 2)]),
        ("c", vint 3)]))
    ∧ (∀ de u r k, deep_update (vdict de) (vdict u) = .ok r → k ∉ dkeys u →
        ∃ re, r = vdict re ∧ dlookup re k = dlookup de k)
    ∧ (∀ de u r k v, deep_update (vdict de) (vdict u) = .ok r → (dkeys u).Nodup →
        (k, v) ∈ u → v.isDict = false →
        ∃ re, r = vdict re ∧ dlookup re k = some v)
    ∧ (∀ de u r k uv bv, deep_update (vdict de) (vdict u) = .ok r → (dkeys u).Nodup →
        (k, vdict uv) ∈ u → dlookup de k = some (vdict bv) →
        ∃ re m, r = vdict re ∧ deep_update (vdict bv) (vdict uv) = .ok m ∧
          dlookup re k = some m)
    ∧ (∀ de u r k v, deep_update (vdict de) (vdict u) = .ok r → (dkeys u).Nodup →
        (k, v) ∈ u → wfV v = true → dlookup de k = none →
        ∃ re, r = vdict re ∧ dlookup re k = some v) := by
  refine ⟨?_, ?_, ?_, ?_, ?_⟩
  · show deepUpdEntries _ _ = _
    simp [deepUpdEntries_cons_dict, deepUpdEntries_cons_ndict, deepUpdEntries_nil,
      dlookup, dset, Val.isDict]
  · intro de u r k h hk
    exact deepUpdEntries_frame u de r k h hk
  · intro de u r k v h hnd hm hv
    exact deepUpdEntries_override u de r k v h hnd hm hv
  · intro de u r k uv bv h hnd hm hb
    exact deepUpdEntries_recurse u de r k uv bv h hnd hm hb
  · intro de u r k v h hnd hm hwf hb
    exact deepUpdEntries_fresh_key u de r k v h hnd hm hwf hb

/-- Witness for C3 at the concrete merge of the claim. -/
theorem C3_deep_update_merge_semantics_witness :
    ∃ re, (vdict [("a", vint 1), ("b", vdict [("x", vint 1), ("y", vint 2)]),
        ("c", vint 3)] : Val) = vdict re ∧
      dlookup re "a" = dlookup [("a", vint 1), ("b", vdict [("x", vint 1)])] "a" :=
  C3_deep_update_merge_semantics.2.1 [("a", vint 1), ("b", vdict [("x", vint 1)])]
    [("b", vdict [("y", vint 2)]), ("c", vint 3)] _ "a"
    C3_deep_update_merge_semantics.1 (by decide)

/-! Claims C1 and C2: keys beginning with the `$` value marker. -/

theorem matchField_dollar (key : String) (cs : List Char)
    (hk : key.toList = '$' :: cs) : matchField key = none := by
  unfold matchField
  rw [hk]
  rfl

theorem matchGroup_dollar (key : String) (cs : List Char)
    (hk : key.toList = '$' :: cs) : matchGroup key = none := by
  unfold matchGroup
  rw [hk]
  rfl

theorem matchAttribute_dollar (key : String) (cs : List Char)
    (hk : key.toList = '$' :: cs) : matchAttribute key = none := by
  unfold matchAttribute
  rw [hk]
  rfl

theorem matchLink_dollar (key : String) (cs : List Char)
    (hk : key.toList = '$' :: cs) : matchLink key = none := by
  unfold matchLink
  rw [hk]
  rfl

theorem matchChoice_dollar (key : String) (cs : List Char)
    (hk : key.toList = '$' :: cs) : matchChoice key = none := by
  unfold matchChoice
  rw [hk]
  rfl

theorem startsDollar_of_toList (key : String) (cs : List Char)
    (hk : key.toList = '$' :: cs) : startsDollar key = true := by
  unfold startsDollar
  rw [hk]
  rfl

/-- C2: every key beginning with the reserved `$` marker matches none of the
five structural regexes, and instead of being stored as a residual property
the `key.startswith("$")` branch raises AttributeError (its dead statement
`(nx_name,) = match.groups()` unpacks a `None` match), so
`parse_nxdlyml_level` never returns normally on such a key. -/
theorem C2_dollar_key_raises (key : String) (cs : List Char)
    (hk : key.toList = '$' :: cs) :
    (matchGroup key = none ∧ matchField key = none ∧ matchAttribute key = none ∧
      matchLink key = none ∧ matchChoice key = none) ∧
    (∀ val rest acc, parseItems acc ((key, val) :: rest) = .error .attributeError) ∧
    (∀ val rest, parse_nxdlyml_level (vdict ((key, val) :: rest)) =
      .error .attributeError) := by
  have hg := matchGroup_dollar key cs hk
  have hf := matchField_dollar key cs hk
  have ha := matchAttribute_dollar key cs hk
  have hl := matchLink_dollar key cs hk
  have hc := matchChoice_dollar key cs hk
  have hd := startsDollar_of_toList key cs hk
  have hp : ∀ val rest acc, parseItems acc ((key, val) :: rest) = .error .attributeError := by
    intro val rest acc
    simp only [parseItems, hg, hf, ha, hl, hc, hd]
    rfl
  refine ⟨⟨hg, hf, ha, hl, hc⟩, hp, ?_⟩
  intro val rest
  rw [parse_nxdlyml_level, hp]

/-- Witness for C2 at the concrete key `$value`. -/
theorem C2_dollar_key_raises_witness :
    parse_nxdlyml_level (vdict [("$value", vstr "synchrotron")]) =
      .error .attributeError :=
  (C2_dollar_key_raises "$value" ['v', 'a', 'l', 'u', 'e'] rfl).2.2 (vstr "synchrotron") []

/-- C1: the Scenario A input contains the residual key `$value`, so instead of
converting to the simplified `source`/`name` tree the parse raises
AttributeError in the `key.startswith("$")` branch; `convert_groups` is never
reached. -/
theorem C1_scenario_a_raises :
    parse_nxdlyml_level (vdict [("source(NXsource)",
      vdict [("name", vdict [("$value", vstr "synchrotron")])])]) =
      .error .attributeError := by
  rfl

/-! Claim C7: the attribute `@default(NX_CHAR)` with no nested value. -/

/-- C7 counterexample: parsing and converting the attribute key
`@default(NX_CHAR)` with no nested value yields `default` mapped to the dict
`dtype: str` (the `NX_CHAR` token is in the `NX_DTYPES` table), not to the
explicit empty marker `None` that the claim states. -/
theorem C7_counterexample_char_attribute :
    parse_nxdlyml_level (vdict [("@default(NX_CHAR)", vnull)]) =
      .ok [("attributes", vlist [vdict [("nx_term", vstr "attribute"),
        ("nx_name", vstr "default"), ("nx_type", vstr "NX_CHAR")]])] ∧
    convert_attributes (vlist [vdict [("nx_term", vstr "attribute"),
        ("nx_name", vstr "default"), ("nx_type", vstr "NX_CHAR")]]) =
      .ok [("default", vdict [("dtype", vstr "str")])] ∧
    [("default", vdict [("dtype", vstr "str")])] ≠ [("default", (vnull : Val))] := by
  refine ⟨rfl, rfl, ?_⟩
  simp

/-- C7 amended: `@default(NX_CHAR)` converts to `default: (dtype: str)` --
the declared type token is looked up in the fixed table and populates the
storage-type label -- while the present-but-empty `None` marker is produced
exactly by an attribute with nothing populated, e.g. the untyped `@default`. -/
theorem C7_amended_char_attribute :
    parse_nxdlyml_level (vdict [("@default(NX_CHAR)", vnull)]) =
      .ok [("attributes", vlist [vdict [("nx_term", vstr "attribute"),
        ("nx_name", vstr "default"), ("nx_type", vstr "NX_CHAR")]])] ∧
    convert_attributes (vlist [vdict [("nx_term", vstr "attribute"),
        ("nx_name", vstr "default"), ("nx_type", vstr "NX_CHAR")]]) =
      .ok [("default", vdict [("dtype", vstr "str")])] ∧
    parse_nxdlyml_level (vdict [("@default", vnull)]) =
      .ok [("attributes", vlist [vdict [("nx_term", vstr "attribute"),
        ("nx_name", vstr "default"), ("nx_type", vnull)]])] ∧
    convert_attributes (vlist [vdict [("nx_term", vstr "attribute"),
        ("nx_name", vstr "default"), ("nx_type", vnull)]]) =
      .ok [("default", vnull)] :=
  ⟨rfl, rfl, rfl, rfl⟩

/-! Claim C9: the choice branch of the level parser. -/

/-- C9 counterexample: the synthesized Field-kind child of a `(choice)` key is
appended to the `groups` list of the parsed level, and no `fields` list is
produced at all. -/
theorem C9_counterexample_choice_goes_to_groups :
    parse_nxdlyml_level (vdict [("pump(choice)",
      vdict [("(NXdisk_chopper)", vdict [("doc", vstr "a")]),
             ("(NXfermi_chopper)", vdict [("doc", vstr "b")])])]) =
      .ok [("groups", vlist [vdict [("nx_term", vstr "field"),
        ("nx_name", vstr "pump"),
        ("nx_class", vstr "NXdisk_chopper | NXfermi_chopper"),
        ("doc", vstr "NXdisk_chopper: a\nNXfermi_chopper: b")]])] ∧
    dlookup [("groups", vlist [vdict [("nx_term", vstr "field"),
        ("nx_name", vstr "pump"),
        ("nx_class", vstr "NXdisk_chopper | NXfermi_chopper"),
        ("doc", vstr "NXdisk_chopper: a\nNXfermi_chopper: b")]])] "fields" = none :=
  ⟨rfl, rfl⟩

theorem choiceClasses_of_dicts (gs : List (List (String × Val))) :
    choiceClasses (gs.map vdict) =
      .ok (gs.map (fun g => (dlookup g "nx_class").getD vnull)) := by
  induction gs with
  | nil => rfl
  | cons g rest ih =>
    rw [List.map_cons, choiceClasses, ih]
    rfl

theorem choiceDocs_of_dicts (gs : List (List (String × Val))) :
    choiceDocs (gs.map vdict) =
      .ok (gs.map (fun g => pyStr ((dlookup g "nx_class").getD vnull) ++ ": "
        ++ pyStr ((dlookup g "doc").getD vnull))) := by
  induction gs with
  | nil => rfl
  | cons g rest ih =>
    rw [List.map_cons, choiceDocs, ih]
    rfl

theorem pyJoin_strings (sep : String) (cs : List String) :
    pyJoin sep (cs.map vstr) = .ok (strJoin sep cs) := by
  induction cs with
  | nil => rfl
  | cons c rest ih =>
    cases rest with
    | nil => rfl
    | cons c2 r2 =>
      rw [show pyJoin sep (List.map vstr (c :: c2 :: r2)) =
        (match pyJoin sep (List.map vstr (c2 :: r2)) with
         | .ok t => .ok (c ++ sep ++ t)
         | .error e => .error e) from rfl, ih]
      rfl

/-- C9 amended: a key matching the choice pattern parses its nested value,
and from the group children synthesizes a single Field-kind child whose class
token is the ` | `-joined list of the alternatives' class tokens and whose doc
is one `class: doc` line per alternative -- and appends that child to the
`groups` list of the parsed level (not to the `fields` list). -/
theorem C9_amended_choice_synthesis (key nm : String) (val : Val)
    (h1 : matchGroup key = none) (h2 : matchField key = none)
    (h3 : matchAttribute key = none) (h4 : matchLink key = none)
    (h5 : matchChoice key = some nm)
    (sub : List (String × Val)) (hsub : parseLevelArg val = .ok sub)
    (gs : List (List (String × Val))) (hgs : dlookup sub "groups" = some (vlist (gs.map vdict)))
    (cs : List String)
    (hcs : gs.map (fun g => (dlookup g "nx_class").getD vnull) = cs.map vstr) :
    ∀ acc rest, parseItems acc ((key, val) :: rest) =
      parseItems { acc with groups := acc.groups ++ [vdict
        [("nx_term", vstr "field"), ("nx_name", vstr nm),
         ("nx_class", vstr (strJoin " | " cs)),
         ("doc", vstr (strJoin "\n" (gs.map (fun g =>
           pyStr ((dlookup g "nx_class").getD vnull) ++ ": "
             ++ pyStr ((dlookup g "doc").getD vnull)))))]] } rest := by
  intro acc rest
  simp only [parseItems, h1, h2, h3, h4, h5, hsub, hgs,
    show pyIter (vlist (gs.map vdict)) = .ok (gs.map vdict) from rfl,
    choiceClasses_of_dicts, hcs, pyJoin_strings, choiceDocs_of_dicts]

/-- Witness for C9 amended at the `pump(choice)` example. -/
theorem C9_amended_choice_synthesis_witness :
    parseItems ⟨[], [], [], [], []⟩ [("pump(choice)",
      vdict [("(NXdisk_chopper)", vdict [("doc", vstr "a")]),
             ("(NXfermi_chopper)", vdict [("doc", vstr "b")])])] =
      parseItems ⟨[], [vdict [("nx_term", vstr "field"), ("nx_name", vstr "pump"),
        ("nx_class", vstr "NXdisk_chopper | NXfermi_chopper"),
        ("doc", vstr "NXdisk_chopper: a\nNXfermi_chopper: b")]], [], [], []⟩ [] :=
  C9_amended_choice_synthesis "pump(choice)" "pump"
    (vdict [("(NXdisk_chopper)", vdict [("doc", vstr "a")]),
            ("(NXfermi_chopper)", vdict [("doc", vstr "b")])])
    rfl rfl rfl rfl rfl _ rfl
    [[("nx_term", vstr "group"), ("nx_name", vstr "disk_chopper"),
      ("nx_class", vstr "NXdisk_chopper"), ("doc", vstr "a")],
     [("nx_term", vstr "group"), ("nx_name", vstr "fermi_chopper"),
      ("nx_class", vstr "NXfermi_chopper"), ("doc", vstr "b")]]
    rfl ["NXdisk_chopper", "NXfermi_chopper"] rfl ⟨[], [], [], [], []⟩ []

/-! Claim C5: reduction of trivial definitions. -/

theorem reduceEntries_lookup_none (e : List (String × Val)) (k : String)
    (h : k ∉ dkeys e) : dlookup (reduceEntries e) k = none := by
  induction e with
  | nil => rfl
  | cons hd tl ih =>
    obtain ⟨k0, v0⟩ := hd
    have hne : k0 ≠ k := by
      rintro rfl
      exact h (by simp [dkeys])
    have htl : k ∉ dkeys tl := fun hm => h (by simp [dkeys] at hm ⊢; exact .inr hm)
    rw [reduceEntries]
    by_cases hv : v0.isDict
    · by_cases ht : truthy (reduce_converted v0)
      · simp [hv, ht, dlookup, hne, ih htl]
      · simp [hv, ht, ih htl]
    · simp [hv, dlookup, hne, ih htl]

theorem reduceEntries_drop (e : List (String × Val)) (k : String)
    (sub : List (String × Val)) (hnd : (dkeys e).Nodup) (hm : (k, vdict sub) ∈ e)
    (hr : reduce_converted (vdict sub) = vdict []) :
    dlookup (reduceEntries e) k = none := by
  induction e with
  | nil => simp at hm
  | cons hd tl ih =>
    obtain ⟨k0, v0⟩ := hd
    rw [show dkeys ((k0, v0) :: tl) = k0 :: dkeys tl from rfl, List.nodup_cons] at hnd
    rcases List.mem_cons.mp hm with h1 | h1
    · injection h1 with e1 e2
      subst e1
      subst e2
      rw [reduceEntries]
      simp only [Val.isDict, if_true, hr]
      simp only [truthy, List.isEmpty_nil, Bool.not_true, Bool.false_eq_true, if_false]
      exact reduceEntries_lookup_none tl k hnd.1
    · have hne : k0 ≠ k := by
        rintro rfl
        exact hnd.1 (List.mem_map.mpr ⟨_, h1, rfl⟩)
      rw [reduceEntries]
      by_cases hv : v0.isDict
      · by_cases ht : truthy (reduce_converted v0)
        · simp [hv, ht, dlookup, hne, ih hnd.2 h1]
        · simp [hv, ht, ih hnd.2 h1]
      · simp [hv, dlookup, hne, ih hnd.2 h1]

theorem reduceEntries_keep (e : List (String × Val)) (k : String)
    (sub rsub : List (String × Val)) (hnd : (dkeys e).Nodup)
    (hm : (k, vdict sub) ∈ e) (hr : reduce_converted (vdict sub) = vdict rsub)
    (hne : rsub ≠ []) :
    dlookup (reduceEntries e) k = some (vdict rsub) := by
  induction e with
  | nil => simp at hm
  | cons hd tl ih =>
    obtain ⟨k0, v0⟩ := hd
    rw [show dkeys ((k0, v0) :: tl) = k0 :: dkeys tl from rfl, List.nodup_cons] at hnd
    rcases List.mem_cons.mp hm with h1 | h1
    · injection h1 with e1 e2
      subst e1
      subst e2
      rw [reduceEntries]
      simp only [Val.isDict, if_true, hr]
      have htr : truthy (vdict rsub) = true := by
        simp [truthy, List.isEmpty_iff, hne]
      simp only [htr, if_true, dlookup, if_pos rfl]
    · have hk0 : k0 ≠ k := by
        rintro rfl
        exact hnd.1 (List.mem_map.mpr ⟨_, h1, rfl⟩)
      rw [reduceEntries]
      by_cases hv : v0.isDict
      · by_cases ht : truthy (reduce_converted v0)
        · simp [hv, ht, dlookup, hk0, ih hnd.2 h1]
        · simp [hv, ht, ih hnd.2 h1]
      · simp [hv, dlookup, hk0, ih hnd.2 h1]

/-- C5: `reduce_converted` recurses depth-first; a nested mapping whose own
reduction is empty (in particular one whose reduced key set is exactly the
class tag) is dropped by its parent, a nested mapping with surviving content
is kept with its reduced value, the output never has `nxclass` as its only
key, and emptiness propagates upward: the three-level group tree over a bare
`NXfield` reduces to the empty dict, a value-less field is already dropped by
`convert_fields` under reduction, and without reduction its `nxclass`-only
dict is erased by `reduce_converted`. -/
theorem C5_reduce_propagation :
    (∀ e, reduceEntries e ≠ [] → (reduceEntries e).all
        (fun kv => kv.1 = "nxclass") = true → reduce_converted (vdict e) = vdict [])
    ∧ (∀ e re, reduce_converted (vdict e) = vdict re →
        ¬(re ≠ [] ∧ re.all (fun kv => kv.1 = "nxclass") = true))
    ∧ (∀ e k sub, (dkeys e).Nodup → (k, vdict sub) ∈ e →
        reduce_converted (vdict sub) = vdict [] →
        ∃ re, reduce_converted (vdict e) = vdict re ∧ dlookup re k = none)
    ∧ (∀ e k sub rsub, (dkeys e).Nodup → (k, vdict sub) ∈ e →
        reduce_converted (vdict sub) = vdict rsub → rsub ≠ [] → k ≠ "nxclass" →
        reduce_converted (vdict e) = vdict (reduceEntries e) ∧
          dlookup (reduceEntries e) k = some (vdict rsub))
    ∧ reduce_converted (vdict [("entry", vdict [("nxclass", vstr "NXentry"),
        ("inst", vdict [("nxclass", vstr "NXinstrument"),
          ("det", vdict [("nxclass", vstr "NXdetector"),
            ("f", vdict [("nxclass", vstr "NXfield")])])])])]) = vdict []
    ∧ convert_fields (vlist [vdict [("nx_term", vstr "field"),
        ("nx_name", vstr "f"), ("nx_type", vnull)]]) true = .ok []
    ∧ convert_fields (vlist [vdict [("nx_term", vstr "field"),
        ("nx_name", vstr "f"), ("nx_type", vnull)]]) false =
        .ok [("f", vdict [("nxclass", vstr "NXfield")])]
    ∧ reduce_converted (vdict [("f", vdict [("nxclass", vstr "NXfield")])]) =
        vdict [] := by
  refine ⟨?_, ?_, ?_, ?_, rfl, rfl, rfl, rfl⟩
  · intro e hne hall
    have h1 : (reduceEntries e).isEmpty = false := by
      simpa [List.isEmpty_iff] using hne
    rw [reduce_converted, if_pos (show _ = true by rw [h1, hall]; rfl)]
  · intro e re h
    rw [reduce_converted] at h
    by_cases hcond : (!(reduceEntries e).isEmpty &&
        (reduceEntries e).all (fun kv => decide (kv.1 = "nxclass"))) = true
    · rw [if_pos hcond] at h
      injection h with h'
      rintro ⟨hne2, _⟩
      exact hne2 h'.symm
    · rw [if_neg hcond] at h
      injection h with h'
      subst h'
      rintro ⟨hne2, hall2⟩
      apply hcond
      simp [hall2, List.isEmpty_iff, hne2]
  · intro e k sub hnd hm hr
    by_cases hcond : (!(reduceEntries e).isEmpty &&
        (reduceEntries e).all (fun kv => decide (kv.1 = "nxclass"))) = true
    · exact ⟨[], by rw [reduce_converted, if_pos hcond], rfl⟩
    · exact ⟨reduceEntries e, by rw [reduce_converted, if_neg hcond],
        reduceEntries_drop e k sub hnd hm hr⟩
  · intro e k sub rsub hnd hm hr hrne hknx
    have hl := reduceEntries_keep e k sub rsub hnd hm hr hrne
    have hcond : (!(reduceEntries e).isEmpty &&
        (reduceEntries e).all (fun kv => decide (kv.1 = "nxclass"))) ≠ true := by
      intro hA
      rw [Bool.and_eq_true] at hA
      have hmem := dlookup_mem _ _ _ hl
      have := List.all_eq_true.mp hA.2 _ hmem
      simp only [decide_eq_true_eq] at this
      exact hknx this
    exact ⟨by rw [reduce_converted, if_neg hcond], hl⟩

/-- Witness for C5 at a group holding only its class tag. -/
theorem C5_reduce_propagation_witness :
    ∃ re, reduce_converted (vdict [("g", vdict [("nxclass", vstr "NXa")])]) =
      vdict re ∧ dlookup re "g" = none :=
  C5_reduce_propagation.2.2.1 [("g", vdict [("nxclass", vstr "NXa")])] "g"
    [("nxclass", vstr "NXa")] (by decide) (by simp) (by rfl)

/-! Claim C10: truthiness-based presence tests in the converters. -/

theorem convFieldLoop_falsy_key (f : List (String × Val)) (K : String) (v : Val)
    (reduce : Bool) (hK : K = "$value" ∨ K = "doc" ∨ K = "enumeration")
    (hv : dlookup f K = some v) (ht : truthy v = false)
    (acc : List (String × Val)) (rest : List Val) :
    convFieldLoop reduce acc (vdict f :: rest) =
      convFieldLoop reduce acc (vdict (dremove f K) :: rest) := by
  have e0 : dlookup (dremove f K) K = none := dlookup_dremove_self f K
  have eq1 : ∀ kk, kk ≠ K → dlookup (dremove f K) kk = dlookup f kk :=
    fun kk hk => dlookup_dremove_ne f K kk hk
  have tnull : truthy vnull = false := rfl
  rcases hK with rfl | rfl | rfl
  · simp only [convFieldLoop, hv, ht, e0,
      eq1 "type" (by decide), eq1 "nx_type" (by decide),
      eq1 "enumeration" (by decide), eq1 "attributes" (by decide),
      eq1 "$units" (by decide), eq1 "doc" (by decide), eq1 "nx_name" (by decide),
      tnull, Option.getD_some, Option.getD_none, Bool.not_false, Bool.true_and,
      Bool.false_eq_true, if_false]
  · simp only [convFieldLoop, hv, ht, e0,
      eq1 "$value" (by decide), eq1 "type" (by decide), eq1 "nx_type" (by decide),
      eq1 "enumeration" (by decide), eq1 "attributes" (by decide),
      eq1 "$units" (by decide), eq1 "nx_name" (by decide),
      tnull, Option.getD_some, Option.getD_none, Bool.not_false, Bool.true_and,
      Bool.false_eq_true, if_false]
  · simp only [convFieldLoop, hv, ht, e0,
      eq1 "$value" (by decide), eq1 "type" (by decide), eq1 "nx_type" (by decide),
      eq1 "attributes" (by decide),
      eq1 "$units" (by decide), eq1 "doc" (by decide), eq1 "nx_name" (by decide),
      tnull, Option.getD_some, Option.getD_none, Bool.not_false, Bool.true_and,
      Bool.false_eq_true, if_false]

theorem convAttrLoop_falsy_key (a : List (String × Val)) (K : String) (v : Val)
    (hK : K = "$value" ∨ K = "doc" ∨ K = "enumeration")
    (hv : dlookup a K = some v) (ht : truthy v = false)
    (acc : List (String × Val)) (rest : List Val) :
    convAttrLoop acc (vdict a :: rest) =
      convAttrLoop acc (vdict (dremove a K) :: rest) := by
  have e0 : dlookup (dremove a K) K = none := dlookup_dremove_self a K
  have eq1 : ∀ kk, kk ≠ K → dlookup (dremove a K) kk = dlookup a kk :=
    fun kk hk => dlookup_dremove_ne a K kk hk
  have tnull : truthy vnull = false := rfl
  rcases hK with rfl | rfl | rfl
  · simp only [convAttrLoop, hv, ht, e0,
      eq1 "type" (by decide), eq1 "nx_type" (by decide),
      eq1 "enumeration" (by decide), eq1 "doc" (by decide),
      eq1 "nx_name" (by decide),
      tnull, Option.getD_some, Option.getD_none, Bool.not_false, Bool.true_and,
      Bool.false_eq_true, if_false]
  · simp only [convAttrLoop, hv, ht, e0,
      eq1 "$value" (by decide), eq1 "type" (by decide), eq1 "nx_type" (by decide),
      eq1 "enumeration" (by decide), eq1 "nx_name" (by decide),
      tnull, Option.getD_some, Option.getD_none, Bool.not_false, Bool.true_and,
      Bool.false_eq_true, if_false]
  · simp only [convAttrLoop, hv, ht, e0,
      eq1 "$value" (by decide), eq1 "type" (by decide), eq1 "nx_type" (by decide),
      eq1 "doc" (by decide), eq1 "nx_name" (by decide),
      tnull, Option.getD_some, Option.getD_none, Bool.not_false, Bool.true_and,
      Bool.false_eq_true, if_false]

/-- C10: the converters test presence by truthiness, not key membership: a
field or attribute record whose `$value`, `doc` or `enumeration` property is
present but falsy converts exactly as if the property were absent; in
particular a field whose `$value` is the empty string is dropped by
`convert_fields` under reduction just like a value-less field. -/
theorem C10_truthiness_presence :
    (∀ f v reduce, dlookup f "$value" = some v → truthy v = false →
      convert_fields (vlist [vdict f]) reduce =
        convert_fields (vlist [vdict (dremove f "$value")]) reduce)
    ∧ (∀ f d reduce, dlookup f "doc" = some d → truthy d = false →
      convert_fields (vlist [vdict f]) reduce =
        convert_fields (vlist [vdict (dremove f "doc")]) reduce)
    ∧ (∀ f en reduce, dlookup f "enumeration" = some en → truthy en = false →
      convert_fields (vlist [vdict f]) reduce =
        convert_fields (vlist [vdict (dremove f "enumeration")]) reduce)
    ∧ (∀ a v, dlookup a "$value" = some v → truthy v = false →
      convert_attributes (vlist [vdict a]) =
        convert_attributes (vlist [vdict (dremove a "$value")]))
    ∧ (∀ a d, dlookup a "doc" = some d → truthy d = false →
      convert_attributes (vlist [vdict a]) =
        convert_attributes (vlist [vdict (dremove a "doc")]))
    ∧ (∀ a en, dlookup a "enumeration" = some en → truthy en = false →
      convert_attributes (vlist [vdict a]) =
        convert_attributes (vlist [vdict (dremove a "enumeration")]))
    ∧ convert_fields (vlist [vdict [("nx_name", vstr "f"),
        ("$value", vstr "")]]) true = .ok []
    ∧ convert_fields (vlist [vdict [("nx_name", vstr "f"),
        ("$value", vint 0)]]) true = .ok []
    ∧ convert_fields (vlist [vdict [("nx_name", vstr "f"),
        ("$value", vbool false)]]) true = .ok []
    ∧ convert_fields (vlist [vdict [("nx_name", vstr "f")]]) true = .ok [] := by
  refine ⟨?_, ?_, ?_, ?_, ?_, ?_, rfl, rfl, rfl, rfl⟩
  · intro f v reduce hv ht
    exact convFieldLoop_falsy_key f "$value" v reduce (.inl rfl) hv ht [] []
  · intro f d reduce hv ht
    exact convFieldLoop_falsy_key f "doc" d reduce (.inr (.inl rfl)) hv ht [] []
  · intro f en reduce hv ht
    exact convFieldLoop_falsy_key f "enumeration" en reduce (.inr (.inr rfl)) hv ht [] []
  · intro a v hv ht
    exact convAttrLoop_falsy_key a "$value" v (.inl rfl) hv ht [] []
  · intro a d hv ht
    exact convAttrLoop_falsy_key a "doc" d (.inr (.inl rfl)) hv ht [] []
  · intro a en hv ht
    exact convAttrLoop_falsy_key a "enumeration" en (.inr (.inr rfl)) hv ht [] []

/-- Witness for C10 at a field with an empty-string value. -/
theorem C10_truthiness_presence_witness :
    convert_fields (vlist [vdict [("nx_name", vstr "f"), ("$value", vstr "")]]) true =
      convert_fields (vlist [vdict (dremove [("nx_name", vstr "f"),
        ("$value", vstr "")] "$value")]) true :=
  C10_truthiness_presence.1 [("nx_name", vstr "f"), ("$value", vstr "")]
    (vstr "") true rfl rfl

/-! Claim C6: the canonical sibling order of `sort_converted`. -/

theorem lexLe_total (a b : List Char) : lexLe a b = true ∨ lexLe b a = true := by
  induction a generalizing b with
  | nil => exact .inl rfl
  | cons x xs ih =>
    cases b with
    | nil => exact .inr rfl
    | cons y ys =>
      by_cases h1 : x < y
      · exact .inl (by simp [lexLe, h1])
      · by_cases h2 : y < x
        · exact .inr (by simp [lexLe, h2, h1])
        · rcases ih ys with h | h
          · exact .inl (by simp [lexLe, h1, h2, h])
          · exact .inr (by simp [lexLe, h1, h2, h])

theorem lexLe_trans (a b c : List Char) (hab : lexLe a b = true)
    (hbc : lexLe b c = true) : lexLe a c = true := by
  induction a generalizing b c with
  | nil => rfl
  | cons x xs ih =>
    cases b with
    | nil => simp [lexLe] at hab
    | cons y ys =>
      cases c with
      | nil => simp [lexLe] at hbc
      | cons z zs =>
        rw [lexLe] at hab hbc ⊢
        by_cases h1 : x < y
        · have h2 : x < z := by
            by_cases hyz : y < z
            · exact lt_trans h1 hyz
            · by_cases hzy : z < y
              · simp [hyz, hzy] at hbc
              · have : y = z := le_antisymm (not_lt.mp hzy) (not_lt.mp hyz)
                exact this ▸ h1
          simp [h2]
        · by_cases h2 : y < x
          · simp [h1, h2] at hab
          · have hxy : x = y := le_antisymm (not_lt.mp h2) (not_lt.mp h1)
            subst hxy
            by_cases h3 : x < z
            · simp [h3]
            · by_cases h4 : z < x
              · simp [h3, h4] at hbc
              · simp [h1, h2, h3, h4] at hab hbc ⊢
                exact ih ys zs hab hbc

theorem strLeB_total (a b : String) : (strLeB a b || strLeB b a) = true := by
  rw [Bool.or_eq_true]
  rcases lexLe_total a.toList b.toList with h | h
  · exact .inl h
  · exact .inr h

theorem strLeB_trans (a b c : String) (hab : strLeB a b = true)
    (hbc : strLeB b c = true) : strLeB a c = true :=
  lexLe_trans a.toList b.toList c.toList hab hbc

theorem strSort_sorted (l : List String) :
    List.Pairwise (fun a b => strLeB a b = true) (strSort l) :=
  @List.sorted_insertionSort String (fun a b => strLeB a b = true) _
    ⟨fun a b => by have h := strLeB_total a b; rw [Bool.or_eq_true] at h; exact h⟩
    ⟨fun a b c => strLeB_trans a b c⟩ l

theorem strSort_perm (l : List String) : (strSort l).Perm l :=
  List.perm_insertionSort (fun a b => strLeB a b = true) l

theorem strSort_mem (l : List String) (k : String) : k ∈ strSort l ↔ k ∈ l :=
  (strSort_perm l).mem_iff

theorem strSort_nodup (l : List String) (h : l.Nodup) : (strSort l).Nodup :=
  ((strSort_perm l).nodup_iff).mpr h

/-- Claim-level reading of a non-container (scalar) sibling key. -/
def strKeyP (oe : List (String × Val)) (k : String) : Prop :=
  k ≠ "nxclass" ∧ k ≠ "attrs" ∧ ∃ v, dlookup oe k = some v ∧ v.isDict = false

/-- Claim-level reading of a group-like (non-field) container sibling key. -/
def grpKeyP (oe : List (String × Val)) (k : String) : Prop :=
  k ≠ "nxclass" ∧ k ≠ "attrs" ∧ ∃ sub, dlookup oe k = some (vdict sub) ∧
    vbeq ((dlookup sub "nxclass").getD vnull) (vstr "NXfield") = false

/-- The sibling order stated by claim C6: the class tag before everything,
the attribute container after everything, scalars alphabetically among
themselves, group-like containers alphabetically among themselves, and every
scalar key before every group-like key. -/
def claimOrder (oe : List (String × Val)) (a b : String) : Prop :=
  b ≠ "nxclass" ∧ a ≠ "attrs" ∧
  (strKeyP oe a → strKeyP oe b → strLeB a b = true ∧ a ≠ b) ∧
  (grpKeyP oe a → grpKeyP oe b → strLeB a b = true ∧ a ≠ b) ∧
  ¬(grpKeyP oe a ∧ strKeyP oe b)

theorem strMem_append (a b : List String) (k : String) :
    strMem (a ++ b) k = (strMem a k || strMem b k) := by
  induction a with
  | nil => simp [strMem]
  | cons s r ih =>
    by_cases h : s = k <;> simp [strMem, h, ih]

theorem dkeys_map_pair (ks : List String) (f : String → Val) :
    dkeys (ks.map (fun k => (k, f k))) = ks := by
  induction ks with
  | nil => rfl
  | cons s r ih => simp [dkeys] at ih ⊢; exact ih

theorem dlookup_map_pair (ks : List String) (f : String → Val) (k : String)
    (h : k ∈ ks) : dlookup (ks.map (fun k => (k, f k))) k = some (f k) := by
  induction ks with
  | nil => simp at h
  | cons s r ih =>
    by_cases hs : s = k
    · subst hs
      simp [dlookup]
    · rcases List.mem_cons.mp h with h1 | h1
      · exact absurd h1.symm hs
      · simp [dlookup, hs, ih h1]

theorem dkeys_reorderEntries (e : List (String × Val)) :
    dkeys (reorderEntries e) = firstKeysOf e ++ strSort (stringKeysOf e)
      ++ strSort (groupKeysOf e) ++ strSort (otherKeysOf e) ++ lastKeysOf e := by
  rw [reorderEntries]
  exact dkeys_map_pair _ _

theorem dlookup_reorderEntries (e : List (String × Val)) (k : String)
    (h : k ∈ dkeys (reorderEntries e)) :
    dlookup (reorderEntries e) k = some ((dlookup e k).getD vnull) := by
  rw [dkeys_reorderEntries] at h
  rw [reorderEntries]
  exact dlookup_map_pair _ _ k h

theorem sortChildren_keys (e : List (String × Val)) :
    dkeys (sortChildren e) = dkeys e := by
  induction e with
  | nil => rfl
  | cons hd tl ih =>
    obtain ⟨k, v⟩ := hd
    rw [sortChildren]
    by_cases hv : v.isDict <;> simp [hv, dkeys, List.map_cons] at ih ⊢ <;> exact ih

theorem mem_firstKeysOf (e : List (String × Val)) (k : String)
    (h : k ∈ firstKeysOf e) : k = "nxclass" ∧ (dlookup e "nxclass").isSome := by
  unfold firstKeysOf at h
  split at h
  · next hs => simp at h; exact ⟨h, hs⟩
  · simp at h

theorem mem_lastKeysOf (e : List (String × Val)) (k : String)
    (h : k ∈ lastKeysOf e) : k = "attrs" ∧ (dlookup e "attrs").isSome := by
  unfold lastKeysOf at h
  split at h
  · next hs => simp at h; exact ⟨h, hs⟩
  · simp at h

theorem firstKeysOf_of_mem (e : List (String × Val))
    (h : "nxclass" ∈ dkeys e) : firstKeysOf e = ["nxclass"] := by
  unfold firstKeysOf
  rw [if_pos ((dlookup_isSome_iff e "nxclass").mpr h)]

theorem lastKeysOf_of_mem (e : List (String × Val))
    (h : "attrs" ∈ dkeys e) : lastKeysOf e = ["attrs"] := by
  unfold lastKeysOf
  rw [if_pos ((dlookup_isSome_iff e "attrs").mpr h)]

theorem mem_stringKeysOf (e : List (String × Val)) (k : String) :
    k ∈ stringKeysOf e ↔ ∃ v, (k, v) ∈ e ∧ v.isDict = false ∧
      strMem (firstKeysOf e ++ lastKeysOf e) k = false := by
  unfold stringKeysOf
  rw [List.mem_map]
  constructor
  · rintro ⟨⟨k2, v⟩, hmf, rfl⟩
    obtain ⟨hm, hcond⟩ := List.mem_filter.mp hmf
    simp only [Bool.and_eq_true, Bool.not_eq_true'] at hcond
    exact ⟨v, hm, hcond.1, hcond.2⟩
  · rintro ⟨v, hm, h1, h2⟩
    exact ⟨(k, v), List.mem_filter.mpr ⟨hm, by simp [h1, h2]⟩, rfl⟩

theorem mem_groupKeysOf (e : List (String × Val)) (k : String) :
    k ∈ groupKeysOf e ↔ ∃ v, (k, v) ∈ e ∧
      strMem (firstKeysOf e ++ lastKeysOf e ++ stringKeysOf e) k = false ∧
      vbeq (vgetD v "nxclass" vnull) (vstr "NXfield") = false := by
  unfold groupKeysOf
  rw [List.mem_map]
  constructor
  · rintro ⟨⟨k2, v⟩, hmf, rfl⟩
    obtain ⟨hm, hcond⟩ := List.mem_filter.mp hmf
    simp only [Bool.and_eq_true, Bool.not_eq_true'] at hcond
    refine ⟨v, hm, ?_, hcond.2⟩
    simpa [strMem_append] using hcond.1
  · rintro ⟨v, hm, h1, h2⟩
    refine ⟨(k, v), List.mem_filter.mpr ⟨hm, ?_⟩, rfl⟩
    simp only [strMem_append, Bool.or_eq_false_iff] at h1
    simp [strMem_append, h1.1.1, h1.1.2, h1.2, h2]

theorem mem_otherKeysOf (e : List (String × Val)) (k : String) :
    k ∈ otherKeysOf e ↔ k ∈ dkeys e ∧
      strMem (firstKeysOf e ++ lastKeysOf e ++ stringKeysOf e ++ groupKeysOf e) k
        = false := by
  unfold otherKeysOf
  rw [List.mem_filter]
  constructor
  · rintro ⟨hm, hcond⟩
    simp only [Bool.not_eq_true'] at hcond
    refine ⟨hm, ?_⟩
    simpa [strMem_append] using hcond
  · rintro ⟨hm, hcond⟩
    refine ⟨hm, ?_⟩
    simp only [strMem_append, Bool.or_eq_false_iff] at hcond
    simp [strMem_append, hcond.1.1.1, hcond.1.1.2, hcond.1.2, hcond.2]

theorem not_special_of_strMem_fl (e : List (String × Val)) (k : String)
    (hm : k ∈ dkeys e)
    (h : strMem (firstKeysOf e ++ lastKeysOf e) k = false) :
    k ≠ "nxclass" ∧ k ≠ "attrs" := by
  constructor
  · rintro rfl
    rw [strMem_append, firstKeysOf_of_mem e hm] at h
    simp [strMem] at h
  · rintro rfl
    rw [strMem_append, lastKeysOf_of_mem e hm] at h
    simp [strMem] at h

theorem stringKey_value (e : List (String × Val)) (k : String)
    (hnd : (dkeys e).Nodup) (h : k ∈ stringKeysOf e) :
    ∃ v, dlookup e k = some v ∧ v.isDict = false ∧ k ≠ "nxclass" ∧ k ≠ "attrs" := by
  obtain ⟨v, hm, hdict, hsm⟩ := (mem_stringKeysOf e k).mp h
  have hk : k ∈ dkeys e := List.mem_map.mpr ⟨_, hm, rfl⟩
  obtain ⟨h1, h2⟩ := not_special_of_strMem_fl e k hk hsm
  exact ⟨v, dlookup_of_mem e k v hnd hm, hdict, h1, h2⟩

theorem groupKey_value (e : List (String × Val)) (k : String)
    (hnd : (dkeys e).Nodup) (h : k ∈ groupKeysOf e) :
    ∃ sub, dlookup e k = some (vdict sub) ∧
      vbeq ((dlookup sub "nxclass").getD vnull) (vstr "NXfield") = false ∧
      k ≠ "nxclass" ∧ k ≠ "attrs" := by
  obtain ⟨v, hm, hsm, hvb⟩ := (mem_groupKeysOf e k).mp h
  have hk : k ∈ dkeys e := List.mem_map.mpr ⟨_, hm, rfl⟩
  rw [strMem_append, Bool.or_eq_false_iff] at hsm
  obtain ⟨hfl, hstr⟩ := hsm
  obtain ⟨h1, h2⟩ := not_special_of_strMem_fl e k hk hfl
  have hlk := dlookup_of_mem e k v hnd hm
  rcases isDict_cases v with hv | ⟨sub, rfl⟩
  · exfalso
    have : k ∈ stringKeysOf e := (mem_stringKeysOf e k).mpr ⟨v, hm, hv, hfl⟩
    rw [← strMem_iff] at this
    rw [this] at hstr
    cases hstr
  · exact ⟨sub, hlk, hvb, h1, h2⟩

theorem otherKey_value (e : List (String × Val)) (k : String)
    (hnd : (dkeys e).Nodup) (h : k ∈ otherKeysOf e) :
    ∃ sub, dlookup e k = some (vdict sub) ∧
      vbeq ((dlookup sub "nxclass").getD vnull) (vstr "NXfield") = true ∧
      k ≠ "nxclass" ∧ k ≠ "attrs" := by
  obtain ⟨hk, hsm⟩ := (mem_otherKeysOf e k).mp h
  rw [strMem_append, Bool.or_eq_false_iff] at hsm
  obtain ⟨hsm, hgrp⟩ := hsm
  rw [strMem_append, Bool.or_eq_false_iff] at hsm
  obtain ⟨hfl, hstr⟩ := hsm
  obtain ⟨h1, h2⟩ := not_special_of_strMem_fl e k hk hfl
  obtain ⟨v, hlk⟩ := Option.isSome_iff_exists.mp ((dlookup_isSome_iff e k).mpr hk)
  have hm := dlookup_mem e k v hlk
  rcases isDict_cases v with hv | ⟨sub, rfl⟩
  · exfalso
    have : k ∈ stringKeysOf e := (mem_stringKeysOf e k).mpr ⟨v, hm, hv, hfl⟩
    rw [← strMem_iff] at this
    rw [this] at hstr
    cases hstr
  · refine ⟨sub, hlk, ?_, h1, h2⟩
    by_cases hvb : vbeq ((dlookup sub "nxclass").getD vnull) (vstr "NXfield") = true
    · exact hvb
    · exfalso
      rw [Bool.not_eq_true] at hvb
      have : k ∈ groupKeysOf e := (mem_groupKeysOf e k).mpr
        ⟨vdict sub, hm, by
          rw [strMem_append, Bool.or_eq_false_iff] at hfl
          simp [strMem_append, hfl.1, hfl.2, hstr],
          show vbeq (vgetD (vdict sub) "nxclass" vnull) (vstr "NXfield") = false from hvb⟩
      rw [← strMem_iff] at this
      rw [this] at hgrp
      cases hgrp

theorem canonical_cover (e : List (String × Val)) (k : String) (hk : k ∈ dkeys e) :
    k ∈ firstKeysOf e ∨ k ∈ stringKeysOf e ∨ k ∈ groupKeysOf e ∨
      k ∈ otherKeysOf e ∨ k ∈ lastKeysOf e := by
  by_cases hmem : strMem (firstKeysOf e ++ lastKeysOf e
      ++ stringKeysOf e ++ groupKeysOf e) k = true
  case neg =>
    rw [Bool.not_eq_true] at hmem
    exact .inr (.inr (.inr (.inl ((mem_otherKeysOf e k).mpr ⟨hk, hmem⟩))))
  case pos =>
    rw [strMem_append, Bool.or_eq_true] at hmem
    rcases hmem with hmem | hmem
    · rw [strMem_append, Bool.or_eq_true] at hmem
      rcases hmem with hmem | hmem
      · rw [strMem_append, Bool.or_eq_true] at hmem
        rcases hmem with hmem | hmem
        · exact .inl ((strMem_iff _ _).mp hmem)
        · exact .inr (.inr (.inr (.inr ((strMem_iff _ _).mp hmem))))
      · exact .inr (.inl ((strMem_iff _ _).mp hmem))
    · exact .inr (.inr (.inl ((strMem_iff _ _).mp hmem)))

theorem stringKeysOf_subset (e : List (String × Val)) (k : String)
    (h : k ∈ stringKeysOf e) : k ∈ dkeys e := by
  obtain ⟨v, hm, _, _⟩ := (mem_stringKeysOf e k).mp h
  exact List.mem_map.mpr ⟨_, hm, rfl⟩

theorem groupKeysOf_subset (e : List (String × Val)) (k : String)
    (h : k ∈ groupKeysOf e) : k ∈ dkeys e := by
  obtain ⟨v, hm, _, _⟩ := (mem_groupKeysOf e k).mp h
  exact List.mem_map.mpr ⟨_, hm, rfl⟩

theorem stringKeysOf_nodup (e : List (String × Val)) (hnd : (dkeys e).Nodup) :
    (stringKeysOf e).Nodup :=
  (((List.filter_sublist e).map Prod.fst)).nodup hnd

theorem groupKeysOf_nodup (e : List (String × Val)) (hnd : (dkeys e).Nodup) :
    (groupKeysOf e).Nodup :=
  (((List.filter_sublist e).map Prod.fst)).nodup hnd

theorem otherKeysOf_nodup (e : List (String × Val)) (hnd : (dkeys e).Nodup) :
    (otherKeysOf e).Nodup :=
  (List.filter_sublist (dkeys e)).nodup hnd

theorem claimOrder_of_vacuous (oe : List (String × Val)) (a b : String)
    (hb : b ≠ "nxclass") (ha : a ≠ "attrs")
    (hs : ¬strKeyP oe a ∨ ¬strKeyP oe b)
    (hg : ¬grpKeyP oe a ∨ ¬grpKeyP oe b)
    (hgs : ¬grpKeyP oe a ∨ ¬strKeyP oe b) : claimOrder oe a b := by
  refine ⟨hb, ha, ?_, ?_, ?_⟩
  · intro h1 h2
    rcases hs with h | h
    · exact absurd h1 h
    · exact absurd h2 h
  · intro h1 h2
    rcases hg with h | h
    · exact absurd h1 h
    · exact absurd h2 h
  · rintro ⟨h1, h2⟩
    rcases hgs with h | h
    · exact h h1
    · exact h h2

/-- C6: `sort_converted` orders sibling keys with the class tag `nxclass`
before all other keys, the attribute container `attrs` after all other keys,
the non-mapping-valued keys in alphabetical order, the group-like (non-field)
mapping-valued keys after them in alphabetical order, and it preserves the
key set. -/
theorem C6_sort_total_order (e : List (String × Val)) (hnd : (dkeys e).Nodup) :
    ∃ oe, sort_converted (vdict e) = vdict oe ∧
      (∀ k, k ∈ dkeys oe ↔ k ∈ dkeys e) ∧
      (dkeys oe).Pairwise (claimOrder oe) := by
  refine ⟨reorderEntries (sortChildren e), rfl, ?_⟩
  set e' := sortChildren e with he'
  have hkeq : dkeys e' = dkeys e := sortChildren_keys e
  have hnd' : (dkeys e').Nodup := by rw [hkeq]; exact hnd
  set oe := reorderEntries e' with hoe
  have hkeys : dkeys oe = firstKeysOf e' ++ strSort (stringKeysOf e')
      ++ strSort (groupKeysOf e') ++ strSort (otherKeysOf e') ++ lastKeysOf e' :=
    dkeys_reorderEntries e'
  have holk : ∀ k, k ∈ dkeys oe → dlookup oe k = some ((dlookup e' k).getD vnull) :=
    fun k hk => dlookup_reorderEntries e' k hk
  have hmem_iff : ∀ k, k ∈ dkeys oe ↔ k ∈ dkeys e' := by
    intro k
    rw [hkeys]
    simp only [List.mem_append]
    constructor
    · intro hk
      rcases hk with ((((hk | hk) | hk) | hk) | hk)
      · obtain ⟨rfl, hs⟩ := mem_firstKeysOf e' k hk
        exact (dlookup_isSome_iff e' "nxclass").mp hs
      · exact stringKeysOf_subset e' k ((strSort_mem _ _).mp hk)
      · exact groupKeysOf_subset e' k ((strSort_mem _ _).mp hk)
      · exact ((mem_otherKeysOf e' k).mp ((strSort_mem _ _).mp hk)).1
      · obtain ⟨rfl, hs⟩ := mem_lastKeysOf e' k hk
        exact (dlookup_isSome_iff e' "attrs").mp hs
    · intro hk
      rcases canonical_cover e' k hk with h | h | h | h | h
      · exact .inl (.inl (.inl (.inl h)))
      · exact .inl (.inl (.inl (.inr ((strSort_mem _ _).mpr h))))
      · exact .inl (.inl (.inr ((strSort_mem _ _).mpr h)))
      · exact .inl (.inr ((strSort_mem _ _).mpr h))
      · exact .inr h
  refine ⟨fun k => (hmem_iff k).trans (by rw [hkeq]), ?_⟩
  have FactS : ∀ a, a ∈ strSort (stringKeysOf e') →
      strKeyP oe a ∧ ¬grpKeyP oe a ∧ a ≠ "nxclass" ∧ a ≠ "attrs" := by
    intro a ha
    have ha' := (strSort_mem _ _).mp ha
    obtain ⟨v, hlk, hdict, h1, h2⟩ := stringKey_value e' a hnd' ha'
    have hain : a ∈ dkeys oe := (hmem_iff a).mpr (stringKeysOf_subset e' a ha')
    have holka : dlookup oe a = some v := by rw [holk a hain, hlk]; rfl
    refine ⟨⟨h1, h2, v, holka, hdict⟩, ?_, h1, h2⟩
    rintro ⟨_, _, sub, hlk2, _⟩
    rw [holka] at hlk2
    injection hlk2 with hv
    subst hv
    simp [Val.isDict] at hdict
  have FactG : ∀ a, a ∈ strSort (groupKeysOf e') →
      grpKeyP oe a ∧ ¬strKeyP oe a ∧ a ≠ "nxclass" ∧ a ≠ "attrs" := by
    intro a ha
    have ha' := (strSort_mem _ _).mp ha
    obtain ⟨sub, hlk, hvb, h1, h2⟩ := groupKey_value e' a hnd' ha'
    have hain : a ∈ dkeys oe := (hmem_iff a).mpr (groupKeysOf_subset e' a ha')
    have holka : dlookup oe a = some (vdict sub) := by rw [holk a hain, hlk]; rfl
    refine ⟨⟨h1, h2, sub, holka, hvb⟩, ?_, h1, h2⟩
    rintro ⟨_, _, w, hlk2, hw⟩
    rw [holka] at hlk2
    injection hlk2 with hv
    subst hv
    simp [Val.isDict] at hw
  have FactO : ∀ a, a ∈ strSort (otherKeysOf e') →
      ¬strKeyP oe a ∧ ¬grpKeyP oe a ∧ a ≠ "nxclass" ∧ a ≠ "attrs" := by
    intro a ha
    have ha' := (strSort_mem _ _).mp ha
    obtain ⟨sub, hlk, hvb, h1, h2⟩ := otherKey_value e' a hnd' ha'
    have hain : a ∈ dkeys oe :=
      (hmem_iff a).mpr ((mem_otherKeysOf e' a).mp ha').1
    have holka : dlookup oe a = some (vdict sub) := by rw [holk a hain, hlk]; rfl
    refine ⟨?_, ?_, h1, h2⟩
    · rintro ⟨_, _, w, hlk2, hw⟩
      rw [holka] at hlk2
      injection hlk2 with hv
      subst hv
      simp [Val.isDict] at hw
    · rintro ⟨_, _, sub2, hlk2, hvb2⟩
      rw [holka] at hlk2
      injection hlk2 with hv
      injection hv with hv2
      subst hv2
      rw [hvb] at hvb2
      cases hvb2
  have FactF : ∀ a, a ∈ firstKeysOf e' → a = "nxclass" :=
    fun a ha => (mem_firstKeysOf e' a ha).1
  have FactL : ∀ a, a ∈ lastKeysOf e' → a = "attrs" :=
    fun a ha => (mem_lastKeysOf e' a ha).1
  have notP_nx : ¬strKeyP oe "nxclass" ∧ ¬grpKeyP oe "nxclass" :=
    ⟨fun h => h.1 rfl, fun h => h.1 rfl⟩
  have notP_at : ¬strKeyP oe "attrs" ∧ ¬grpKeyP oe "attrs" :=
    ⟨fun h => h.2.1 rfl, fun h => h.2.1 rfl⟩
  rw [hkeys, List.append_assoc, List.append_assoc, List.append_assoc]
  refine List.pairwise_append.mpr ⟨?_, List.pairwise_append.mpr ⟨?_,
    List.pairwise_append.mpr ⟨?_, List.pairwise_append.mpr ⟨?_, ?_, ?_⟩, ?_⟩, ?_⟩, ?_⟩
  · unfold firstKeysOf
    split <;> simp
  · refine List.Pairwise.imp_of_mem ?_
      ((strSort_sorted (stringKeysOf e')).and
        (strSort_nodup _ (stringKeysOf_nodup e' hnd')))
    intro a b ha hb hr
    exact ⟨(FactS b hb).2.2.1, (FactS a ha).2.2.2,
      fun _ _ => ⟨hr.1, hr.2⟩,
      fun hga _ => absurd hga (FactS a ha).2.1,
      fun hc => (FactS a ha).2.1 hc.1⟩
  · refine List.Pairwise.imp_of_mem ?_
      ((strSort_sorted (groupKeysOf e')).and
        (strSort_nodup _ (groupKeysOf_nodup e' hnd')))
    intro a b ha hb hr
    exact ⟨(FactG b hb).2.2.1, (FactG a ha).2.2.2,
      fun hsa _ => absurd hsa (FactG a ha).2.1,
      fun _ _ => ⟨hr.1, hr.2⟩,
      fun hc => (FactG b hb).2.1 hc.2⟩
  · refine List.Pairwise.imp_of_mem ?_
      (strSort_nodup _ (otherKeysOf_nodup e' hnd'))
    intro a b ha hb hr
    exact ⟨(FactO b hb).2.2.1, (FactO a ha).2.2.2,
      fun hsa _ => absurd hsa (FactO a ha).1,
      fun hga _ => absurd hga (FactO a ha).2.1,
      fun hc => (FactO a ha).2.1 hc.1⟩
  · unfold lastKeysOf
    split <;> simp
  · intro a ha b hb
    have hbat := FactL b hb
    subst hbat
    exact claimOrder_of_vacuous oe a "attrs" (by decide) (FactO a ha).2.2.2
      (.inl (FactO a ha).1) (.inl (FactO a ha).2.1) (.inl (FactO a ha).2.1)
  · intro a ha b hb
    rcases List.mem_append.mp hb with hb | hb
    · exact claimOrder_of_vacuous oe a b (FactO b hb).2.2.1 (FactG a ha).2.2.2
        (.inr (FactO b hb).1) (.inr (FactO b hb).2.1) (.inr (FactO b hb).1)
    · have hbat := FactL b hb
      subst hbat
      exact claimOrder_of_vacuous oe a "attrs" (by decide) (FactG a ha).2.2.2
        (.inr notP_at.1) (.inr notP_at.2) (.inr notP_at.1)
  · intro a ha b hb
    rcases List.mem_append.mp hb with hb | hb
    · exact claimOrder_of_vacuous oe a b (FactG b hb).2.2.1 (FactS a ha).2.2.2
        (.inr (FactG b hb).2.1) (.inl (FactS a ha).2.1) (.inl (FactS a ha).2.1)
    · rcases List.mem_append.mp hb with hb | hb
      · exact claimOrder_of_vacuous oe a b (FactO b hb).2.2.1 (FactS a ha).2.2.2
          (.inr (FactO b hb).1) (.inl (FactS a ha).2.1) (.inl (FactS a ha).2.1)
      · have hbat := FactL b hb
        subst hbat
        exact claimOrder_of_vacuous oe a "attrs" (by decide) (FactS a ha).2.2.2
          (.inr notP_at.1) (.inl (FactS a ha).2.1) (.inl (FactS a ha).2.1)
  · intro a ha b hb
    have hanx := FactF a ha
    subst hanx
    have hbne : b ≠ "nxclass" := by
      rcases List.mem_append.mp hb with hb | hb
      · exact (FactS b hb).2.2.1
      · rcases List.mem_append.mp hb with hb | hb
        · exact (FactG b hb).2.2.1
        · rcases List.mem_append.mp hb with hb | hb
          · exact (FactO b hb).2.2.1
          · rw [FactL b hb]; decide
    exact claimOrder_of_vacuous oe "nxclass" b hbne (by decide)
      (.inl notP_nx.1) (.inl notP_nx.2) (.inl notP_nx.2)

/-- Witness for C6 at a two-key sibling level. -/
theorem C6_sort_total_order_witness :
    ∃ oe, sort_converted (vdict [("zval", vstr "x"), ("nxclass", vstr "NXentry")]) =
      vdict oe ∧
      (∀ k, k ∈ dkeys oe ↔ k ∈ dkeys [("zval", vstr "x"),
        ("nxclass", vstr "NXentry")]) ∧
      (dkeys oe).Pairwise (claimOrder oe) :=
  C6_sort_total_order [("zval", vstr "x"), ("nxclass", vstr "NXentry")] (by decide)

/-! Claim C4: `resolve_nxdlrefs` error and no-pointer behaviour. -/

/- A value is reference-free when no dict node reachable through dict values
carries a `$nxdlref` key (values inside lists are never visited by the
resolver). -/
mutual
def refFreeB : Val → Bool
  | vdict e => refFreeEntries e
  | _ => true

def refFreeEntries : List (String × Val) → Bool
  | [] => true
  | (k, v) :: rest =>
    if k = "$nxdlref" then false else refFreeB v && refFreeEntries rest
end

/- Nesting depth of a value through dict entries, bounding the fuel the
resolver consumes on a reference-free tree. -/
mutual
def vdepth : Val → Nat
  | vdict e => 1 + edepth e
  | _ => 0

def edepth : List (String × Val) → Nat
  | [] => 0
  | (_, v) :: rest => max (vdepth v) (edepth rest)
end

theorem refFreeEntries_no_ref (e : List (String × Val))
    (h : refFreeEntries e = true) : dlookup e "$nxdlref" = none := by
  induction e with
  | nil => rfl
  | cons hd tl ih =>
    obtain ⟨k, v⟩ := hd
    rw [refFreeEntries] at h
    by_cases hk : k = "$nxdlref"
    · rw [if_pos hk] at h
      cases h
    · rw [if_neg hk, Bool.and_eq_true] at h
      simp [dlookup, hk, ih h.2]

theorem refFreeEntries_mem (e : List (String × Val)) (k : String) (v : Val)
    (h : refFreeEntries e = true) (hm : (k, v) ∈ e) : refFreeB v = true := by
  induction e with
  | nil => simp at hm
  | cons hd tl ih =>
    obtain ⟨k0, v0⟩ := hd
    rw [refFreeEntries] at h
    by_cases hk : k0 = "$nxdlref"
    · rw [if_pos hk] at h
      cases h
    · rw [if_neg hk, Bool.and_eq_true] at h
      rcases List.mem_cons.mp hm with h1 | h1
      · injection h1 with e1 e2
        subst e2
        exact h.1
      · exact ih h.2 h1

theorem vdepth_mem (e : List (String × Val)) (k : String) (v : Val)
    (hm : (k, v) ∈ e) : vdepth v ≤ edepth e := by
  induction e with
  | nil => simp at hm
  | cons hd tl ih =>
    obtain ⟨k0, v0⟩ := hd
    rw [edepth]
    rcases List.mem_cons.mp hm with h1 | h1
    · injection h1 with e1 e2
      subst e2
      exact le_max_left _ _
    · exact le_trans (ih h1) (le_max_right _ _)

theorem resolveEntries_nil (fuel : Nat) (fs : List (String × Val)) (d : String) :
    resolveEntries fuel fs d [] = .ok [] := by
  cases fuel <;> rfl

theorem resolveEntries_cons (fuel : Nat) (fs : List (String × Val)) (d : String)
    (k : String) (v : Val) (rest : List (String × Val)) :
    resolveEntries fuel fs d ((k, v) :: rest) =
      if v.isDict then
        match resolve_nxdlrefs fuel fs d v with
        | .error e2 => .error e2
        | .ok v2 =>
          match resolveEntries fuel fs d rest with
          | .error e2 => .error e2
          | .ok r => .ok ((k, v2) :: r)
      else
        match resolveEntries fuel fs d rest with
        | .error e2 => .error e2
        | .ok r => .ok ((k, v) :: r) := by
  cases fuel <;> rfl

theorem resolve_no_ref (n : Nat) (fs : List (String × Val)) (d : String)
    (e : List (String × Val)) (h : dlookup e "$nxdlref" = none) :
    resolve_nxdlrefs (n + 1) fs d (vdict e) =
      match resolveEntries n fs d (dremove e "$nxdlref") with
      | .error err => .error err
      | .ok r => .ok (vdict r) := by
  show resvBody _ _ fs d (vdict e) = _
  simp only [resvBody, h, Option.getD_none]
  rfl

theorem resolveRefs_id_pair (fuel : Nat) :
    (∀ e fs d, refFreeEntries e = true → 2 * vdepth (vdict e) < fuel →
      resolve_nxdlrefs fuel fs d (vdict e) = .ok (vdict e)) ∧
    (∀ l fs d, refFreeEntries l = true → (∀ p, p ∈ l → 2 * vdepth p.2 < fuel) →
      resolveEntries fuel fs d l = .ok l) := by
  induction fuel using Nat.strong_induction_on with
  | _ fuel ih =>
    have hres : ∀ e fs d, refFreeEntries e = true → 2 * vdepth (vdict e) < fuel →
        resolve_nxdlrefs fuel fs d (vdict e) = .ok (vdict e) := by
      intro e fs d hrf hdep
      cases fuel with
      | zero => omega
      | succ n =>
        rw [resolve_no_ref n fs d e (refFreeEntries_no_ref e hrf)]
        rw [dremove_of_not_mem e "$nxdlref" (refFreeEntries_no_ref e hrf)]
        have hent := (ih n (Nat.lt_succ_self n)).2 e fs d hrf ?_
        · rw [hent]
        · intro p hp
          have h1 := vdepth_mem e p.1 p.2 hp
          rw [vdepth] at hdep
          omega
    refine ⟨hres, ?_⟩
    intro l fs d hrf hdep
    induction l with
    | nil => exact resolveEntries_nil fuel fs d
    | cons hd tl ihl =>
      obtain ⟨k, v⟩ := hd
      rw [refFreeEntries] at hrf
      by_cases hk : k = "$nxdlref"
      · rw [if_pos hk] at hrf
        cases hrf
      · rw [if_neg hk, Bool.and_eq_true] at hrf
        have htl := ihl hrf.2 (fun p hp => hdep p (List.mem_cons_of_mem _ hp))
        rw [resolveEntries_cons]
        rcases isDict_cases v with hv | ⟨sub, rfl⟩
        · rw [hv]
          simp only [Bool.false_eq_true, if_false]
          rw [htl]
        · have hrfv : refFreeEntries sub = true := hrf.1
          have hdv := hdep (k, vdict sub) (List.mem_cons_self _ _)
          have := hres sub fs d hrfv hdv
          simp only [Val.isDict, if_true]
          rw [this, htl]

theorem resolve_succ_eq (n : Nat) (fs : List (String × Val)) (d : String)
    (grp : Val) :
    resolve_nxdlrefs (n + 1) fs d grp =
      resvBody (convert_nxyaml (n + 1)) (resolveEntries n) fs d grp := rfl

/-- A referenced file whose conversion yields two top-level entities. -/
def fsTwoEntities : List (String × Val) :=
  [("d/ref.yml", vdict [("a", vdict [("nxclass", vstr "NXa")]),
                        ("b", vdict [("nxclass", vstr "NXb")])])]

/-- A referenced file whose conversion yields one top-level entity of class
NXsource. -/
def fsOneEntity : List (String × Val) :=
  [("d/ref.yml", vdict [("src", vdict [("nxclass", vstr "NXsource")])])]

/-- C4: on a node carrying a truthy `$nxdlref` pointer, `resolve_nxdlrefs`
raises the cardinality error whenever the referenced file converts to a
result whose length is not 1, and the class-mismatch error whenever it
converts to exactly one entity whose class tag differs (Python `!=`) from the
referencing node's declared class; on a node without the pointer it raises
neither error and returns the node with exactly its dict-valued children
recursively resolved, which on a recursively pointer-free node (given fuel
above twice its depth) is the node unchanged. -/
theorem C4_resolve_reference_errors :
    (∀ (n : Nat) (fs : List (String × Val)) (d : String)
        (e : List (String × Val)) (fname : String) (refgrp : Val) (len : Nat),
      dlookup e "$nxdlref" = some (vstr fname) →
      truthy (vstr fname) = true →
      convert_nxyaml (n + 1) fs (pathJoin d fname) false true false = .ok refgrp →
      pyLen refgrp = .ok len → len ≠ 1 →
      resolve_nxdlrefs (n + 1) fs d (vdict e) = .error .cardinalityError)
  ∧ (∀ (n : Nat) (fs : List (String × Val)) (d : String)
        (e : List (String × Val)) (fname rn : String)
        (rde : List (String × Val)) (c1 c2 : Val),
      dlookup e "$nxdlref" = some (vstr fname) →
      truthy (vstr fname) = true →
      convert_nxyaml (n + 1) fs (pathJoin d fname) false true false
        = .ok (vdict [(rn, vdict rde)]) →
      dlookup rde "nxclass" = some c1 →
      dlookup (dremove e "$nxdlref") "nxclass" = some c2 →
      vbeq c1 c2 = false →
      resolve_nxdlrefs (n + 1) fs d (vdict e) = .error .classMismatchError)
  ∧ (∀ (n : Nat) (fs : List (String × Val)) (d : String)
        (e r : List (String × Val)),
      dlookup e "$nxdlref" = none →
      resolveEntries n fs d e = .ok r →
      resolve_nxdlrefs (n + 1) fs d (vdict e) = .ok (vdict r))
  ∧ (∀ (fuel : Nat) (fs : List (String × Val)) (d : String)
        (e : List (String × Val)),
      refFreeEntries e = true → 2 * vdepth (vdict e) < fuel →
      resolve_nxdlrefs fuel fs d (vdict e) = .ok (vdict e)) := by
  refine ⟨?_, ?_, ?_, ?_⟩
  · intro n fs d e fname refgrp len hlook htr hconv hplen hne
    rw [resolve_succ_eq]
    simp only [resvBody, hlook, Option.getD_some, htr, eq_self_iff_true,
      if_true, hconv, hplen]
    rw [if_pos hne]
  · intro n fs d e fname rn rde c1 c2 hlook htr hconv hc1 hc2 hvb
    rw [resolve_succ_eq]
    simp only [resvBody, hlook, Option.getD_some, htr, eq_self_iff_true,
      if_true, hconv, pyLen, List.length_cons, List.length_nil, Nat.zero_add,
      ne_eq, not_true, if_false, hc1, hc2, hvb, Bool.not_false]
  · intro n fs d e r h hr
    rw [resolve_no_ref n fs d e h, dremove_of_not_mem e "$nxdlref" h, hr]
  · intro fuel fs d e h1 h2
    exact (resolveRefs_id_pair fuel).1 e fs d h1 h2

/-- Concrete instantiation of every part of the C4 theorem: a reference to a
two-entity file raises the cardinality error, a reference to an NXsource file
from an NXdata node raises the class-mismatch error, and pointer-free nodes
pass through with only their dict children visited. -/
theorem C4_resolve_reference_errors_witness :
    resolve_nxdlrefs 10 fsTwoEntities "d"
        (vdict [("$nxdlref", vstr "ref.yml"), ("nxclass", vstr "NXa")])
      = .error .cardinalityError
  ∧ resolve_nxdlrefs 10 fsOneEntity "d"
        (vdict [("$nxdlref", vstr "ref.yml"), ("nxclass", vstr "NXdata")])
      = .error .classMismatchError
  ∧ resolve_nxdlrefs 3 [] "q"
        (vdict [("probe", vstr "x"), ("sub", vdict [("nxclass", vstr "NXsource")])])
      = .ok (vdict [("probe", vstr "x"), ("sub", vdict [("nxclass", vstr "NXsource")])])
  ∧ resolve_nxdlrefs 5 fsOneEntity "q" (vdict [("nxclass", vstr "NXsource")])
      = .ok (vdict [("nxclass", vstr "NXsource")]) :=
  ⟨C4_resolve_reference_errors.1 9 fsTwoEntities "d"
      [("$nxdlref", vstr "ref.yml"), ("nxclass", vstr "NXa")] "ref.yml"
      (vdict [("a", vdict [("nxclass", vstr "NXa")]),
              ("b", vdict [("nxclass", vstr "NXb")])]) 2
      rfl rfl rfl rfl (by decide),
   C4_resolve_reference_errors.2.1 9 fsOneEntity "d"
      [("$nxdlref", vstr "ref.yml"), ("nxclass", vstr "NXdata")] "ref.yml"
      "src" [("nxclass", vstr "NXsource")]
      (vstr "NXsource") (vstr "NXdata") rfl rfl rfl rfl rfl rfl,
   C4_resolve_reference_errors.2.2.1 2 [] "q"
      [("probe", vstr "x"), ("sub", vdict [("nxclass", vstr "NXsource")])]
      [("probe", vstr "x"), ("sub", vdict [("nxclass", vstr "NXsource")])]
      rfl rfl,
   C4_resolve_reference_errors.2.2.2 5 fsOneEntity "q"
      [("nxclass", vstr "NXsource")] rfl (by decide)⟩

/-! Claim C8: idempotence of the simplified-input pipeline
(reference resolution, then sorting, then doc cleaning, no reduction). -/

theorem lexLe_antisymm (a b : List Char) (hab : lexLe a b = true)
    (hba : lexLe b a = true) : a = b := by
  induction a generalizing b with
  | nil =>
    cases b with
    | nil => rfl
    | cons d ds => rw [lexLe] at hba; cases hba
  | cons c cs ih =>
    cases b with
    | nil => rw [lexLe] at hab; cases hab
    | cons d ds =>
      rw [lexLe] at hab hba
      by_cases h1 : c < d
      · rw [if_pos h1] at hab
        rw [if_neg (lt_asymm h1), if_pos h1] at hba
        cases hba
      · rw [if_neg h1] at hab
        by_cases h2 : d < c
        · rw [if_pos h2] at hab
          cases hab
        · rw [if_neg h2] at hab
          rw [if_neg h2, if_neg h1] at hba
          have : c = d := le_antisymm (le_of_not_lt h2) (le_of_not_lt h1)
          subst this
          rw [ih ds hab hba]

theorem strLeB_antisymm (a b : String) (hab : strLeB a b = true)
    (hba : strLeB b a = true) : a = b := by
  cases a with
  | mk la =>
    cases b with
    | mk lb =>
      have : la = lb := lexLe_antisymm la lb hab hba
      rw [this]

theorem sorted_nodup_same_mem_eq (l1 l2 : List String)
    (hs1 : List.Pairwise (fun a b => strLeB a b = true) l1)
    (hs2 : List.Pairwise (fun a b => strLeB a b = true) l2)
    (hn1 : l1.Nodup) (hn2 : l2.Nodup)
    (hmem : ∀ k, k ∈ l1 ↔ k ∈ l2) : l1 = l2 := by
  have hperm : l1.Perm l2 := by
    apply List.perm_of_nodup_nodup_toFinset_eq hn1 hn2
    apply Finset.ext
    intro a
    rw [List.mem_toFinset, List.mem_toFinset]
    exact hmem a
  exact @List.eq_of_perm_of_sorted String (fun a b => strLeB a b = true)
    ⟨fun a b => strLeB_antisymm a b⟩ l1 l2 hperm hs1 hs2

theorem rebuild_of_nodup (g : List (String × Val)) (hnd : (dkeys g).Nodup) :
    (dkeys g).map (fun k => (k, (dlookup g k).getD vnull)) = g := by
  induction g with
  | nil => rfl
  | cons hd tl ih =>
    obtain ⟨k, v⟩ := hd
    rw [show dkeys ((k, v) :: tl) = k :: dkeys tl from rfl, List.nodup_cons] at hnd
    rw [show dkeys ((k, v) :: tl) = k :: dkeys tl from rfl, List.map_cons]
    have h1 : dlookup ((k, v) :: tl) k = some v := by simp [dlookup]
    rw [h1]
    have h2 : (dkeys tl).map (fun k2 => (k2, (dlookup ((k, v) :: tl) k2).getD vnull))
        = (dkeys tl).map (fun k2 => (k2, (dlookup tl k2).getD vnull)) := by
      apply List.map_congr_left
      intro x hx
      have hxk : k ≠ x := fun h => hnd.1 (h ▸ hx)
      simp [dlookup, hxk]
    rw [h2, ih hnd.2, Option.getD_some]

/-- The canonical key sequence `sorted_keys` of one level. -/
def canonicalKeys (e : List (String × Val)) : List String :=
  firstKeysOf e ++ strSort (stringKeysOf e) ++ strSort (groupKeysOf e)
    ++ strSort (otherKeysOf e) ++ lastKeysOf e

theorem dkeys_reorder_canonical (e : List (String × Val)) :
    dkeys (reorderEntries e) = canonicalKeys e :=
  dkeys_reorderEntries e

theorem firstKeysOf_char (e : List (String × Val)) (k : String) :
    k ∈ firstKeysOf e ↔ k = "nxclass" ∧ (dlookup e "nxclass").isSome := by
  constructor
  · exact mem_firstKeysOf e k
  · rintro ⟨rfl, hs⟩
    rw [firstKeysOf_of_mem e ((dlookup_isSome_iff e "nxclass").mp hs)]
    exact List.mem_singleton.mpr rfl

theorem lastKeysOf_char (e : List (String × Val)) (k : String) :
    k ∈ lastKeysOf e ↔ k = "attrs" ∧ (dlookup e "attrs").isSome := by
  constructor
  · exact mem_lastKeysOf e k
  · rintro ⟨rfl, hs⟩
    rw [lastKeysOf_of_mem e ((dlookup_isSome_iff e "attrs").mp hs)]
    exact List.mem_singleton.mpr rfl

theorem stringKeysOf_char (e : List (String × Val)) (hnd : (dkeys e).Nodup)
    (k : String) :
    k ∈ stringKeysOf e ↔ ∃ v, dlookup e k = some v ∧ v.isDict = false ∧
      k ≠ "nxclass" ∧ k ≠ "attrs" := by
  constructor
  · exact stringKey_value e k hnd
  · rintro ⟨v, hlk, hdict, h1, h2⟩
    refine (mem_stringKeysOf e k).mpr ⟨v, dlookup_mem e k v hlk, hdict, ?_⟩
    rw [strMem_append, Bool.or_eq_false_iff]
    constructor
    · exact (strMem_false_iff _ _).mpr (fun hm => h1 (mem_firstKeysOf e k hm).1)
    · exact (strMem_false_iff _ _).mpr (fun hm => h2 (mem_lastKeysOf e k hm).1)

theorem groupKeysOf_char (e : List (String × Val)) (hnd : (dkeys e).Nodup)
    (k : String) :
    k ∈ groupKeysOf e ↔ ∃ sub, dlookup e k = some (vdict sub) ∧
      vbeq ((dlookup sub "nxclass").getD vnull) (vstr "NXfield") = false ∧
      k ≠ "nxclass" ∧ k ≠ "attrs" := by
  constructor
  · exact groupKey_value e k hnd
  · rintro ⟨sub, hlk, hvb, h1, h2⟩
    refine (mem_groupKeysOf e k).mpr ⟨vdict sub, dlookup_mem e k _ hlk, ?_, hvb⟩
    rw [strMem_append, Bool.or_eq_false_iff]
    refine ⟨?_, ?_⟩
    · rw [strMem_append, Bool.or_eq_false_iff]
      constructor
      · exact (strMem_false_iff _ _).mpr (fun hm => h1 (mem_firstKeysOf e k hm).1)
      · exact (strMem_false_iff _ _).mpr (fun hm => h2 (mem_lastKeysOf e k hm).1)
    · refine (strMem_false_iff _ _).mpr (fun hm => ?_)
      obtain ⟨v, hlk2, hdict, _, _⟩ := stringKey_value e k hnd hm
      rw [hlk] at hlk2
      injection hlk2 with hv
      rw [← hv] at hdict
      simp [Val.isDict] at hdict

theorem otherKeysOf_char (e : List (String × Val)) (hnd : (dkeys e).Nodup)
    (k : String) :
    k ∈ otherKeysOf e ↔ ∃ sub, dlookup e k = some (vdict sub) ∧
      vbeq ((dlookup sub "nxclass").getD vnull) (vstr "NXfield") = true ∧
      k ≠ "nxclass" ∧ k ≠ "attrs" := by
  constructor
  · exact otherKey_value e k hnd
  · rintro ⟨sub, hlk, hvb, h1, h2⟩
    refine (mem_otherKeysOf e k).mpr
      ⟨(dlookup_isSome_iff e k).mp (hlk ▸ rfl), ?_⟩
    rw [strMem_append, Bool.or_eq_false_iff]
    refine ⟨?_, ?_⟩
    · rw [strMem_append, Bool.or_eq_false_iff]
      refine ⟨?_, ?_⟩
      · rw [strMem_append, Bool.or_eq_false_iff]
        constructor
        · exact (strMem_false_iff _ _).mpr (fun hm => h1 (mem_firstKeysOf e k hm).1)
        · exact (strMem_false_iff _ _).mpr (fun hm => h2 (mem_lastKeysOf e k hm).1)
      · refine (strMem_false_iff _ _).mpr (fun hm => ?_)
        obtain ⟨v, hlk2, hdict, _, _⟩ := stringKey_value e k hnd hm
        rw [hlk] at hlk2
        injection hlk2 with hv
        rw [← hv] at hdict
        simp [Val.isDict] at hdict
    · refine (strMem_false_iff _ _).mpr (fun hm => ?_)
      obtain ⟨sub2, hlk2, hvb2, _, _⟩ := groupKey_value e k hnd hm
      rw [hlk] at hlk2
      injection hlk2 with hv
      injection hv with hv2
      rw [← hv2] at hvb2
      rw [hvb] at hvb2
      cases hvb2

theorem canonicalKeys_mem (e : List (String × Val)) (hnd : (dkeys e).Nodup)
    (k : String) : k ∈ canonicalKeys e ↔ k ∈ dkeys e := by
  unfold canonicalKeys
  simp only [List.mem_append, strSort_mem]
  constructor
  · rintro ((((h | h) | h) | h) | h)
    · obtain ⟨hk, hs⟩ := mem_firstKeysOf e k h
      subst hk
      exact (dlookup_isSome_iff e "nxclass").mp hs
    · exact stringKeysOf_subset e k h
    · exact groupKeysOf_subset e k h
    · exact ((mem_otherKeysOf e k).mp h).1
    · obtain ⟨hk, hs⟩ := mem_lastKeysOf e k h
      subst hk
      exact (dlookup_isSome_iff e "attrs").mp hs
  · intro hk
    rcases canonical_cover e k hk with h | h | h | h | h
    · exact .inl (.inl (.inl (.inl h)))
    · exact .inl (.inl (.inl (.inr h)))
    · exact .inl (.inl (.inr h))
    · exact .inl (.inr h)
    · exact .inr h

theorem canonicalKeys_nodup (e : List (String × Val)) (hnd : (dkeys e).Nodup) :
    (canonicalKeys e).Nodup := by
  have hF : (firstKeysOf e).Nodup := by
    unfold firstKeysOf
    split <;> simp
  have hL : (lastKeysOf e).Nodup := by
    unfold lastKeysOf
    split <;> simp
  have hS : (strSort (stringKeysOf e)).Nodup :=
    strSort_nodup _ (stringKeysOf_nodup e hnd)
  have hG : (strSort (groupKeysOf e)).Nodup :=
    strSort_nodup _ (groupKeysOf_nodup e hnd)
  have hO : (strSort (otherKeysOf e)).Nodup :=
    strSort_nodup _ (otherKeysOf_nodup e hnd)
  have dFS : ∀ k, k ∈ firstKeysOf e → k ∈ strSort (stringKeysOf e) → False := by
    intro k h1 h2
    obtain ⟨_, _, _, hne, _⟩ := stringKey_value e k hnd ((strSort_mem _ k).mp h2)
    exact hne (mem_firstKeysOf e k h1).1
  have dFG : ∀ k, k ∈ firstKeysOf e → k ∈ strSort (groupKeysOf e) → False := by
    intro k h1 h2
    obtain ⟨_, _, _, hne, _⟩ := groupKey_value e k hnd ((strSort_mem _ k).mp h2)
    exact hne (mem_firstKeysOf e k h1).1
  have dFO : ∀ k, k ∈ firstKeysOf e → k ∈ strSort (otherKeysOf e) → False := by
    intro k h1 h2
    obtain ⟨_, _, _, hne, _⟩ := otherKey_value e k hnd ((strSort_mem _ k).mp h2)
    exact hne (mem_firstKeysOf e k h1).1
  have dFL : ∀ k, k ∈ firstKeysOf e → k ∈ lastKeysOf e → False := by
    intro k h1 h2
    have e1 := (mem_firstKeysOf e k h1).1
    have e2 := (mem_lastKeysOf e k h2).1
    rw [e1] at e2
    exact absurd e2 (by decide)
  have dSG : ∀ k, k ∈ strSort (stringKeysOf e) → k ∈ strSort (groupKeysOf e) →
      False := by
    intro k h1 h2
    obtain ⟨v, hv, hdict, _, _⟩ := stringKey_value e k hnd ((strSort_mem _ k).mp h1)
    obtain ⟨sub, hsub, _, _, _⟩ := groupKey_value e k hnd ((strSort_mem _ k).mp h2)
    rw [hv] at hsub
    injection hsub with hv2
    rw [hv2] at hdict
    simp [Val.isDict] at hdict
  have dSO : ∀ k, k ∈ strSort (stringKeysOf e) → k ∈ strSort (otherKeysOf e) →
      False := by
    intro k h1 h2
    obtain ⟨v, hv, hdict, _, _⟩ := stringKey_value e k hnd ((strSort_mem _ k).mp h1)
    obtain ⟨sub, hsub, _, _, _⟩ := otherKey_value e k hnd ((strSort_mem _ k).mp h2)
    rw [hv] at hsub
    injection hsub with hv2
    rw [hv2] at hdict
    simp [Val.isDict] at hdict
  have dSL : ∀ k, k ∈ strSort (stringKeysOf e) → k ∈ lastKeysOf e → False := by
    intro k h1 h2
    obtain ⟨_, _, _, _, hne⟩ := stringKey_value e k hnd ((strSort_mem _ k).mp h1)
    exact hne (mem_lastKeysOf e k h2).1
  have dGO : ∀ k, k ∈ strSort (groupKeysOf e) → k ∈ strSort (otherKeysOf e) →
      False := by
    intro k h1 h2
    obtain ⟨sub, hsub, hvb, _, _⟩ := groupKey_value e k hnd ((strSort_mem _ k).mp h1)
    obtain ⟨sub2, hsub2, hvb2, _, _⟩ := otherKey_value e k hnd ((strSort_mem _ k).mp h2)
    rw [hsub] at hsub2
    injection hsub2 with hv
    injection hv with hv2
    rw [← hv2] at hvb2
    rw [hvb] at hvb2
    cases hvb2
  have dGL : ∀ k, k ∈ strSort (groupKeysOf e) → k ∈ lastKeysOf e → False := by
    intro k h1 h2
    obtain ⟨_, _, _, _, hne⟩ := groupKey_value e k hnd ((strSort_mem _ k).mp h1)
    exact hne (mem_lastKeysOf e k h2).1
  have dOL : ∀ k, k ∈ strSort (otherKeysOf e) → k ∈ lastKeysOf e → False := by
    intro k h1 h2
    obtain ⟨_, _, _, _, hne⟩ := otherKey_value e k hnd ((strSort_mem _ k).mp h1)
    exact hne (mem_lastKeysOf e k h2).1
  unfold canonicalKeys
  refine List.Nodup.append (List.Nodup.append (List.Nodup.append
    (List.Nodup.append hF hS ?_) hG ?_) hO ?_) hL ?_
  · exact fun k h1 h2 => dFS k h1 h2
  · intro k h1 h2
    rcases List.mem_append.mp h1 with h1 | h1
    · exact dFG k h1 h2
    · exact dSG k h1 h2
  · intro k h1 h2
    rcases List.mem_append.mp h1 with h1 | h1
    · rcases List.mem_append.mp h1 with h1 | h1
      · exact dFO k h1 h2
      · exact dSO k h1 h2
    · exact dGO k h1 h2
  · intro k h1 h2
    rcases List.mem_append.mp h1 with h1 | h1
    · rcases List.mem_append.mp h1 with h1 | h1
      · rcases List.mem_append.mp h1 with h1 | h1
        · exact dFL k h1 h2
        · exact dSL k h1 h2
      · exact dGL k h1 h2
    · exact dOL k h1 h2

theorem dlookup_reorder (e : List (String × Val)) (hnd : (dkeys e).Nodup)
    (k : String) : dlookup (reorderEntries e) k = dlookup e k := by
  by_cases hk : k ∈ dkeys e
  · have hk2 : k ∈ dkeys (reorderEntries e) := by
      rw [dkeys_reorder_canonical]
      exact (canonicalKeys_mem e hnd k).mpr hk
    rw [dlookup_reorderEntries e k hk2]
    obtain ⟨v, hv⟩ := Option.isSome_iff_exists.mp ((dlookup_isSome_iff e k).mpr hk)
    rw [hv, Option.getD_some]
  · rw [(dlookup_eq_none_iff _ _).mpr hk]
    refine (dlookup_eq_none_iff _ _).mpr ?_
    rw [dkeys_reorder_canonical]
    exact fun hm => hk ((canonicalKeys_mem e hnd k).mp hm)

theorem reorderEntries_eq_self (g : List (String × Val))
    (hnd : (dkeys g).Nodup) (hcan : dkeys g = canonicalKeys g) :
    reorderEntries g = g := by
  have h1 : reorderEntries g
      = (canonicalKeys g).map (fun k => (k, (dlookup g k).getD vnull)) := rfl
  rw [h1, ← hcan]
  exact rebuild_of_nodup g hnd

theorem canonicalKeys_congr (e g : List (String × Val))
    (hnde : (dkeys e).Nodup) (hndg : (dkeys g).Nodup)
    (hl : ∀ k, dlookup g k = dlookup e k) : canonicalKeys g = canonicalKeys e := by
  have hf : firstKeysOf g = firstKeysOf e := by
    unfold firstKeysOf
    rw [hl "nxclass"]
  have hla : lastKeysOf g = lastKeysOf e := by
    unfold lastKeysOf
    rw [hl "attrs"]
  have hs : strSort (stringKeysOf g) = strSort (stringKeysOf e) := by
    refine sorted_nodup_same_mem_eq _ _ (strSort_sorted _) (strSort_sorted _)
      (strSort_nodup _ (stringKeysOf_nodup g hndg))
      (strSort_nodup _ (stringKeysOf_nodup e hnde)) ?_
    intro k
    rw [strSort_mem, strSort_mem, stringKeysOf_char g hndg k,
      stringKeysOf_char e hnde k]
    constructor
    · rintro ⟨v, hv, h⟩
      exact ⟨v, (hl k) ▸ hv, h⟩
    · rintro ⟨v, hv, h⟩
      exact ⟨v, (hl k).symm ▸ hv, h⟩
  have hg : strSort (groupKeysOf g) = strSort (groupKeysOf e) := by
    refine sorted_nodup_same_mem_eq _ _ (strSort_sorted _) (strSort_sorted _)
      (strSort_nodup _ (groupKeysOf_nodup g hndg))
      (strSort_nodup _ (groupKeysOf_nodup e hnde)) ?_
    intro k
    rw [strSort_mem, strSort_mem, groupKeysOf_char g hndg k,
      groupKeysOf_char e hnde k]
    constructor
    · rintro ⟨sub, hv, h⟩
      exact ⟨sub, (hl k) ▸ hv, h⟩
    · rintro ⟨sub, hv, h⟩
      exact ⟨sub, (hl k).symm ▸ hv, h⟩
  have ho : strSort (otherKeysOf g) = strSort (otherKeysOf e) := by
    refine sorted_nodup_same_mem_eq _ _ (strSort_sorted _) (strSort_sorted _)
      (strSort_nodup _ (otherKeysOf_nodup g hndg))
      (strSort_nodup _ (otherKeysOf_nodup e hnde)) ?_
    intro k
    rw [strSort_mem, strSort_mem, otherKeysOf_char g hndg k,
      otherKeysOf_char e hnde k]
    constructor
    · rintro ⟨sub, hv, h⟩
      exact ⟨sub, (hl k) ▸ hv, h⟩
    · rintro ⟨sub, hv, h⟩
      exact ⟨sub, (hl k).symm ▸ hv, h⟩
  unfold canonicalKeys
  rw [hf, hla, hs, hg, ho]

theorem reorder_nodup (e : List (String × Val)) (hnd : (dkeys e).Nodup) :
    (dkeys (reorderEntries e)).Nodup := by
  rw [dkeys_reorder_canonical]
  exact canonicalKeys_nodup e hnd

theorem reorder_idem (e : List (String × Val)) (hnd : (dkeys e).Nodup) :
    reorderEntries (reorderEntries e) = reorderEntries e := by
  refine reorderEntries_eq_self _ (reorder_nodup e hnd) ?_
  rw [dkeys_reorder_canonical]
  exact (canonicalKeys_congr e (reorderEntries e) hnd (reorder_nodup e hnd)
    (dlookup_reorder e hnd)).symm

theorem dlookup_sortChildren (e : List (String × Val)) (k : String) :
    dlookup (sortChildren e) k
      = (dlookup e k).map (fun v => if v.isDict then sort_converted v else v) := by
  induction e with
  | nil => rfl
  | cons hd tl ih =>
    obtain ⟨k0, v0⟩ := hd
    rw [sortChildren]
    by_cases h0 : k0 = k
    · subst h0
      rcases isDict_cases v0 with hv | ⟨sub, rfl⟩
      · rw [hv]
        simp only [Bool.false_eq_true, if_false]
        simp [dlookup, hv]
      · simp [dlookup, Val.isDict]
    · rcases isDict_cases v0 with hv | ⟨sub, rfl⟩
      · rw [hv]
        simp only [Bool.false_eq_true, if_false]
        simp [dlookup, h0, ih]
      · simp [dlookup, h0, ih, Val.isDict]

theorem sortChildren_eq_self (e : List (String × Val))
    (h : ∀ k v, (k, v) ∈ e → v.isDict = true → sort_converted v = v) :
    sortChildren e = e := by
  induction e with
  | nil => rfl
  | cons hd tl ih =>
    obtain ⟨k0, v0⟩ := hd
    rw [sortChildren]
    have htl := ih (fun k v hm hd2 => h k v (List.mem_cons_of_mem _ hm) hd2)
    rcases isDict_cases v0 with hv | ⟨sub, rfl⟩
    · rw [hv]
      simp only [Bool.false_eq_true, if_false]
      rw [htl]
    · simp only [Val.isDict, if_true]
      rw [h k0 (vdict sub) (List.mem_cons_self _ _) rfl, htl]

theorem mem_reorderEntries (g : List (String × Val)) (k : String) (w : Val)
    (hm : (k, w) ∈ reorderEntries g) : w = (dlookup g k).getD vnull := by
  have h1 : reorderEntries g
      = (canonicalKeys g).map (fun k2 => (k2, (dlookup g k2).getD vnull)) := rfl
  rw [h1] at hm
  obtain ⟨k2, hk2, heq⟩ := List.mem_map.mp hm
  injection heq with e1 e2
  subst e1
  exact e2.symm

theorem wfV_dict_nodup (e : List (String × Val)) (h : wfV (vdict e) = true) :
    (dkeys e).Nodup := by
  rw [wfV, Bool.and_eq_true] at h
  exact (nodupKeysB_iff e).mp h.1

theorem wfV_dict_entries (e : List (String × Val)) (h : wfV (vdict e) = true) :
    wfEntries e = true := by
  rw [wfV, Bool.and_eq_true] at h
  exact h.2

theorem sort_sort_bound (n : Nat) :
    ∀ v : Val, vdepth v ≤ n → wfV v = true →
      sort_converted (sort_converted v) = sort_converted v := by
  induction n with
  | zero =>
    intro v hdep hwf
    cases v with
    | vdict e => rw [vdepth] at hdep; omega
    | vnull => rfl
    | vbool b => rfl
    | vint i => rfl
    | vstr s => rfl
    | vlist l => rfl
  | succ n ih =>
    intro v hdep hwf
    cases v with
    | vdict e =>
      have hnd := wfV_dict_nodup e hwf
      have hwe := wfV_dict_entries e hwf
      rw [show sort_converted (vdict e)
          = vdict (reorderEntries (sortChildren e)) from rfl]
      rw [show sort_converted (vdict (reorderEntries (sortChildren e)))
          = vdict (reorderEntries (sortChildren
              (reorderEntries (sortChildren e)))) from rfl]
      have hsc : sortChildren (reorderEntries (sortChildren e))
          = reorderEntries (sortChildren e) := by
        refine sortChildren_eq_self _ ?_
        intro k w hm hwd
        have hw := mem_reorderEntries _ k w hm
        rw [dlookup_sortChildren] at hw
        cases hc : dlookup e k with
        | none => rw [hc] at hw; simp at hw; subst hw; cases hwd
        | some c =>
          rw [hc] at hw
          rcases isDict_cases c with hcv | ⟨sub, rfl⟩
          · rw [Option.map_some'] at hw
            rw [hcv] at hw
            simp only [Bool.false_eq_true, if_false] at hw
            simp only [Option.getD_some] at hw
            subst hw
            rw [hcv] at hwd
            cases hwd
          · rw [Option.map_some'] at hw
            simp only [Val.isDict, if_true, Option.getD_some] at hw
            subst hw
            have hdepc : vdepth (vdict sub) ≤ n := by
              have := vdepth_mem e k (vdict sub) (dlookup_mem e k _ hc)
              rw [vdepth] at hdep
              omega
            have hwfc : wfV (vdict sub) = true :=
              wfEntries_lookup e k _ hwe hc
            exact ih (vdict sub) hdepc hwfc
      rw [hsc]
      rw [reorder_idem (sortChildren e) (by rw [sortChildren_keys]; exact hnd)]
    | vnull => rfl
    | vbool b => rfl
    | vint i => rfl
    | vstr s => rfl
    | vlist l => rfl

/- The total function computed by `clean_docs(..., keep_docs=False)`: every
non-dict value under a `doc` key is dropped, dict values recurse. -/
mutual
def cleanF : Val → Val
  | vdict e => vdict (cleanFE e)
  | v => v

def cleanFE : List (String × Val) → List (String × Val)
  | [] => []
  | (k, v) :: rest =>
    if v.isDict then (k, cleanF v) :: cleanFE rest
    else if k = "doc" then cleanFE rest
    else (k, v) :: cleanFE rest
end

theorem cleanF_isDict (v : Val) : (cleanF v).isDict = v.isDict := by
  cases v <;> rfl

theorem cleanEntries_false_cons (k : String) (v : Val)
    (rest : List (String × Val)) :
    cleanEntries ((k, v) :: rest) false =
      if v.isDict then
        match clean_docs v false with
        | .error e => .error e
        | .ok v2 =>
          match cleanEntries rest false with
          | .error e => .error e
          | .ok r => .ok ((k, v2) :: r)
      else if k = "doc" then cleanEntries rest false
      else
        match cleanEntries rest false with
        | .error e => .error e
        | .ok r => .ok ((k, v) :: r) := rfl

theorem cleanFE_cons (k : String) (v : Val) (rest : List (String × Val)) :
    cleanFE ((k, v) :: rest) =
      if v.isDict then (k, cleanF v) :: cleanFE rest
      else if k = "doc" then cleanFE rest
      else (k, v) :: cleanFE rest := rfl

theorem clean_docs_false_eq (n : Nat) :
    ∀ v : Val, vdepth v ≤ n → clean_docs v false = .ok (cleanF v) := by
  induction n with
  | zero =>
    intro v hdep
    cases v with
    | vdict e => rw [vdepth] at hdep; omega
    | vnull => rfl
    | vbool b => rfl
    | vint i => rfl
    | vstr s => rfl
    | vlist l => rfl
  | succ n ih =>
    intro v hdep
    cases v with
    | vdict e =>
      have hb : ∀ k v, (k, v) ∈ e → vdepth v ≤ n := by
        intro k v hm
        have := vdepth_mem e k v hm
        rw [vdepth] at hdep
        omega
      have he : cleanEntries e false = .ok (cleanFE e) := by
        clear hdep
        induction e with
        | nil => rfl
        | cons hd tl ihl =>
          obtain ⟨k, v⟩ := hd
          have htl := ihl (fun k2 v2 hm => hb k2 v2 (List.mem_cons_of_mem _ hm))
          rw [cleanEntries_false_cons, cleanFE_cons]
          rcases isDict_cases v with hv | ⟨sub, rfl⟩
          · rw [hv]
            simp only [Bool.false_eq_true, if_false]
            by_cases hk : k = "doc"
            · rw [if_pos hk, if_pos hk]
              exact htl
            · rw [if_neg hk, if_neg hk, htl]
          · simp only [Val.isDict, if_true]
            rw [ih (vdict sub) (hb k (vdict sub) (List.mem_cons_self _ _)), htl]
      rw [show clean_docs (vdict e) false
          = match cleanEntries e false with
            | .ok r => .ok (vdict r)
            | .error err => .error err from rfl, he]
      rfl
    | vnull => rfl
    | vbool b => rfl
    | vint i => rfl
    | vstr s => rfl
    | vlist l => rfl

/-- Whether `clean_docs(..., keep_docs=False)` keeps an entry. -/
def keepKV (kv : String × Val) : Bool :=
  kv.2.isDict || !(decide (kv.1 = "doc"))

theorem cleanFE_struct (g : List (String × Val)) :
    cleanFE g = (g.filter keepKV).map
      (fun kv => (kv.1, if kv.2.isDict then cleanF kv.2 else kv.2)) := by
  induction g with
  | nil => rfl
  | cons hd tl ih =>
    obtain ⟨k, v⟩ := hd
    rw [cleanFE_cons, List.filter_cons]
    rcases isDict_cases v with hv | ⟨sub, rfl⟩
    · rw [hv]
      simp only [Bool.false_eq_true, if_false]
      by_cases hk : k = "doc"
      · rw [if_pos hk]
        have hkv : keepKV (k, v) = false := by simp [keepKV, hv, hk]
        rw [hkv]
        simp only [Bool.false_eq_true, if_false]
        exact ih
      · rw [if_neg hk]
        have hkv : keepKV (k, v) = true := by simp [keepKV, hk]
        rw [hkv]
        simp only [if_true, List.map_cons]
        rw [ih]
        simp [hv]
    · simp only [Val.isDict, if_true]
      have hkv : keepKV (k, vdict sub) = true := by simp [keepKV, Val.isDict]
      rw [hkv]
      simp only [if_true, List.map_cons]
      rw [ih]
      simp [Val.isDict]

theorem dlookup_cleanFE_ne_doc (g : List (String × Val)) (k : String)
    (hk : k ≠ "doc") :
    dlookup (cleanFE g) k
      = (dlookup g k).map (fun v => if v.isDict then cleanF v else v) := by
  induction g with
  | nil => rfl
  | cons hd tl ih =>
    obtain ⟨k0, v0⟩ := hd
    rw [cleanFE_cons]
    by_cases h0 : k0 = k
    · subst h0
      rcases isDict_cases v0 with hv | ⟨sub, rfl⟩
      · rw [hv]
        simp only [Bool.false_eq_true, if_false]
        rw [if_neg hk]
        simp [dlookup, hv]
      · simp only [Val.isDict, if_true]
        simp [dlookup, Val.isDict]
    · rcases isDict_cases v0 with hv | ⟨sub, rfl⟩
      · rw [hv]
        simp only [Bool.false_eq_true, if_false]
        by_cases hd0 : k0 = "doc"
        · rw [if_pos hd0]
          rw [show dlookup ((k0, v0) :: tl) k = dlookup tl k from by
            simp [dlookup, h0]]
          exact ih
        · rw [if_neg hd0]
          rw [show dlookup ((k0, v0) :: cleanFE tl) k = dlookup (cleanFE tl) k
            from by simp [dlookup, h0]]
          rw [show dlookup ((k0, v0) :: tl) k = dlookup tl k from by
            simp [dlookup, h0]]
          exact ih
      · simp only [Val.isDict, if_true]
        rw [show dlookup ((k0, cleanF (vdict sub)) :: cleanFE tl) k
            = dlookup (cleanFE tl) k from by simp [dlookup, h0]]
        rw [show dlookup ((k0, vdict sub) :: tl) k = dlookup tl k from by
          simp [dlookup, h0]]
        exact ih

theorem dkeys_cleanFE (g : List (String × Val)) :
    dkeys (cleanFE g) = (g.filter keepKV).map Prod.fst := by
  rw [cleanFE_struct]
  unfold dkeys
  rw [List.map_map]
  rfl

theorem cleanFE_nodup (g : List (String × Val)) (hnd : (dkeys g).Nodup) :
    (dkeys (cleanFE g)).Nodup := by
  rw [dkeys_cleanFE]
  exact ((List.filter_sublist g).map Prod.fst).nodup hnd

theorem dlookup_cleanFE_doc_none (g : List (String × Val))
    (hnd : (dkeys g).Nodup)
    (h : ∀ v, dlookup g "doc" = some v → v.isDict = false) :
    dlookup (cleanFE g) "doc" = none := by
  refine (dlookup_eq_none_iff _ _).mpr ?_
  intro hm
  rw [dkeys_cleanFE] at hm
  obtain ⟨⟨k2, v2⟩, hkv, hfst⟩ := List.mem_map.mp hm
  obtain ⟨hmem, hkeep⟩ := List.mem_filter.mp hkv
  simp only at hfst
  subst hfst
  have hlk := dlookup_of_mem g "doc" v2 hnd hmem
  have hnd2 := h v2 hlk
  rw [keepKV] at hkeep
  simp only [hnd2] at hkeep
  simp at hkeep

theorem vbeq_dict_str (x : List (String × Val)) (s : String) :
    vbeq (vdict x) (vstr s) = false := rfl

theorem tag_cleanFE (sub : List (String × Val)) :
    vbeq ((dlookup (cleanFE sub) "nxclass").getD vnull) (vstr "NXfield")
      = vbeq ((dlookup sub "nxclass").getD vnull) (vstr "NXfield") := by
  rw [dlookup_cleanFE_ne_doc sub "nxclass" (by decide)]
  cases ht : dlookup sub "nxclass" with
  | none => rfl
  | some t =>
    rw [Option.map_some', Option.getD_some, Option.getD_some]
    rcases isDict_cases t with hv | ⟨x, rfl⟩
    · rw [hv]
      simp only [Bool.false_eq_true, if_false]
    · simp only [Val.isDict, if_true]
      rw [show cleanF (vdict x) = vdict (cleanFE x) from rfl]
      rw [vbeq_dict_str, vbeq_dict_str]

theorem refFreeEntries_build (r : List (String × Val))
    (h : ∀ k v, (k, v) ∈ r → k ≠ "$nxdlref" ∧ refFreeB v = true) :
    refFreeEntries r = true := by
  induction r with
  | nil => rfl
  | cons hd tl ih =>
    obtain ⟨k, v⟩ := hd
    obtain ⟨hk, hv⟩ := h k v (List.mem_cons_self _ _)
    rw [refFreeEntries, if_neg hk, Bool.and_eq_true]
    exact ⟨hv, ih (fun k2 v2 hm => h k2 v2 (List.mem_cons_of_mem _ hm))⟩

theorem refFree_key_ne (e : List (String × Val)) (k : String)
    (hrf : refFreeEntries e = true) (hk : k ∈ dkeys e) : k ≠ "$nxdlref" := by
  intro hkd
  subst hkd
  have := refFreeEntries_no_ref e hrf
  rw [dlookup_eq_none_iff] at this
  exact this hk

theorem wfEntries_build (r : List (String × Val))
    (h : ∀ k v, (k, v) ∈ r → wfV v = true) : wfEntries r = true := by
  induction r with
  | nil => rfl
  | cons hd tl ih =>
    obtain ⟨k, v⟩ := hd
    rw [wfEntries, Bool.and_eq_true]
    exact ⟨h k v (List.mem_cons_self _ _),
      ih (fun k2 v2 hm => h k2 v2 (List.mem_cons_of_mem _ hm))⟩

theorem wfV_build (r : List (String × Val)) (hnd : (dkeys r).Nodup)
    (h : ∀ k v, (k, v) ∈ r → wfV v = true) : wfV (vdict r) = true := by
  rw [wfV, Bool.and_eq_true]
  exact ⟨(nodupKeysB_iff r).mpr hnd, wfEntries_build r h⟩

theorem sort_preserve (n : Nat) :
    ∀ v : Val, vdepth v ≤ n → wfV v = true →
      wfV (sort_converted v) = true ∧
      (refFreeB v = true → refFreeB (sort_converted v) = true) := by
  induction n with
  | zero =>
    intro v hdep hwf
    cases v with
    | vdict e => rw [vdepth] at hdep; omega
    | vnull => exact ⟨rfl, fun h => h⟩
    | vbool b => exact ⟨rfl, fun h => h⟩
    | vint i => exact ⟨rfl, fun h => h⟩
    | vstr s => exact ⟨rfl, fun h => h⟩
    | vlist l => exact ⟨rfl, fun h => h⟩
  | succ n ih =>
    intro v hdep hwf
    cases v with
    | vdict e =>
      have hnd := wfV_dict_nodup e hwf
      have hwe := wfV_dict_entries e hwf
      have hdepc : ∀ k c, (k, c) ∈ e → vdepth c ≤ n := by
        intro k c hm
        have := vdepth_mem e k c hm
        rw [vdepth] at hdep
        omega
      have hndsc : (dkeys (sortChildren e)).Nodup := by
        rw [sortChildren_keys]; exact hnd
      have hmem : ∀ k w, (k, w) ∈ reorderEntries (sortChildren e) →
          k ∈ dkeys e ∧
          (w = vnull ∨ ∃ c, (k, c) ∈ e ∧
            w = (if c.isDict then sort_converted c else c)) := by
        intro k w hm
        have hk : k ∈ dkeys (reorderEntries (sortChildren e)) :=
          List.mem_map.mpr ⟨(k, w), hm, rfl⟩
        rw [dkeys_reorder_canonical] at hk
        have hk2 : k ∈ dkeys e := by
          rw [← sortChildren_keys e]
          exact (canonicalKeys_mem _ hndsc k).mp hk
        refine ⟨hk2, ?_⟩
        have hw := mem_reorderEntries _ k w hm
        rw [dlookup_sortChildren] at hw
        cases hc : dlookup e k with
        | none => rw [hc] at hw; exact .inl hw
        | some c =>
          rw [hc, Option.map_some', Option.getD_some] at hw
          exact .inr ⟨c, dlookup_mem e k c hc, hw⟩
      rw [show sort_converted (vdict e)
          = vdict (reorderEntries (sortChildren e)) from rfl]
      constructor
      · refine wfV_build _ (reorder_nodup _ hndsc) ?_
        intro k w hm
        rcases (hmem k w hm).2 with rfl | ⟨c, hmc, rfl⟩
        · rfl
        · rcases isDict_cases c with hcv | ⟨sub, rfl⟩
          · rw [hcv]
            simp only [Bool.false_eq_true, if_false]
            cases c <;> first | rfl | (cases hcv)
          · simp only [Val.isDict, if_true]
            exact (ih _ (hdepc k _ hmc)
              (wfEntries_lookup e k _ hwe (dlookup_of_mem e k _ hnd hmc))).1
      · intro hrf
        rw [show refFreeB (vdict e) = refFreeEntries e from rfl] at hrf
        rw [show refFreeB (vdict (reorderEntries (sortChildren e)))
            = refFreeEntries (reorderEntries (sortChildren e)) from rfl]
        refine refFreeEntries_build _ ?_
        intro k w hm
        obtain ⟨hk, hw⟩ := hmem k w hm
        refine ⟨refFree_key_ne e k hrf hk, ?_⟩
        rcases hw with rfl | ⟨c, hmc, rfl⟩
        · rfl
        · rcases isDict_cases c with hcv | ⟨sub, rfl⟩
          · rw [hcv]
            simp only [Bool.false_eq_true, if_false]
            cases c <;> first | rfl | (cases hcv)
          · simp only [Val.isDict, if_true]
            exact (ih _ (hdepc k _ hmc)
              (wfEntries_lookup e k _ hwe (dlookup_of_mem e k _ hnd hmc))).2
              (refFreeEntries_mem e k _ hrf hmc)
    | vnull => exact ⟨rfl, fun h => h⟩
    | vbool b => exact ⟨rfl, fun h => h⟩
    | vint i => exact ⟨rfl, fun h => h⟩
    | vstr s => exact ⟨rfl, fun h => h⟩
    | vlist l => exact ⟨rfl, fun h => h⟩

theorem mem_cleanFE (g : List (String × Val)) (k : String) (w : Val)
    (hm : (k, w) ∈ cleanFE g) :
    k ∈ dkeys g ∧ ∃ c, (k, c) ∈ g ∧ w = (if c.isDict then cleanF c else c) := by
  rw [cleanFE_struct] at hm
  obtain ⟨⟨k2, c⟩, hkc, heq⟩ := List.mem_map.mp hm
  injection heq with e1 e2
  subst e1
  have hmem := List.mem_of_mem_filter hkc
  exact ⟨List.mem_map.mpr ⟨_, hmem, rfl⟩, c, hmem, e2.symm⟩

theorem clean_preserve (n : Nat) :
    ∀ v : Val, vdepth v ≤ n → wfV v = true →
      wfV (cleanF v) = true ∧
      (refFreeB v = true → refFreeB (cleanF v) = true) := by
  induction n with
  | zero =>
    intro v hdep hwf
    cases v with
    | vdict e => rw [vdepth] at hdep; omega
    | vnull => exact ⟨rfl, fun h => h⟩
    | vbool b => exact ⟨rfl, fun h => h⟩
    | vint i => exact ⟨rfl, fun h => h⟩
    | vstr s => exact ⟨rfl, fun h => h⟩
    | vlist l => exact ⟨rfl, fun h => h⟩
  | succ n ih =>
    intro v hdep hwf
    cases v with
    | vdict e =>
      have hnd := wfV_dict_nodup e hwf
      have hwe := wfV_dict_entries e hwf
      have hdepc : ∀ k c, (k, c) ∈ e → vdepth c ≤ n := by
        intro k c hm
        have := vdepth_mem e k c hm
        rw [vdepth] at hdep
        omega
      rw [show cleanF (vdict e) = vdict (cleanFE e) from rfl]
      constructor
      · refine wfV_build _ (cleanFE_nodup e hnd) ?_
        intro k w hm
        obtain ⟨hk, c, hmc, rfl⟩ := mem_cleanFE e k w hm
        rcases isDict_cases c with hcv | ⟨sub, rfl⟩
        · rw [hcv]
          simp only [Bool.false_eq_true, if_false]
          cases c <;> first | rfl | (cases hcv)
        · simp only [Val.isDict, if_true]
          exact (ih _ (hdepc k _ hmc)
            (wfEntries_lookup e k _ hwe (dlookup_of_mem e k _ hnd hmc))).1
      · intro hrf
        rw [show refFreeB (vdict e) = refFreeEntries e from rfl] at hrf
        rw [show refFreeB (vdict (cleanFE e)) = refFreeEntries (cleanFE e)
          from rfl]
        refine refFreeEntries_build _ ?_
        intro k w hm
        obtain ⟨hk, c, hmc, rfl⟩ := mem_cleanFE e k w hm
        refine ⟨refFree_key_ne e k hrf hk, ?_⟩
        rcases isDict_cases c with hcv | ⟨sub, rfl⟩
        · rw [hcv]
          simp only [Bool.false_eq_true, if_false]
          cases c <;> first | rfl | (cases hcv)
        · simp only [Val.isDict, if_true]
          exact (ih _ (hdepc k _ hmc)
            (wfEntries_lookup e k _ hwe (dlookup_of_mem e k _ hnd hmc))).2
            (refFreeEntries_mem e k _ hrf hmc)
    | vnull => exact ⟨rfl, fun h => h⟩
    | vbool b => exact ⟨rfl, fun h => h⟩
    | vint i => exact ⟨rfl, fun h => h⟩
    | vstr s => exact ⟨rfl, fun h => h⟩
    | vlist l => exact ⟨rfl, fun h => h⟩

theorem cleanF_idem (n : Nat) :
    ∀ v : Val, vdepth v ≤ n → cleanF (cleanF v) = cleanF v := by
  induction n with
  | zero =>
    intro v hdep
    cases v with
    | vdict e => rw [vdepth] at hdep; omega
    | vnull => rfl
    | vbool b => rfl
    | vint i => rfl
    | vstr s => rfl
    | vlist l => rfl
  | succ n ih =>
    intro v hdep
    cases v with
    | vdict e =>
      have hdepc : ∀ k c, (k, c) ∈ e → vdepth c ≤ n := by
        intro k c hm
        have := vdepth_mem e k c hm
        rw [vdepth] at hdep
        omega
      rw [show cleanF (vdict e) = vdict (cleanFE e) from rfl,
        show cleanF (vdict (cleanFE e)) = vdict (cleanFE (cleanFE e)) from rfl]
      have : cleanFE (cleanFE e) = cleanFE e := by
        clear hdep
        induction e with
        | nil => rfl
        | cons hd tl ihl =>
          obtain ⟨k, c⟩ := hd
          have htl := ihl (fun k2 c2 hm => hdepc k2 c2 (List.mem_cons_of_mem _ hm))
          rw [cleanFE_cons]
          rcases isDict_cases c with hcv | ⟨sub, rfl⟩
          · rw [hcv]
            simp only [Bool.false_eq_true, if_false]
            by_cases hk : k = "doc"
            · rw [if_pos hk]
              exact htl
            · rw [if_neg hk, cleanFE_cons, hcv]
              simp only [Bool.false_eq_true, if_false]
              rw [if_neg hk, htl]
          · simp only [Val.isDict, if_true]
            rw [cleanFE_cons]
            rw [show (cleanF (vdict sub)).isDict = true from by
              rw [cleanF_isDict]; rfl]
            simp only [if_true]
            rw [htl, ih (vdict sub) (hdepc k _ (List.mem_cons_self _ _))]
      rw [this]
    | vnull => rfl
    | vbool b => rfl
    | vint i => rfl
    | vstr s => rfl
    | vlist l => rfl

theorem mem_cleanFE_keep (g : List (String × Val)) (k : String) (w : Val)
    (hm : (k, w) ∈ cleanFE g) :
    ∃ c, (k, c) ∈ g ∧ keepKV (k, c) = true ∧
      w = (if c.isDict then cleanF c else c) := by
  rw [cleanFE_struct] at hm
  obtain ⟨⟨k2, c⟩, hkc, heq⟩ := List.mem_map.mp hm
  injection heq with e1 e2
  subst e1
  obtain ⟨hmem, hkeep⟩ := List.mem_filter.mp hkc
  exact ⟨c, hmem, hkeep, e2.symm⟩

theorem dlookup_cleanFE_doc_dict (g : List (String × Val))
    (hnd : (dkeys g).Nodup) (w : Val)
    (h : dlookup (cleanFE g) "doc" = some w) : w.isDict = true := by
  obtain ⟨c, hmc, hkeep, rfl⟩ :=
    mem_cleanFE_keep g "doc" w (dlookup_mem _ _ _ h)
  rw [keepKV] at hkeep
  simp only [decide_True, Bool.not_true, Bool.or_false] at hkeep
  rw [hkeep]
  simp only [if_true]
  rw [cleanF_isDict]
  exact hkeep

theorem dlookup_cleanFE_dict (g : List (String × Val))
    (hnd : (dkeys g).Nodup) (k : String) (sub2 : List (String × Val)) :
    dlookup (cleanFE g) k = some (vdict sub2) ↔
      ∃ sub, dlookup g k = some (vdict sub) ∧ sub2 = cleanFE sub := by
  constructor
  · intro h
    obtain ⟨c, hmc, hkeep, hw⟩ := mem_cleanFE_keep g k _ (dlookup_mem _ _ _ h)
    rcases isDict_cases c with hcv | ⟨sub, rfl⟩
    · rw [hcv] at hw
      simp only [Bool.false_eq_true, if_false] at hw
      rw [← hw] at hcv
      simp [Val.isDict] at hcv
    · simp only [Val.isDict, if_true] at hw
      refine ⟨sub, dlookup_of_mem g k _ hnd hmc, ?_⟩
      rw [show cleanF (vdict sub) = vdict (cleanFE sub) from rfl] at hw
      injection hw with hw2
  · rintro ⟨sub, hlk, rfl⟩
    by_cases hk : k = "doc"
    · subst hk
      have hm : ("doc", vdict sub) ∈ g := dlookup_mem _ _ _ hlk
      have hmc : ("doc", cleanF (vdict sub)) ∈ cleanFE g := by
        rw [cleanFE_struct]
        refine List.mem_map.mpr ⟨("doc", vdict sub), ?_, ?_⟩
        · exact List.mem_filter.mpr ⟨hm, by simp [keepKV, Val.isDict]⟩
        · simp [Val.isDict]
      exact dlookup_of_mem _ _ _ (cleanFE_nodup g hnd) hmc
    · rw [dlookup_cleanFE_ne_doc g k hk, hlk, Option.map_some']
      simp [Val.isDict]
      rfl

theorem dlookup_cleanFE_ndict (g : List (String × Val))
    (hnd : (dkeys g).Nodup) (k : String) :
    (∃ w, dlookup (cleanFE g) k = some w ∧ w.isDict = false) ↔
      ((∃ w, dlookup g k = some w ∧ w.isDict = false) ∧ k ≠ "doc") := by
  constructor
  · rintro ⟨w, hlk, hwd⟩
    have hk : k ≠ "doc" := by
      rintro rfl
      rw [dlookup_cleanFE_doc_dict g hnd w hlk] at hwd
      cases hwd
    rw [dlookup_cleanFE_ne_doc g k hk] at hlk
    cases hc : dlookup g k with
    | none => rw [hc] at hlk; cases hlk
    | some c =>
      rw [hc, Option.map_some'] at hlk
      injection hlk with hw
      rcases isDict_cases c with hcv | ⟨sub, rfl⟩
      · rw [hcv] at hw
        simp only [Bool.false_eq_true, if_false] at hw
        exact ⟨⟨c, rfl, hcv⟩, hk⟩
      · simp only [Val.isDict, if_true] at hw
        rw [← hw, cleanF_isDict] at hwd
        cases hwd
  · rintro ⟨⟨w, hlk, hwd⟩, hk⟩
    refine ⟨w, ?_, hwd⟩
    rw [dlookup_cleanFE_ne_doc g k hk, hlk, Option.map_some', hwd]
    simp only [Bool.false_eq_true, if_false]

theorem dlookup_cleanFE_isSome (g : List (String × Val)) (k : String)
    (hk : k ≠ "doc") :
    (dlookup (cleanFE g) k).isSome = (dlookup g k).isSome := by
  rw [dlookup_cleanFE_ne_doc g k hk]
  cases dlookup g k <;> rfl

/-- Whether a key of `g` survives `clean_docs(..., keep_docs=False)`. -/
def keepK (g : List (String × Val)) (k : String) : Bool :=
  match dlookup g k with
  | some v => keepKV (k, v)
  | none => false

theorem keepK_true_of_ne_doc (g : List (String × Val)) (k : String)
    (hk : k ∈ dkeys g) (hkd : k ≠ "doc") : keepK g k = true := by
  obtain ⟨v, hv⟩ := Option.isSome_iff_exists.mp ((dlookup_isSome_iff g k).mpr hk)
  rw [keepK, hv]
  simp [keepKV, hkd]

theorem keepK_true_of_dict (g : List (String × Val)) (k : String)
    (sub : List (String × Val)) (hv : dlookup g k = some (vdict sub)) :
    keepK g k = true := by
  rw [keepK, hv]
  simp [keepKV, Val.isDict]

theorem dkeys_cleanFE_filter (g : List (String × Val))
    (hnd : (dkeys g).Nodup) :
    dkeys (cleanFE g) = (dkeys g).filter (keepK g) := by
  rw [dkeys_cleanFE]
  induction g with
  | nil => rfl
  | cons hd tl ih =>
    obtain ⟨k, v⟩ := hd
    rw [show dkeys ((k, v) :: tl) = k :: dkeys tl from rfl,
      List.nodup_cons] at hnd
    rw [show dkeys ((k, v) :: tl) = k :: dkeys tl from rfl]
    rw [List.filter_cons, List.filter_cons]
    have hself : keepK ((k, v) :: tl) k = keepKV (k, v) := by
      rw [keepK]
      simp [dlookup]
    rw [hself]
    have htail : (dkeys tl).filter (keepK ((k, v) :: tl))
        = (dkeys tl).filter (keepK tl) := by
      apply List.filter_congr
      intro x hx
      have hxk : k ≠ x := fun h => hnd.1 (h ▸ hx)
      rw [keepK, keepK, show dlookup ((k, v) :: tl) x = dlookup tl x from by
        simp [dlookup, hxk]]
    by_cases hkeep : keepKV (k, v) = true
    · rw [hkeep]
      simp only [if_true, List.map_cons]
      rw [ih hnd.2, htail]
    · rw [Bool.not_eq_true] at hkeep
      rw [hkeep]
      simp only [Bool.false_eq_true, if_false]
      rw [ih hnd.2, htail]

theorem reorder_cleanFE (g : List (String × Val)) (hnd : (dkeys g).Nodup)
    (hcan : dkeys g = canonicalKeys g) :
    reorderEntries (cleanFE g) = cleanFE g := by
  have hndc := cleanFE_nodup g hnd
  refine reorderEntries_eq_self _ hndc ?_
  have hfirst : firstKeysOf (cleanFE g) = firstKeysOf g := by
    unfold firstKeysOf
    rw [dlookup_cleanFE_isSome g "nxclass" (by decide)]
  have hlast : lastKeysOf (cleanFE g) = lastKeysOf g := by
    unfold lastKeysOf
    rw [dlookup_cleanFE_isSome g "attrs" (by decide)]
  have hstr : strSort (stringKeysOf (cleanFE g))
      = (strSort (stringKeysOf g)).filter (keepK g) := by
    refine sorted_nodup_same_mem_eq _ _ (strSort_sorted _)
      (List.Pairwise.sublist (List.filter_sublist _) (strSort_sorted _))
      (strSort_nodup _ (stringKeysOf_nodup _ hndc))
      ((List.filter_sublist _).nodup
        (strSort_nodup _ (stringKeysOf_nodup g hnd))) ?_
    intro k
    rw [strSort_mem, List.mem_filter, strSort_mem,
      stringKeysOf_char _ hndc k, stringKeysOf_char g hnd k]
    constructor
    · rintro ⟨w, hlk, hwd, hn1, hn2⟩
      obtain ⟨⟨w2, hlk2, hwd2⟩, hkd⟩ :=
        (dlookup_cleanFE_ndict g hnd k).mp ⟨w, hlk, hwd⟩
      refine ⟨⟨w2, hlk2, hwd2, hn1, hn2⟩, ?_⟩
      refine keepK_true_of_ne_doc g k ?_ hkd
      rw [← dlookup_isSome_iff, hlk2]
      rfl
    · rintro ⟨⟨w, hlk, hwd, hn1, hn2⟩, hkeep⟩
      have hkd : k ≠ "doc" := by
        simp only [keepK, hlk, keepKV, hwd] at hkeep
        simp at hkeep
        exact hkeep
      obtain ⟨w2, hlk2, hwd2⟩ :=
        (dlookup_cleanFE_ndict g hnd k).mpr ⟨⟨w, hlk, hwd⟩, hkd⟩
      exact ⟨w2, hlk2, hwd2, hn1, hn2⟩
  have hgrp : strSort (groupKeysOf (cleanFE g)) = strSort (groupKeysOf g) := by
    refine sorted_nodup_same_mem_eq _ _ (strSort_sorted _) (strSort_sorted _)
      (strSort_nodup _ (groupKeysOf_nodup _ hndc))
      (strSort_nodup _ (groupKeysOf_nodup g hnd)) ?_
    intro k
    rw [strSort_mem, strSort_mem, groupKeysOf_char _ hndc k,
      groupKeysOf_char g hnd k]
    constructor
    · rintro ⟨sub2, hlk, hvb, hn1, hn2⟩
      obtain ⟨sub, hlk2, rfl⟩ := (dlookup_cleanFE_dict g hnd k sub2).mp hlk
      rw [tag_cleanFE] at hvb
      exact ⟨sub, hlk2, hvb, hn1, hn2⟩
    · rintro ⟨sub, hlk, hvb, hn1, hn2⟩
      refine ⟨cleanFE sub, (dlookup_cleanFE_dict g hnd k _).mpr ⟨sub, hlk, rfl⟩,
        ?_, hn1, hn2⟩
      rw [tag_cleanFE]
      exact hvb
  have hoth : strSort (otherKeysOf (cleanFE g)) = strSort (otherKeysOf g) := by
    refine sorted_nodup_same_mem_eq _ _ (strSort_sorted _) (strSort_sorted _)
      (strSort_nodup _ (otherKeysOf_nodup _ hndc))
      (strSort_nodup _ (otherKeysOf_nodup g hnd)) ?_
    intro k
    rw [strSort_mem, strSort_mem, otherKeysOf_char _ hndc k,
      otherKeysOf_char g hnd k]
    constructor
    · rintro ⟨sub2, hlk, hvb, hn1, hn2⟩
      obtain ⟨sub, hlk2, rfl⟩ := (dlookup_cleanFE_dict g hnd k sub2).mp hlk
      rw [tag_cleanFE] at hvb
      exact ⟨sub, hlk2, hvb, hn1, hn2⟩
    · rintro ⟨sub, hlk, hvb, hn1, hn2⟩
      refine ⟨cleanFE sub, (dlookup_cleanFE_dict g hnd k _).mpr ⟨sub, hlk, rfl⟩,
        ?_, hn1, hn2⟩
      rw [tag_cleanFE]
      exact hvb
  have hF : (firstKeysOf g).filter (keepK g) = firstKeysOf g := by
    refine List.filter_eq_self.mpr ?_
    intro a ha
    obtain ⟨ha1, ha2⟩ := mem_firstKeysOf g a ha
    subst ha1
    exact keepK_true_of_ne_doc g _ ((dlookup_isSome_iff g _).mp ha2) (by decide)
  have hL : (lastKeysOf g).filter (keepK g) = lastKeysOf g := by
    refine List.filter_eq_self.mpr ?_
    intro a ha
    obtain ⟨ha1, ha2⟩ := mem_lastKeysOf g a ha
    subst ha1
    exact keepK_true_of_ne_doc g _ ((dlookup_isSome_iff g _).mp ha2) (by decide)
  have hG : (strSort (groupKeysOf g)).filter (keepK g)
      = strSort (groupKeysOf g) := by
    refine List.filter_eq_self.mpr ?_
    intro a ha
    obtain ⟨sub, hlk, _, _, _⟩ :=
      groupKey_value g a hnd ((strSort_mem _ a).mp ha)
    exact keepK_true_of_dict g a sub hlk
  have hO : (strSort (otherKeysOf g)).filter (keepK g)
      = strSort (otherKeysOf g) := by
    refine List.filter_eq_self.mpr ?_
    intro a ha
    obtain ⟨sub, hlk, _, _, _⟩ :=
      otherKey_value g a hnd ((strSort_mem _ a).mp ha)
    exact keepK_true_of_dict g a sub hlk
  rw [dkeys_cleanFE_filter g hnd, hcan]
  unfold canonicalKeys
  rw [List.filter_append, List.filter_append, List.filter_append,
    List.filter_append]
  rw [hfirst, hlast, hstr, hgrp, hoth, hF, hL, hG, hO]

theorem reorder_hcan (h : List (String × Val)) (hnd : (dkeys h).Nodup) :
    dkeys (reorderEntries h) = canonicalKeys (reorderEntries h) := by
  rw [dkeys_reorder_canonical]
  exact (canonicalKeys_congr h (reorderEntries h) hnd (reorder_nodup h hnd)
    (dlookup_reorder h hnd)).symm

theorem sort_clean_sort_bound (n : Nat) :
    ∀ v : Val, vdepth v ≤ n → wfV v = true →
      sort_converted (cleanF (sort_converted v)) = cleanF (sort_converted v) := by
  induction n with
  | zero =>
    intro v hdep hwf
    cases v with
    | vdict e => rw [vdepth] at hdep; omega
    | vnull => rfl
    | vbool b => rfl
    | vint i => rfl
    | vstr s => rfl
    | vlist l => rfl
  | succ n ih =>
    intro v hdep hwf
    cases v with
    | vdict e =>
      have hnd := wfV_dict_nodup e hwf
      have hwe := wfV_dict_entries e hwf
      have hdepc : ∀ k c, (k, c) ∈ e → vdepth c ≤ n := by
        intro k c hm
        have := vdepth_mem e k c hm
        rw [vdepth] at hdep
        omega
      have hndh : (dkeys (sortChildren e)).Nodup := by
        rw [sortChildren_keys]; exact hnd
      have hndg : (dkeys (reorderEntries (sortChildren e))).Nodup :=
        reorder_nodup _ hndh
      rw [show sort_converted (vdict e)
          = vdict (reorderEntries (sortChildren e)) from rfl]
      rw [show cleanF (vdict (reorderEntries (sortChildren e)))
          = vdict (cleanFE (reorderEntries (sortChildren e))) from rfl]
      rw [show sort_converted (vdict (cleanFE (reorderEntries (sortChildren e))))
          = vdict (reorderEntries (sortChildren
              (cleanFE (reorderEntries (sortChildren e))))) from rfl]
      have hA : sortChildren (cleanFE (reorderEntries (sortChildren e)))
          = cleanFE (reorderEntries (sortChildren e)) := by
        refine sortChildren_eq_self _ ?_
        intro k w hm hwd
        obtain ⟨c, hmc, hkeep, hw⟩ := mem_cleanFE_keep _ k w hm
        rcases isDict_cases c with hcv | ⟨sub, rfl⟩
        · rw [hcv] at hw
          simp only [Bool.false_eq_true, if_false] at hw
          subst hw
          rw [hcv] at hwd
          cases hwd
        · simp only [Val.isDict, if_true] at hw
          have hc := mem_reorderEntries _ k _ hmc
          rw [dlookup_sortChildren] at hc
          cases hc0 : dlookup e k with
          | none =>
            rw [hc0] at hc
            simp at hc
          | some c0 =>
            rw [hc0, Option.map_some', Option.getD_some] at hc
            rcases isDict_cases c0 with hc0v | ⟨sub0, rfl⟩
            · rw [hc0v] at hc
              simp only [Bool.false_eq_true, if_false] at hc
              rw [← hc] at hc0v
              simp [Val.isDict] at hc0v
            · simp only [Val.isDict, if_true] at hc
              subst hw
              rw [hc]
              exact ih _ (hdepc k _ (dlookup_mem e k _ hc0))
                (wfEntries_lookup e k _ hwe hc0)
      rw [hA]
      rw [reorder_cleanFE _ hndg (reorder_hcan _ hndh)]
    | vnull => rfl
    | vbool b => rfl
    | vint i => rfl
    | vstr s => rfl
    | vlist l => rfl

theorem mem_dset (e : List (String × Val)) (k : String) (v : Val)
    (k2 : String) (v2 : Val) (hm : (k2, v2) ∈ dset e k v) :
    (k2, v2) ∈ e ∨ (k2 = k ∧ v2 = v) := by
  induction e with
  | nil =>
    simp [dset] at hm
    exact .inr hm
  | cons hd tl ih =>
    obtain ⟨k0, v0⟩ := hd
    rw [dset] at hm
    by_cases h0 : k0 = k
    · rw [if_pos h0] at hm
      rcases List.mem_cons.mp hm with h1 | h1
      · injection h1 with e1 e2
        exact .inr ⟨e1.trans h0, e2⟩
      · exact .inl (List.mem_cons_of_mem _ h1)
    · rw [if_neg h0] at hm
      rcases List.mem_cons.mp hm with h1 | h1
      · exact .inl (h1 ▸ List.mem_cons_self _ _)
      · rcases ih h1 with h2 | h2
        · exact .inl (List.mem_cons_of_mem _ h2)
        · exact .inr h2

theorem wf_dset (e : List (String × Val)) (k : String) (v : Val)
    (hwf : wfV (vdict e) = true) (hv : wfV v = true) :
    wfV (vdict (dset e k v)) = true := by
  refine wfV_build _ (nodup_dkeys_dset e k v (wfV_dict_nodup e hwf)) ?_
  intro k2 v2 hm
  rcases mem_dset e k v k2 v2 hm with h | ⟨_, rfl⟩
  · exact wfEntries_lookup e k2 v2 (wfV_dict_entries e hwf)
      (dlookup_of_mem e k2 v2 (wfV_dict_nodup e hwf) h)
  · exact hv

theorem dremove_sublist (e : List (String × Val)) (k : String) :
    (dremove e k).Sublist e := by
  induction e with
  | nil => exact List.Sublist.refl _
  | cons hd tl ih =>
    obtain ⟨k0, v0⟩ := hd
    rw [dremove]
    by_cases h0 : k0 = k
    · rw [if_pos h0]
      exact ih.cons _
    · rw [if_neg h0]
      exact ih.cons₂ _

theorem wf_dremove (e : List (String × Val)) (k : String)
    (hwf : wfV (vdict e) = true) : wfV (vdict (dremove e k)) = true := by
  refine wfV_build _ ?_ ?_
  · exact ((dremove_sublist e k).map Prod.fst).nodup (wfV_dict_nodup e hwf)
  · intro k2 v2 hm
    have hm2 := (dremove_sublist e k).mem hm
    exact wfEntries_lookup e k2 v2 (wfV_dict_entries e hwf)
      (dlookup_of_mem e k2 v2 (wfV_dict_nodup e hwf) hm2)

theorem mem_dkeys_dset (e : List (String × Val)) (k : String) (v : Val)
    (k2 : String) (hm : k2 ∈ dkeys (dset e k v)) : k2 ∈ dkeys e ∨ k2 = k := by
  rw [dkeys_dset] at hm
  by_cases h : k ∈ dkeys e
  · rw [if_pos h] at hm
    exact .inl hm
  · rw [if_neg h] at hm
    rcases List.mem_append.mp hm with h1 | h1
    · exact .inl h1
    · exact .inr (List.mem_singleton.mp h1)

/-- An already-converted (category-free) well-formed dict document. -/
def convertedDoc : Val → Bool
  | vdict fe => !truthy ((dlookup fe "category").getD vnull) && wfV (vdict fe)
  | _ => false

/-- The file system holds only already-converted well-formed documents. -/
def convertedFsB : List (String × Val) → Bool
  | [] => true
  | (_, v) :: rest => convertedDoc v && convertedFsB rest

theorem convertedFsB_lookup (fs : List (String × Val)) (p : String) (v : Val)
    (h : convertedFsB fs = true) (hl : dlookup fs p = some v) :
    ∃ fe, v = vdict fe ∧ truthy ((dlookup fe "category").getD vnull) = false ∧
      wfV (vdict fe) = true := by
  induction fs with
  | nil => cases hl
  | cons hd tl ih =>
    obtain ⟨p0, v0⟩ := hd
    rw [convertedFsB, Bool.and_eq_true] at h
    rw [dlookup] at hl
    by_cases h0 : p0 = p
    · rw [if_pos h0] at hl
      cases v0 with
      | vdict fe =>
        injection hl with hv
        have h1 := h.1
        rw [convertedDoc, Bool.and_eq_true, Bool.not_eq_true'] at h1
        exact ⟨fe, hv.symm, h1.1, h1.2⟩
      | vnull => cases h.1
      | vbool b => cases h.1
      | vint i => cases h.1
      | vstr s => cases h.1
      | vlist l => cases h.1
    · rw [if_neg h0] at hl
      exact ih h.2 hl

theorem deepUpd_pres (n : Nat) :
    ∀ (u : List (String × Val)) (d r : Val), sizeOf u ≤ n → wfV d = true →
      (∀ k v, (k, v) ∈ u → wfV v = true) →
      deepUpdEntries d u = .ok r →
      wfV r = true ∧ (∀ ke, d = vdict ke → ∃ re, r = vdict re ∧
        ∀ k2, k2 ∈ dkeys re → k2 ∈ dkeys ke ∨ k2 ∈ u.map Prod.fst) := by
  induction n using Nat.strong_induction_on with
  | _ n ih =>
    intro u d r hsz hwd hwu hok
    match u with
    | [] =>
      rw [deepUpdEntries_nil] at hok
      injection hok with hr
      subst hr
      exact ⟨hwd, fun ke hke => ⟨ke, hke, fun k2 hk2 => .inl hk2⟩⟩
    | (k, v) :: rest =>
      simp only [List.cons.sizeOf_spec, Prod.mk.sizeOf_spec] at hsz
      have hszrest : sizeOf rest < n := by omega
      cases hvd : v with
      | vdict uv =>
        subst hvd
        cases d with
        | vdict de =>
          rw [deepUpdEntries_cons_dict] at hok
          cases hsub : deepUpdEntries ((dlookup de k).getD (vdict [])) uv with
          | error err => rw [hsub] at hok; cases hok
          | ok sub =>
            rw [hsub] at hok
            have hd0 : wfV ((dlookup de k).getD (vdict [])) = true := by
              cases hlk : dlookup de k with
              | none => rfl
              | some w =>
                rw [Option.getD_some]
                exact wfEntries_lookup de k w (wfV_dict_entries de hwd) hlk
            have hszuv : sizeOf uv < n := by
              simp only [Val.vdict.sizeOf_spec] at hsz
              omega
            have hwsub := (ih (sizeOf uv) hszuv uv _ sub le_rfl hd0
              (fun k2 v2 hm => wfEntries_lookup uv k2 v2
                (wfV_dict_entries uv (hwu k (vdict uv) (List.mem_cons_self _ _)))
                (dlookup_of_mem uv k2 v2
                  (wfV_dict_nodup uv (hwu k (vdict uv) (List.mem_cons_self _ _)))
                  hm)) hsub).1
            have hd1 : wfV (vdict (dset de k sub)) = true :=
              wf_dset de k sub hwd hwsub
            have hrec := ih (sizeOf rest) hszrest rest _ r le_rfl hd1
              (fun k2 v2 hm => hwu k2 v2 (List.mem_cons_of_mem _ hm)) hok
            refine ⟨hrec.1, ?_⟩
            rintro ke hke
            injection hke with hke2
            subst hke2
            obtain ⟨re, hre, hkeys⟩ := hrec.2 (dset de k sub) rfl
            refine ⟨re, hre, ?_⟩
            intro k2 hk2
            rcases hkeys k2 hk2 with h1 | h1
            · rcases mem_dkeys_dset de k sub k2 h1 with h2 | h2
              · exact .inl h2
              · exact .inr (h2 ▸ List.mem_cons_self _ _)
            · exact .inr (List.mem_cons_of_mem _ h1)
        | vnull => simp only [deepUpdEntries] at hok; cases hok
        | vbool b => simp only [deepUpdEntries] at hok; cases hok
        | vint i => simp only [deepUpdEntries] at hok; cases hok
        | vstr s => simp only [deepUpdEntries] at hok; cases hok
        | vlist l => simp only [deepUpdEntries] at hok; cases hok
      | vnull =>
        subst hvd
        cases d with
        | vdict de =>
          rw [deepUpdEntries_cons_ndict de k vnull rest rfl] at hok
          have hd1 : wfV (vdict (dset de k vnull)) = true :=
            wf_dset de k vnull hwd rfl
          have hrec := ih (sizeOf rest) hszrest rest _ r le_rfl hd1
            (fun k2 v2 hm => hwu k2 v2 (List.mem_cons_of_mem _ hm)) hok
          refine ⟨hrec.1, ?_⟩
          rintro ke hke
          injection hke with hke2
          subst hke2
          obtain ⟨re, hre, hkeys⟩ := hrec.2 (dset de k vnull) rfl
          refine ⟨re, hre, ?_⟩
          intro k2 hk2
          rcases hkeys k2 hk2 with h1 | h1
          · rcases mem_dkeys_dset de k vnull k2 h1 with h2 | h2
            · exact .inl h2
            · exact .inr (h2 ▸ List.mem_cons_self _ _)
          · exact .inr (List.mem_cons_of_mem _ h1)
        | vnull => simp only [deepUpdEntries] at hok; cases hok
        | vbool b => simp only [deepUpdEntries] at hok; cases hok
        | vint i => simp only [deepUpdEntries] at hok; cases hok
        | vstr s => simp only [deepUpdEntries] at hok; cases hok
        | vlist l => simp only [deepUpdEntries] at hok; cases hok
      | vbool b0 =>
        subst hvd
        cases d with
        | vdict de =>
          rw [deepUpdEntries_cons_ndict de k (vbool b0) rest rfl] at hok
          have hd1 : wfV (vdict (dset de k (vbool b0))) = true :=
            wf_dset de k (vbool b0) hwd rfl
          have hrec := ih (sizeOf rest) hszrest rest _ r le_rfl hd1
            (fun k2 v2 hm => hwu k2 v2 (List.mem_cons_of_mem _ hm)) hok
          refine ⟨hrec.1, ?_⟩
          rintro ke hke
          injection hke with hke2
          subst hke2
          obtain ⟨re, hre, hkeys⟩ := hrec.2 (dset de k (vbool b0)) rfl
          refine ⟨re, hre, ?_⟩
          intro k2 hk2
          rcases hkeys k2 hk2 with h1 | h1
          · rcases mem_dkeys_dset de k (vbool b0) k2 h1 with h2 | h2
            · exact .inl h2
            · exact .inr (h2 ▸ List.mem_cons_self _ _)
          · exact .inr (List.mem_cons_of_mem _ h1)
        | vnull => simp only [deepUpdEntries] at hok; cases hok
        | vbool b => simp only [deepUpdEntries] at hok; cases hok
        | vint i => simp only [deepUpdEntries] at hok; cases hok
        | vstr s => simp only [deepUpdEntries] at hok; cases hok
        | vlist l => simp only [deepUpdEntries] at hok; cases hok
      | vint i0 =>
        subst hvd
        cases d with
        | vdict de =>
          rw [deepUpdEntries_cons_ndict de k (vint i0) rest rfl] at hok
          have hd1 : wfV (vdict (dset de k (vint i0))) = true :=
            wf_dset de k (vint i0) hwd rfl
          have hrec := ih (sizeOf rest) hszrest rest _ r le_rfl hd1
            (fun k2 v2 hm => hwu k2 v2 (List.mem_cons_of_mem _ hm)) hok
          refine ⟨hrec.1, ?_⟩
          rintro ke hke
          injection hke with hke2
          subst hke2
          obtain ⟨re, hre, hkeys⟩ := hrec.2 (dset de k (vint i0)) rfl
          refine ⟨re, hre, ?_⟩
          intro k2 hk2
          rcases hkeys k2 hk2 with h1 | h1
          · rcases mem_dkeys_dset de k (vint i0) k2 h1 with h2 | h2
            · exact .inl h2
            · exact .inr (h2 ▸ List.mem_cons_self _ _)
          · exact .inr (List.mem_cons_of_mem _ h1)
        | vnull => simp only [deepUpdEntries] at hok; cases hok
        | vbool b => simp only [deepUpdEntries] at hok; cases hok
        | vint i => simp only [deepUpdEntries] at hok; cases hok
        | vstr s => simp only [deepUpdEntries] at hok; cases hok
        | vlist l => simp only [deepUpdEntries] at hok; cases hok
      | vstr s0 =>
        subst hvd
        cases d with
        | vdict de =>
          rw [deepUpdEntries_cons_ndict de k (vstr s0) rest rfl] at hok
          have hd1 : wfV (vdict (dset de k (vstr s0))) = true :=
            wf_dset de k (vstr s0) hwd rfl
          have hrec := ih (sizeOf rest) hszrest rest _ r le_rfl hd1
            (fun k2 v2 hm => hwu k2 v2 (List.mem_cons_of_mem _ hm)) hok
          refine ⟨hrec.1, ?_⟩
          rintro ke hke
          injection hke with hke2
          subst hke2
          obtain ⟨re, hre, hkeys⟩ := hrec.2 (dset de k (vstr s0)) rfl
          refine ⟨re, hre, ?_⟩
          intro k2 hk2
          rcases hkeys k2 hk2 with h1 | h1
          · rcases mem_dkeys_dset de k (vstr s0) k2 h1 with h2 | h2
            · exact .inl h2
            · exact .inr (h2 ▸ List.mem_cons_self _ _)
          · exact .inr (List.mem_cons_of_mem _ h1)
        | vnull => simp only [deepUpdEntries] at hok; cases hok
        | vbool b => simp only [deepUpdEntries] at hok; cases hok
        | vint i => simp only [deepUpdEntries] at hok; cases hok
        | vstr s => simp only [deepUpdEntries] at hok; cases hok
        | vlist l => simp only [deepUpdEntries] at hok; cases hok
      | vlist l0 =>
        subst hvd
        cases d with
        | vdict de =>
          rw [deepUpdEntries_cons_ndict de k (vlist l0) rest rfl] at hok
          have hd1 : wfV (vdict (dset de k (vlist l0))) = true :=
            wf_dset de k (vlist l0) hwd rfl
          have hrec := ih (sizeOf rest) hszrest rest _ r le_rfl hd1
            (fun k2 v2 hm => hwu k2 v2 (List.mem_cons_of_mem _ hm)) hok
          refine ⟨hrec.1, ?_⟩
          rintro ke hke
          injection hke with hke2
          subst hke2
          obtain ⟨re, hre, hkeys⟩ := hrec.2 (dset de k (vlist l0)) rfl
          refine ⟨re, hre, ?_⟩
          intro k2 hk2
          rcases hkeys k2 hk2 with h1 | h1
          · rcases mem_dkeys_dset de k (vlist l0) k2 h1 with h2 | h2
            · exact .inl h2
            · exact .inr (h2 ▸ List.mem_cons_self _ _)
          · exact .inr (List.mem_cons_of_mem _ h1)
        | vnull => simp only [deepUpdEntries] at hok; cases hok
        | vbool b => simp only [deepUpdEntries] at hok; cases hok
        | vint i => simp only [deepUpdEntries] at hok; cases hok
        | vstr s => simp only [deepUpdEntries] at hok; cases hok
        | vlist l => simp only [deepUpdEntries] at hok; cases hok

theorem sort_isDict (v : Val) : (sort_converted v).isDict = v.isDict := by
  cases v <;> rfl

theorem refFreeB_of_ndict (v : Val) (h : v.isDict = false) :
    refFreeB v = true := by
  cases v <;> first | rfl | (cases h)

theorem wfV_of_ndict (v : Val) (h : v.isDict = false) : wfV v = true := by
  cases v <;> first | rfl | (cases h)

theorem convert_zero (fs : List (String × Val)) (p : String)
    (r s k : Bool) : convert_nxyaml 0 fs p r s k = .error .fuelExhausted := rfl

theorem resolve_zero (fs : List (String × Val)) (d : String) (g : Val) :
    resolve_nxdlrefs 0 fs d g = .error .fuelExhausted := rfl

theorem convert_succ_eq (n : Nat) (fs : List (String × Val)) (p : String)
    (r s k : Bool) :
    convert_nxyaml (n + 1) fs p r s k = convBody (nxFuncs n) fs p r s k := rfl

theorem convert_catfree (n : Nat) (fs : List (String × Val)) (p : String)
    (fd0 : List (String × Val)) (sortFlag keepDocs : Bool)
    (hfile : dlookup fs p = some (vdict fd0))
    (hcat : truthy ((dlookup fd0 "category").getD vnull) = false) :
    convert_nxyaml (n + 1) fs p false sortFlag keepDocs =
      match resolve_nxdlrefs n fs (dirname p) (vdict (dremove fd0 "category")) with
      | .error e => .error e
      | .ok core =>
        clean_docs (if sortFlag then sort_converted core else core) keepDocs := by
  rw [convert_succ_eq]
  simp only [convBody, hfile, hcat, Bool.false_eq_true, if_false]
  rfl

theorem pipeline_preserve (fuel : Nat) (fs : List (String × Val))
    (hfs : convertedFsB fs = true) :
    (∀ p u, convert_nxyaml fuel fs p false true false = .ok u →
       refFreeB u = true ∧ wfV u = true) ∧
    (∀ d g u, wfV g = true → resolve_nxdlrefs fuel fs d g = .ok u →
       refFreeB u = true ∧ wfV u = true ∧ u.isDict = true) ∧
    (∀ d l r, (dkeys l).Nodup → wfEntries l = true →
       resolveEntries fuel fs d l = .ok r →
       dkeys r = dkeys l ∧ (∀ k v, (k, v) ∈ r →
         refFreeB v = true ∧ wfV v = true)) := by
  induction fuel using Nat.strong_induction_on with
  | _ fuel ih =>
    have hconv : ∀ p u, convert_nxyaml fuel fs p false true false = .ok u →
        refFreeB u = true ∧ wfV u = true := by
      intro p u hok
      cases fuel with
      | zero => rw [convert_zero] at hok; cases hok
      | succ n =>
        cases hfile : dlookup fs p with
        | none =>
          rw [convert_succ_eq] at hok
          simp only [convBody, hfile] at hok
          cases hok
        | some fv =>
          obtain ⟨fd0, rfl, hcat, hwfd⟩ := convertedFsB_lookup fs p fv hfs hfile
          rw [convert_catfree n fs p fd0 true false hfile hcat] at hok
          cases hcore : resolve_nxdlrefs n fs (dirname p)
              (vdict (dremove fd0 "category")) with
          | error e2 => rw [hcore] at hok; cases hok
          | ok core =>
            rw [hcore] at hok
            simp only [if_true] at hok
            rw [clean_docs_false_eq (vdepth (sort_converted core))
              (sort_converted core) le_rfl] at hok
            injection hok with hu
            subst hu
            have hcorepres := (ih n (Nat.lt_succ_self n)).2.1 (dirname p) _ core
              (wf_dremove fd0 "category" hwfd) hcore
            have hsort := sort_preserve (vdepth core) core le_rfl hcorepres.2.1
            have := clean_preserve (vdepth (sort_converted core))
              (sort_converted core) le_rfl hsort.1
            exact ⟨this.2 (hsort.2 hcorepres.1), this.1⟩
    have hres : ∀ d g u, wfV g = true → resolve_nxdlrefs fuel fs d g = .ok u →
        refFreeB u = true ∧ wfV u = true ∧ u.isDict = true := by
      intro d g u hwg hok
      cases fuel with
      | zero => rw [resolve_zero] at hok; cases hok
      | succ n =>
        rw [resolve_succ_eq] at hok
        cases g with
        | vdict e =>
          simp only [resvBody] at hok
          by_cases htr : truthy ((dlookup e "$nxdlref").getD vnull) = true
          · simp only [htr, if_true] at hok
            cases hrefv : (dlookup e "$nxdlref").getD vnull with
            | vstr fname =>
              simp only [hrefv] at hok
              cases hcv : convert_nxyaml (n + 1) fs (pathJoin d fname)
                  false true false with
              | error e2 => simp only [hcv] at hok; cases hok
              | ok refgrp =>
                simp only [hcv] at hok
                have hrefpres := hconv _ _ hcv
                cases refgrp with
                | vdict regp =>
                  simp only [show pyLen (vdict regp) = .ok regp.length from rfl] at hok
                  match regp, hok with
                  | [], hok => simp at hok
                  | (rn, refDict) :: [], hok =>
                    simp only [List.length_cons, List.length_nil] at hok
                    rw [if_neg (by omega)] at hok
                    cases refDict with
                    | vdict rde =>
                      cases hc1 : dlookup rde "nxclass" with
                      | none => simp only [hc1] at hok; cases hok
                      | some refClass =>
                        simp only [hc1] at hok
                        cases hc2 : dlookup (dremove e "$nxdlref") "nxclass" with
                        | none => simp only [hc2] at hok; cases hok
                        | some grpClass =>
                          simp only [hc2] at hok
                          by_cases hvb : vbeq refClass grpClass = true
                          · simp only [hvb, Bool.not_true, Bool.false_eq_true,
                              if_false] at hok
                            cases hdu : deep_update (vdict rde)
                                (vdict (dremove e "$nxdlref")) with
                            | error e2 => simp only [hdu] at hok; cases hok
                            | ok merged =>
                              simp only [hdu] at hok
                              have hwrde : wfV (vdict rde) = true := by
                                have h2 := hrefpres.2
                                rw [wfV, Bool.and_eq_true] at h2
                                have := h2.2
                                rw [wfEntries, Bool.and_eq_true] at this
                                exact this.1
                              have hfrde : refFreeEntries rde = true := by
                                have h2 := hrefpres.1
                                rw [show refFreeB (vdict [(rn, vdict rde)])
                                    = refFreeEntries [(rn, vdict rde)] from rfl,
                                  refFreeEntries] at h2
                                by_cases hrn : rn = "$nxdlref"
                                · rw [if_pos hrn] at h2; cases h2
                                · rw [if_neg hrn, Bool.and_eq_true] at h2
                                  exact h2.1
                              rw [show deep_update (vdict rde)
                                  (vdict (dremove e "$nxdlref"))
                                  = deepUpdEntries (vdict rde)
                                    (dremove e "$nxdlref") from rfl] at hdu
                              have hwe1 : wfV (vdict (dremove e "$nxdlref"))
                                  = true := wf_dremove e "$nxdlref" hwg
                              have hdup := deepUpd_pres
                                (sizeOf (dremove e "$nxdlref")) _ _ _ le_rfl
                                hwrde
                                (fun k2 v2 hm => wfEntries_lookup _ k2 v2
                                  (wfV_dict_entries _ hwe1)
                                  (dlookup_of_mem _ k2 v2
                                    (wfV_dict_nodup _ hwe1) hm))
                                hdu
                              obtain ⟨me, rfl, hkme⟩ := hdup.2 rde rfl
                              cases hent : resolveEntries n fs d me with
                              | error e2 => simp only [hent] at hok; cases hok
                              | ok r2 =>
                                simp only [hent] at hok
                                injection hok with hu
                                subst hu
                                have hentp := (ih n (Nat.lt_succ_self n)).2.2
                                  d me r2 (wfV_dict_nodup me hdup.1)
                                  (wfV_dict_entries me hdup.1) hent
                                have hkne : ∀ k2, k2 ∈ dkeys r2 →
                                    k2 ≠ "$nxdlref" := by
                                  intro k2 hk2
                                  rw [hentp.1] at hk2
                                  rcases hkme k2 hk2 with h1 | h1
                                  · exact refFree_key_ne rde k2 hfrde h1
                                  · intro hkd
                                    subst hkd
                                    have := dlookup_dremove_self e "$nxdlref"
                                    rw [dlookup_eq_none_iff] at this
                                    exact this h1
                                refine ⟨?_, ?_, rfl⟩
                                · rw [show refFreeB (vdict r2)
                                      = refFreeEntries r2 from rfl]
                                  refine refFreeEntries_build r2 ?_
                                  intro k2 v2 hm
                                  exact ⟨hkne k2 (List.mem_map.mpr ⟨_, hm, rfl⟩),
                                    (hentp.2 k2 v2 hm).1⟩
                                · refine wfV_build r2 ?_ ?_
                                  · rw [hentp.1]
                                    exact wfV_dict_nodup me hdup.1
                                  · intro k2 v2 hm
                                    exact (hentp.2 k2 v2 hm).2
                          · rw [Bool.not_eq_true] at hvb
                            simp only [hvb, Bool.not_false, if_true] at hok
                            cases hok
                    | vnull => cases hok
                    | vbool b => cases hok
                    | vint i => cases hok
                    | vstr s => cases hok
                    | vlist l => cases hok
                  | (rn, refDict) :: h2 :: t2, hok =>
                    simp only [List.length_cons] at hok
                    rw [if_pos (by omega)] at hok
                    cases hok
                | vnull =>
                  simp only [show pyLen vnull = .error .typeError from rfl]
                    at hok
                  cases hok
                | vbool b =>
                  simp only [show pyLen (vbool b) = .error .typeError from rfl]
                    at hok
                  cases hok
                | vint i =>
                  simp only [show pyLen (vint i) = .error .typeError from rfl]
                    at hok
                  cases hok
                | vstr s =>
                  simp only [show pyLen (vstr s) = .ok s.length from rfl] at hok
                  by_cases hlen : s.length ≠ 1
                  · rw [if_pos hlen] at hok; exact absurd hok (by simp)
                  · rw [if_neg hlen] at hok; exact absurd hok (by simp)
                | vlist l =>
                  simp only [show pyLen (vlist l) = .ok l.length from rfl] at hok
                  by_cases hlen : l.length ≠ 1
                  · rw [if_pos hlen] at hok; exact absurd hok (by simp)
                  · rw [if_neg hlen] at hok; exact absurd hok (by simp)
            | vnull => rw [hrefv] at htr; cases htr
            | vbool b => simp only [hrefv] at hok; cases hok
            | vint i => simp only [hrefv] at hok; cases hok
            | vlist l => simp only [hrefv] at hok; cases hok
            | vdict e2 => simp only [hrefv] at hok; cases hok
          · rw [Bool.not_eq_true] at htr
            simp only [htr, Bool.false_eq_true, if_false] at hok
            cases hent : resolveEntries n fs d (dremove e "$nxdlref") with
            | error e2 => simp only [hent] at hok; cases hok
            | ok r =>
              simp only [hent] at hok
              injection hok with hu
              subst hu
              have hwe1 : wfV (vdict (dremove e "$nxdlref")) = true :=
                wf_dremove e "$nxdlref" hwg
              have hentp := (ih n (Nat.lt_succ_self n)).2.2 d _ r
                (wfV_dict_nodup _ hwe1) (wfV_dict_entries _ hwe1) hent
              refine ⟨?_, ?_, rfl⟩
              · rw [show refFreeB (vdict r) = refFreeEntries r from rfl]
                refine refFreeEntries_build r ?_
                intro k2 v2 hm
                refine ⟨?_, (hentp.2 k2 v2 hm).1⟩
                intro hkd
                subst hkd
                have hk2 : "$nxdlref" ∈ dkeys r :=
                  List.mem_map.mpr ⟨_, hm, rfl⟩
                rw [hentp.1] at hk2
                have := dlookup_dremove_self e "$nxdlref"
                rw [dlookup_eq_none_iff] at this
                exact this hk2
              · refine wfV_build r ?_ ?_
                · rw [hentp.1]
                  exact wfV_dict_nodup _ hwe1
                · intro k2 v2 hm
                  exact (hentp.2 k2 v2 hm).2
        | vnull => cases hok
        | vbool b => cases hok
        | vint i => cases hok
        | vstr s => cases hok
        | vlist l => cases hok
    refine ⟨hconv, hres, ?_⟩
    intro d l r hnd hwl hok
    induction l generalizing r with
    | nil =>
      rw [resolveEntries_nil] at hok
      injection hok with hr
      subst hr
      exact ⟨rfl, fun k v hm => by simp at hm⟩
    | cons hd tl ihl =>
      obtain ⟨k, v⟩ := hd
      rw [show dkeys ((k, v) :: tl) = k :: dkeys tl from rfl,
        List.nodup_cons] at hnd
      rw [wfEntries, Bool.and_eq_true] at hwl
      rw [resolveEntries_cons] at hok
      rcases isDict_cases v with hv | ⟨sub, rfl⟩
      · rw [hv] at hok
        simp only [Bool.false_eq_true, if_false] at hok
        cases htl : resolveEntries fuel fs d tl with
        | error e2 => rw [htl] at hok; cases hok
        | ok rtl =>
          rw [htl] at hok
          injection hok with hr
          subst hr
          have hrec := ihl rtl hnd.2 hwl.2 htl
          refine ⟨?_, ?_⟩
          · rw [show dkeys ((k, v) :: rtl) = k :: dkeys rtl from rfl, hrec.1]
            rfl
          · intro k2 v2 hm
            rcases List.mem_cons.mp hm with h1 | h1
            · injection h1 with e1 e2
              subst e2
              exact ⟨refFreeB_of_ndict _ hv, wfV_of_ndict _ hv⟩
            · exact hrec.2 k2 v2 h1
      · simp only [Val.isDict, if_true] at hok
        cases hres1 : resolve_nxdlrefs fuel fs d (vdict sub) with
        | error e2 => rw [hres1] at hok; cases hok
        | ok v2 =>
          rw [hres1] at hok
          cases htl : resolveEntries fuel fs d tl with
          | error e2 => rw [htl] at hok; cases hok
          | ok rtl =>
            rw [htl] at hok
            injection hok with hr
            subst hr
            have hrec := ihl rtl hnd.2 hwl.2 htl
            have hv2 := hres d (vdict sub) v2 hwl.1 hres1
            refine ⟨?_, ?_⟩
            · rw [show dkeys ((k, v2) :: rtl) = k :: dkeys rtl from rfl, hrec.1]
              rfl
            · intro k2 v3 hm
              rcases List.mem_cons.mp hm with h1 | h1
              · injection h1 with e1 e2
                subst e2
                exact ⟨hv2.1, hv2.2.1⟩
              · exact hrec.2 k2 v3 h1

/-- The simplified-input pipeline applied to a tree: reference resolution,
then sorting, then doc cleaning, with no reduction (the processing
`convert_nxyaml` performs on an already-converted, category-free document). -/
def pipeSimplified (fuel : Nat) (fs : List (String × Val)) (d : String)
    (t : Val) : Except PyErr Val :=
  match resolve_nxdlrefs fuel fs d t with
  | .error e => .error e
  | .ok r => clean_docs (sort_converted r) false

/-- C8: `convert_nxyaml` on a category-free document runs exactly the
simplified-input pipeline, and that pipeline is idempotent: over a converted
well-formed file system, re-applying it (with any sufficient recursion
budget) to a tree that is itself one of its outputs returns the tree
unchanged. -/
theorem C8_simplified_pipeline_idempotent :
    (∀ (n : Nat) (fs : List (String × Val)) (p : String)
        (fd0 : List (String × Val)),
      dlookup fs p = some (vdict fd0) →
      truthy ((dlookup fd0 "category").getD vnull) = false →
      convert_nxyaml (n + 1) fs p false true false
        = pipeSimplified n fs (dirname p) (vdict (dremove fd0 "category")))
  ∧ (∀ (n : Nat) (fs : List (String × Val)) (d : String) (t u : Val),
      convertedFsB fs = true → wfV t = true →
      pipeSimplified n fs d t = .ok u →
      ∀ m : Nat, 2 * vdepth u < m → pipeSimplified m fs d u = .ok u) := by
  constructor
  · intro n fs p fd0 hfile hcat
    rw [convert_catfree n fs p fd0 true false hfile hcat]
    unfold pipeSimplified
    cases resolve_nxdlrefs n fs (dirname p) (vdict (dremove fd0 "category")) with
    | error e => rfl
    | ok core => rfl
  · intro n fs d t u hfs hwt hok m hm
    cases hr : resolve_nxdlrefs n fs d t with
    | error e =>
      simp only [pipeSimplified, hr] at hok
      cases hok
    | ok r =>
      simp only [pipeSimplified, hr] at hok
      rw [clean_docs_false_eq (vdepth (sort_converted r)) _ le_rfl] at hok
      injection hok with hu
      have hpres := (pipeline_preserve n fs hfs).2.1 d t r hwt hr
      rcases isDict_cases r with hc | ⟨re, rfl⟩
      · rw [hpres.2.2] at hc
        cases hc
      · subst hu
        set ue := cleanFE (reorderEntries (sortChildren re)) with hue
        have hueq : cleanF (sort_converted (vdict re)) = vdict ue := rfl
        rw [hueq] at hm ⊢
        have hwsort := sort_preserve (vdepth (vdict re)) _ le_rfl hpres.2.1
        have hfree_sort := hwsort.2 hpres.1
        have hwclean := clean_preserve (vdepth (sort_converted (vdict re))) _
          le_rfl hwsort.1
        have hfree_u : refFreeB (vdict ue) = true := by
          rw [← hueq]
          exact hwclean.2 hfree_sort
        have h_free : refFreeEntries ue = true := hfree_u
        have hid := (resolveRefs_id_pair m).1 ue fs d h_free hm
        simp only [pipeSimplified, hid]
        have hss : sort_converted (vdict ue) = vdict ue :=
          sort_clean_sort_bound (vdepth (vdict re)) (vdict re) le_rfl hpres.2.1
        rw [hss]
        rw [clean_docs_false_eq (vdepth (vdict ue)) _ le_rfl]
        have hci : cleanF (vdict ue) = vdict ue :=
          cleanF_idem (vdepth (sort_converted (vdict re))) _ le_rfl
        rw [hci]

/-- Concrete instantiation of C8: converting the category-free file is the
pipeline on its content, and re-running the pipeline on a pipeline output
(an unsorted node with `doc` entries, a scalar, and a nested group) returns
it unchanged. -/
theorem C8_simplified_pipeline_idempotent_witness :
    (convert_nxyaml 4 fsOneEntity "d/ref.yml" false true false
      = pipeSimplified 3 fsOneEntity (dirname "d/ref.yml")
          (vdict (dremove [("src", vdict [("nxclass", vstr "NXsource")])]
            "category")))
  ∧ pipeSimplified 5 fsOneEntity "d"
        (vdict [("nxclass", vstr "NXentry"), ("aval", vint 3),
          ("zfld", vdict [("nxclass", vstr "NXdata")])])
      = .ok (vdict [("nxclass", vstr "NXentry"), ("aval", vint 3),
          ("zfld", vdict [("nxclass", vstr "NXdata")])]) :=
  ⟨C8_simplified_pipeline_idempotent.1 3 fsOneEntity "d/ref.yml"
      [("src", vdict [("nxclass", vstr "NXsource")])] rfl rfl,
   C8_simplified_pipeline_idempotent.2 5 fsOneEntity "d"
      (vdict [("doc", vstr "top doc"),
        ("zfld", vdict [("nxclass", vstr "NXdata"), ("doc", vstr "inner")]),
        ("nxclass", vstr "NXentry"), ("aval", vint 3)])
      (vdict [("nxclass", vstr "NXentry"), ("aval", vint 3),
        ("zfld", vdict [("nxclass", vstr "NXdata")])])
      rfl rfl rfl 5 (by decide)⟩
